import Mathlib

/-!
# Selector parser (`accounts/abi/selector_parser.go`)

A shallow embedding of the method-selector parser and a verification of its
specification.

## Conventions of the embedding

* A Go `string` is a sequence of bytes: `GoString` is `List Nat`, one entry per
  byte. The parser only compares bytes with ASCII constants, so every byte
  outside the ASCII classes behaves alike. `lit` turns an ASCII literal into
  its bytes.
* A Go function returning `(..., error)` becomes a function into
  `Run (Except Err α)`: `Run.ret (.ok a)` is a return with a nil error,
  `Run.ret (.error e)` a return with error `e` (every error return of the
  source carries zero values for its other results), and `Run.abort` is a call
  that does not return: a run-time panic (slice bounds, failed type assertion)
  or the exhaustion of the recursion budget of the model.
* Index and slice expressions whose bounds are checked in the same condition
  (`len(rest) > 0 && rest[0] == ...`) are pattern matches; those whose bounds
  rest on an earlier computation go through `sliceFrom` and can panic.
* `ParseSelector` returns the Go pair `(m, err)` itself.
-/

namespace SelectorParser

/-- A Go string, as its sequence of bytes. -/
abbrev GoString := List Nat

/-- The bytes of an ASCII literal. -/
def lit (s : String) : GoString := s.toList.map Char.toNat

/-- The raw parse nodes, Go's `interface{}` values built by the parser: a
`string`, a `[]interface{}`, or the nil interface value. -/
inductive Node where
  | str (s : GoString)
  | list (xs : List Node)
  | null

/-- The error values of the source, one constructor per format string.

* `emptyToken`: `"empty token"`
* `invalidTokenStart c`: `"invalid token start: %c"`
* `elementaryType e`: `"failed to parse elementary type: %v"`
* `arrayExpectedBracket c`: `"failed to parse array: expected ']', got %c"`
* `expectedOpenParen s`: `"expected '(...', got %s"`
* `parseType e`: `"failed to parse type: %v"`
* `expectedCloseParen rest`: `"expected ')', got '%s'"`
* `expectedName s`: `"expected name in the beginning, got %s"`
* `emptyType`: `"empty type"`
* `noNameInArg s`: `"no name in arg %s"`
* `noNameInComponents cs`: `"no name in components %s"`
* `assembleComponents e`: `"failed to assemble components: %v"`
* `unexpectedType`: `"failed to assemble args: unexpected type %T"`
* `parseSelector sel e`: `"failed to parse selector '%s': %v"`
* `unexpectedString sel rest`:
  `"failed to parse selector '%s': unexpected string '%s'"`
* `assembleSelector e`: `"failed to parse selector: %v"` -/
inductive Err where
  | emptyToken
  | invalidTokenStart (c : Nat)
  | elementaryType (e : Err)
  | arrayExpectedBracket (c : Nat)
  | expectedOpenParen (s : GoString)
  | parseType (e : Err)
  | expectedCloseParen (rest : GoString)
  | expectedName (s : GoString)
  | emptyType
  | noNameInArg (s : GoString)
  | noNameInComponents (cs : List Node)
  | assembleComponents (e : Err)
  | unexpectedType
  | parseSelector (sel : GoString) (e : Err)
  | unexpectedString (sel rest : GoString)
  | assembleSelector (e : Err)

/-- Why a call does not return. -/
inductive Abort where
  | panic
  | outOfFuel

/-- The outcome of running a call. -/
inductive Run (α : Type) where
  | ret (a : α)
  | abort (why : Abort)

/-- Modelled from the spec: the `ArgumentMarshaling` struct is declared outside
the parser's source file; the parser sets its fields `Name`, `Type`,
`InternalType` and `Components` (the spec's argument descriptor: name, type,
internalType, components). `Typ` is the field `Type`, a reserved word here. -/
inductive ArgumentMarshaling where
  | mk (Name Typ InternalType : GoString) (Components : List ArgumentMarshaling)

/-- The field `Name`. -/
def ArgumentMarshaling.Name : ArgumentMarshaling → GoString
  | .mk name _ _ _ => name

/-- The field `Type`. -/
def ArgumentMarshaling.Typ : ArgumentMarshaling → GoString
  | .mk _ typ _ _ => typ

/-- The field `InternalType`. -/
def ArgumentMarshaling.InternalType : ArgumentMarshaling → GoString
  | .mk _ _ internalType _ => internalType

/-- The field `Components`. -/
def ArgumentMarshaling.Components : ArgumentMarshaling → List ArgumentMarshaling
  | .mk _ _ _ components => components

/-- The `SelectorMarshaling` struct; `Typ` is its field `Type`. -/
structure SelectorMarshaling where
  Name : GoString
  Typ : GoString
  Inputs : List ArgumentMarshaling

/-- The zero value `SelectorMarshaling{}`. -/
def SelectorMarshaling.zero : SelectorMarshaling := ⟨[], [], []⟩

/-! ## Scanner -/

/-- The test `c >= '0' && c <= '9'` -/
def isDigit (c : Nat) : Bool := decide (48 ≤ c) && decide (c ≤ 57)

/-- The test `(c >= 'a' && c <= 'z') || (c >= 'A' && c <= 'Z')` -/
def isAlpha (c : Nat) : Bool :=
  (decide (97 ≤ c) && decide (c ≤ 122)) || (decide (65 ≤ c) && decide (c ≤ 90))

/-- The test `c == ' '` -/
def isSpace (c : Nat) : Bool := decide (c = 32)

/-- The test `c == '$' || c == '_'` -/
def isIdentifierSymbol (c : Nat) : Bool := decide (c = 36) || decide (c = 95)

/-- The condition under which the loop of `parseToken` goes on. -/
def isTokenChar (isIdent : Bool) (char : Nat) : Bool :=
  isAlpha char || isDigit char || (isIdent && isIdentifierSymbol char)
    || (!isIdent && isSpace char)

/-- The loop of `parseToken`: the longest run of token characters, and what
follows it. -/
def scanToken (isIdent : Bool) : GoString → GoString × GoString
  | [] => ([], [])
  | char :: cs =>
    if isTokenChar isIdent char then
      (char :: (scanToken isIdent cs).1, (scanToken isIdent cs).2)
    else ([], char :: cs)

/-- The function `parseToken`. -/
def parseToken (unescapedSelector : GoString) (isIdent : Bool) :
    Except Err (GoString × GoString) :=
  match unescapedSelector with
  | [] => .error .emptyToken
  | firstChar :: cs =>
    if !(isAlpha firstChar || (isIdent && isIdentifierSymbol firstChar)) then
      .error (.invalidTokenStart firstChar)
    else .ok (firstChar :: (scanToken isIdent cs).1, (scanToken isIdent cs).2)

/-- The function `parseIdentifier`. -/
def parseIdentifier (unescapedSelector : GoString) : Except Err (GoString × GoString) :=
  parseToken unescapedSelector true

/-! ## String helpers -/

/-- The call `strings.Split(s, " ")`. -/
def splitSpace : GoString → List GoString
  | [] => [[]]
  | c :: cs =>
    if c = 32 then [] :: splitSpace cs
    else match splitSpace cs with
      | [] => [[c]]
      | p :: ps => (c :: p) :: ps

/-- The slice expression `s[n:]`: `none` is the slice-bounds panic. -/
def sliceFrom (s : GoString) (n : Nat) : Option GoString :=
  if n ≤ s.length then some (s.drop n) else none

/-- The call `fmt.Sprintf("%d", n)` for a non-negative `n`. -/
def decimal (n : Nat) : GoString := lit (Nat.repr n)

/-- The call `fmt.Sprintf("name%d", counter)`; the counter is an `int64` that
counts list members, so it stays below the length of the input and never
wraps. -/
def synthName (counter : Nat) : GoString := lit "name" ++ decimal counter

/-- The call `fmt.Sprintf("%v %v", name, s)`. -/
def joinNameType (name s : GoString) : GoString := name ++ 32 :: s

/-! ## Type grammar -/

/-- The array loop shared by `parseElementaryType` and
`parseElementaryTypeWithName`: `first` is `unescapedSelector`, whose first byte
the error message quotes. The budget bounds the number of iterations. -/
def parseArraySuffixes (first : GoString) : Nat → GoString → GoString →
    Run (Except Err (GoString × GoString))
  | 0, parsedType, rest =>
    match rest with
    | 91 :: _ => .abort .outOfFuel
    | _ => .ret (.ok (parsedType, rest))
  | fuel + 1, parsedType, rest =>
    match rest with
    | 91 :: rest1 =>
      match rest1.dropWhile isDigit with
      | 93 :: rest3 =>
        parseArraySuffixes first fuel
          (parsedType ++ 91 :: rest1.takeWhile isDigit ++ [93]) rest3
      | _ =>
        match first with
        | [] => .abort .panic
        | c :: _ => .ret (.error (.arrayExpectedBracket c))
    | _ => .ret (.ok (parsedType, rest))

/-- The function `parseElementaryType`. -/
def parseElementaryType (unescapedSelector : GoString) :
    Run (Except Err (GoString × GoString)) :=
  match parseToken unescapedSelector false with
  | .error e => .ret (.error (.elementaryType e))
  | .ok (parsedType, rest) =>
    let stripped : Option GoString :=
      match splitSpace parsedType with
      | part0 :: _ :: _ => sliceFrom parsedType (part0.length + 1)
      | _ => some parsedType
    match stripped with
    | none => .abort .panic
    | some parsedType => parseArraySuffixes unescapedSelector rest.length parsedType rest

/-- The function `parseElementaryTypeWithName`. -/
def parseElementaryTypeWithName (unescapedSelector : GoString) :
    Run (Except Err (GoString × GoString)) :=
  match parseToken unescapedSelector false with
  | .error e => .ret (.error (.elementaryType e))
  | .ok (parsedType, rest) => parseArraySuffixes unescapedSelector rest.length parsedType rest

/-- The end of `parseCompositeTypeWithName` and of `parseFunctionsArgs`, after
their loop: the closing parenthesis and the `[]` that may follow it. -/
def closeArgs (result : List Node) (rest : GoString) :
    Run (Except Err (List Node × GoString)) :=
  match rest with
  | 41 :: rest1 =>
    match rest1 with
    | 91 :: 93 :: rest3 => .ret (.ok (result ++ [Node.str (lit "[]")], rest3))
    | _ => .ret (.ok (result, rest1))
  | _ => .ret (.error (.expectedCloseParen rest))

/-- The conversion to `interface{}` of the first result of a call, at
`return parseCompositeTypeWithName(...)` and
`return parseElementaryTypeWithName(...)`. -/
def boxResult {α : Type} (box : α → Node) :
    Run (Except Err (α × GoString)) → Run (Except Err (Node × GoString))
  | .ret (.ok (v, rest)) => .ret (.ok (box v, rest))
  | .ret (.error e) => .ret (.error e)
  | .abort a => .abort a

mutual

/-- The function `parseTypeWithName`. -/
def parseTypeWithName : Nat → GoString → Nat → Run (Except Err (Node × GoString))
  | 0, _, _ => .abort .outOfFuel
  | fuel + 1, unescapedSelector, counter =>
    let (name, rest) :=
      match parseIdentifier unescapedSelector with
      | .ok (name, rest) => (name, rest)
      | .error _ => ([], [])
    let named : Option (GoString × GoString) :=
      match rest with
      | 32 :: _ =>
        match sliceFrom unescapedSelector (name.length + 1) with
        | some s => some (name, s)
        | none => none
      | _ => some (synthName counter, unescapedSelector)
    match named with
    | none => .abort .panic
    | some (_, []) => .ret (.error .emptyType)
    | some (name, 40 :: cs) =>
      boxResult Node.list (parseCompositeTypeWithName fuel (joinNameType name (40 :: cs)))
    | some (name, c :: cs) =>
      boxResult Node.str (parseElementaryTypeWithName (joinNameType name (c :: cs)))

/-- The function `parseCompositeTypeWithName`. -/
def parseCompositeTypeWithName : Nat → GoString → Run (Except Err (List Node × GoString))
  | 0, _ => .abort .outOfFuel
  | fuel + 1, unescapedSelector =>
    match splitSpace unescapedSelector with
    | name :: _ :: _ =>
      match sliceFrom unescapedSelector (name.length + 1) with
      | none => .abort .panic
      | some (40 :: s1) =>
        match parseTypeWithName fuel s1 0 with
        | .ret (.ok (parsedType, rest)) =>
          match parseArgsLoop fuel [Node.str name, parsedType] rest 0 with
          | .ret (.ok (result, rest)) => closeArgs result rest
          | .ret (.error e) => .ret (.error e)
          | .abort a => .abort a
        | .ret (.error e) => .ret (.error (.parseType e))
        | .abort a => .abort a
      | some s => .ret (.error (.expectedOpenParen s))
    | _ => .ret (.error (.expectedName unescapedSelector))

/-- The loop `for len(rest) > 0 && rest[0] != ')'` of
`parseCompositeTypeWithName` and of `parseFunctionsArgs`. -/
def parseArgsLoop : Nat → List Node → GoString → Nat →
    Run (Except Err (List Node × GoString))
  | 0, _, _, _ => .abort .outOfFuel
  | fuel + 1, result, rest, counter =>
    match rest with
    | [] => .ret (.ok (result, rest))
    | c :: rest1 =>
      if c = 41 then .ret (.ok (result, rest))
      else
        match parseTypeWithName fuel rest1 (counter + 1) with
        | .ret (.ok (parsedType, rest)) =>
          parseArgsLoop fuel (result ++ [parsedType]) rest (counter + 1)
        | .ret (.error e) => .ret (.error (.parseType e))
        | .abort a => .abort a

end

/-- The function `parseFunctionsArgs`. -/
def parseFunctionsArgs (fuel : Nat) (unescapedSelector : GoString) :
    Run (Except Err (List Node × GoString)) :=
  match unescapedSelector with
  | 40 :: s1 =>
    match parseTypeWithName fuel s1 0 with
    | .ret (.ok (parsedType, rest)) =>
      match parseArgsLoop fuel [parsedType] rest 0 with
      | .ret (.ok (result, rest)) => closeArgs result rest
      | .ret (.error e) => .ret (.error e)
      | .abort a => .abort a
    | .ret (.error e) => .ret (.error (.parseType e))
    | .abort a => .abort a
  | _ => .ret (.error (.expectedOpenParen unescapedSelector))

/-! ## The unnamed type grammar -/

mutual

/-- The function `parseType`. -/
def parseType : Nat → GoString → Run (Except Err (Node × GoString))
  | 0, _ => .abort .outOfFuel
  | fuel + 1, unescapedSelector =>
    let stripped : Option GoString :=
      match splitSpace unescapedSelector with
      | part0 :: _ :: _ => sliceFrom unescapedSelector (part0.length + 1)
      | _ => some unescapedSelector
    match stripped with
    | none => .abort .panic
    | some [] => .ret (.error .emptyType)
    | some (40 :: cs) => boxResult Node.list (parseCompositeType fuel (40 :: cs))
    | some (c :: cs) => boxResult Node.str (parseElementaryType (c :: cs))

/-- The function `parseCompositeType`. -/
def parseCompositeType : Nat → GoString → Run (Except Err (List Node × GoString))
  | 0, _ => .abort .outOfFuel
  | fuel + 1, unescapedSelector =>
    match unescapedSelector with
    | 40 :: s1 =>
      match parseType fuel s1 with
      | .ret (.ok (parsedType, rest)) =>
        match parseTypesLoop fuel [parsedType] rest with
        | .ret (.ok (result, rest)) => closeArgs result rest
        | .ret (.error e) => .ret (.error e)
        | .abort a => .abort a
      | .ret (.error e) => .ret (.error (.parseType e))
      | .abort a => .abort a
    | _ => .ret (.error (.expectedOpenParen unescapedSelector))

/-- The loop `for len(rest) > 0 && rest[0] != ')'` of `parseCompositeType`. -/
def parseTypesLoop : Nat → List Node → GoString → Run (Except Err (List Node × GoString))
  | 0, _, _ => .abort .outOfFuel
  | fuel + 1, result, rest =>
    match rest with
    | [] => .ret (.ok (result, rest))
    | c :: rest1 =>
      if c = 41 then .ret (.ok (result, rest))
      else
        match parseType fuel rest1 with
        | .ret (.ok (parsedType, rest)) =>
          parseTypesLoop fuel (result ++ [parsedType]) rest
        | .ret (.error e) => .ret (.error (.parseType e))
        | .abort a => .abort a

end

/-! ## Tree assembler -/

/-- The test `len(subArgs) != 0 && subArgs[len(subArgs)-1].Type == "[]"` -/
def endsWithMarker (subArgs : List ArgumentMarshaling) : Bool :=
  match subArgs.getLast? with
  | some last => decide (last.Typ = lit "[]")
  | none => false

mutual

/-- The function `assembleArgs`. -/
def assembleArgs : List Node → Run (Except Err (List ArgumentMarshaling))
  | [] => .ret (.ok [])
  | arg :: args =>
    match assembleArg arg with
    | .ret (.ok argument) =>
      match assembleArgs args with
      | .ret (.ok arguments) => .ret (.ok (argument :: arguments))
      | .ret (.error e) => .ret (.error e)
      | .abort a => .abort a
    | .ret (.error e) => .ret (.error e)
    | .abort a => .abort a

/-- The body of the loop of `assembleArgs`, for one `arg`. -/
def assembleArg : Node → Run (Except Err ArgumentMarshaling)
  | .str s =>
    if s = lit "[]" then .ret (.ok (.mk [] s s []))
    else
      match splitSpace s with
      | name :: _ :: _ =>
        match sliceFrom s (name.length + 1) with
        | none => .abort .panic
        | some s => .ret (.ok (.mk name s s []))
      | _ => .ret (.error (.noNameInArg s))
  | .list components =>
    match components with
    | c0 :: c1 :: cs =>
      match c0 with
      | .str name =>
        match assembleArgs (c1 :: cs) with
        | .ret (.ok subArgs) =>
          if endsWithMarker subArgs then
            .ret (.ok (.mk name (lit "tuple[]") (lit "tuple[]") subArgs.dropLast))
          else .ret (.ok (.mk name (lit "tuple") (lit "tuple") subArgs))
        | .ret (.error e) => .ret (.error (.assembleComponents e))
        | .abort a => .abort a
      | _ => .abort .panic
    | _ => .ret (.error (.noNameInComponents components))
  | .null => .ret (.error .unexpectedType)

end

/-! ## Top-level driver -/

/-- The function `ParseSelector`. The recursion budget handed to the argument
parser is `2 * len(unescapedSelector) + 1`. -/
def ParseSelector (unescapedSelector : GoString) : Run (SelectorMarshaling × Option Err) :=
  match parseIdentifier unescapedSelector with
  | .error e => .ret (SelectorMarshaling.zero, some (.parseSelector unescapedSelector e))
  | .ok (name, rest) =>
    let parsed : Run (Except Err (List Node × GoString)) :=
      match rest with
      | 40 :: 41 :: rest2 => .ret (.ok ([], rest2))
      | _ => parseFunctionsArgs (2 * unescapedSelector.length + 1) rest
    match parsed with
    | .ret (.ok (args, rest)) =>
      match rest with
      | _ :: _ =>
        .ret (SelectorMarshaling.zero, some (.unexpectedString unescapedSelector rest))
      | [] =>
        match assembleArgs args with
        | .ret (.ok fakeArgs) => .ret (⟨name, lit "function", fakeArgs⟩, none)
        | .ret (.error e) => .ret (SelectorMarshaling.zero, some (.assembleSelector e))
        | .abort a => .abort a
    | .ret (.error e) =>
      .ret (SelectorMarshaling.zero, some (.parseSelector unescapedSelector e))
    | .abort a => .abort a

/-! ## The vocabulary of the specification -/

/-- A letter or a digit. -/
def isAlnum (c : Nat) : Bool := isAlpha c || isDigit c

/-- An identifier: non-empty, over ASCII letters, digits, `$` and `_`, not
starting with a digit. -/
def isIdentifier : GoString → Bool
  | [] => false
  | c :: cs =>
    !isDigit c && (c :: cs).all (fun d => isAlpha d || isDigit d || isIdentifierSymbol d)

/-- A token of letters and digits that starts with a letter. -/
def isAlnumToken : GoString → Bool
  | [] => false
  | c :: cs => isAlpha c && cs.all isAlnum

/-- One array suffix: `[`, digits, `]`. -/
def arraySuffix (ds : GoString) : GoString := 91 :: ds ++ [93]

/-- A run of array suffixes, one per digit string. -/
def arraySuffixes (sfx : List GoString) : GoString := (sfx.map arraySuffix).flatten

/-- An elementary type string: an ASCII letter, then letters and digits, then
zero or more array suffixes `[` digits `]`. -/
def IsElementaryType (t : GoString) : Prop :=
  ∃ (a : Nat) (body : GoString) (sfx : List GoString),
    t = a :: body ++ arraySuffixes sfx ∧ isAlpha a = true ∧
      (∀ c ∈ body, isAlnum c = true) ∧ ∀ d ∈ sfx, ∀ c ∈ d, isDigit c = true

/-- The members of a list written one after the other, separated by commas:
`t_0 ++ "," ++ ... ++ "," ++ t_{n-1}`. -/
def commaSep (ts : List GoString) : GoString := List.intercalate [44] ts

/-- The descriptor of an elementary argument. -/
def elementaryArg (name typ : GoString) : ArgumentMarshaling := .mk name typ typ []

/-- The descriptor of a tuple argument. -/
def tupleArg (name : GoString) (components : List ArgumentMarshaling) : ArgumentMarshaling :=
  .mk name (lit "tuple") (lit "tuple") components

/-- The descriptor of a tuple-array argument. -/
def tupleArrayArg (name : GoString) (components : List ArgumentMarshaling) :
    ArgumentMarshaling :=
  .mk name (lit "tuple[]") (lit "tuple[]") components

/-- The descriptors of unnamed elementary arguments: the `i`-th of them, counted
from `k`, is named `"name" ++ decimal (k + i)`. -/
def synthArgsFrom : Nat → List GoString → List ArgumentMarshaling
  | _, [] => []
  | k, t :: ts => elementaryArg (synthName k) t :: synthArgsFrom (k + 1) ts

/-- What follows a type: nothing, or a byte that ends a type-mode token and
opens no array suffix. -/
def StopsType (tail : GoString) : Prop :=
  ∀ c, tail.head? = some c → isTokenChar false c = false ∧ c ≠ 91

/-- What follows an argument: nothing, or a byte that ends a token in both
modes and opens no array suffix. -/
def StopsArg (tail : GoString) : Prop :=
  ∀ c, tail.head? = some c →
    isTokenChar true c = false ∧ isTokenChar false c = false ∧ c ≠ 91

/-- The text of the members that follow the first one, each after its comma. -/
def argTail (ts : List GoString) : GoString := (ts.map (fun t => 44 :: t)).flatten

/-- The raw nodes of unnamed elementary arguments, counted from `k`. -/
def synthNodesFrom : Nat → List GoString → List Node
  | _, [] => []
  | k, t :: ts => Node.str (joinNameType (synthName k) t) :: synthNodesFrom (k + 1) ts

/-- The continuation class of `parseToken`, in the words of the specification:
a letter, a digit, `$` or `_` in identifier mode, a space in type mode. -/
def continuesToken (isIdent : Bool) (c : Nat) : Prop :=
  isAlpha c = true ∨ isDigit c = true ∨ (isIdent = true ∧ (c = 36 ∨ c = 95))
    ∨ (isIdent = false ∧ c = 32)

/-- The start class of `parseToken`: a letter, or `$` or `_` in identifier
mode. -/
def startsToken (isIdent : Bool) (c : Nat) : Prop :=
  isAlpha c = true ∨ (isIdent = true ∧ (c = 36 ∨ c = 95))

/-- The text of the members that follow the first one, each after the
separator byte `c`. -/
def sepTail (c : Nat) (ts : List GoString) : GoString := (ts.map (fun t => c :: t)).flatten

/-- The descriptor `d` occurs in the list `l`: it is a member of `l`, or it
occurs in the components of a member of `l` (at any nesting depth). -/
inductive Occurs : ArgumentMarshaling → List ArgumentMarshaling → Prop
  | here {d : ArgumentMarshaling} {l : List ArgumentMarshaling} : d ∈ l → Occurs d l
  | inside {d a : ArgumentMarshaling} {l : List ArgumentMarshaling} :
      a ∈ l → Occurs d a.Components → Occurs d l

/-- The shape of the raw nodes the parser builds: a string whose text
satisfies `Q`, or a list that starts with a string (the name) and goes on with
nodes of that shape. -/
inductive GoodNode (Q : GoString → Prop) : Node → Prop
  | str {s : GoString} : Q s → GoodNode Q (Node.str s)
  | list {name : GoString} {xs : List Node} :
      (∀ n ∈ xs, GoodNode Q n) → GoodNode Q (Node.list (Node.str name :: xs))

/-- What the parser can put in a string node when it reads the selector `s0`:
the marker `"[]"`, or, when `s0` has no space, a synthesized name, one space
and text made of bytes of `s0`. -/
def NodeText (s0 : GoString) (x : GoString) : Prop :=
  x = lit "[]" ∨ 32 ∈ s0 ∨ ∃ (k : Nat) (t : GoString), x = joinNameType (synthName k) t ∧
    ∀ c ∈ t, c ∈ s0

/-- The invariant of `parseTypeWithName` at the budget `F`, for the selector
`s0`: on text made of bytes of `s0` the call does not panic, does not exhaust a
budget of at least `2 * len(s) + 1`, and on success returns a node of the
parser's shape and a suffix of its argument. -/
def InvType (s0 : GoString) (F : Nat) : Prop :=
  ∀ (s : GoString) (k : Nat), (∀ c ∈ s, c ∈ s0) →
    parseTypeWithName F s k ≠ .abort .panic
    ∧ (2 * s.length + 1 ≤ F → parseTypeWithName F s k ≠ .abort .outOfFuel)
    ∧ ∀ node rest, parseTypeWithName F s k = .ret (.ok (node, rest)) →
        GoodNode (NodeText s0) node ∧ rest <:+ s

/-- The invariant of `parseCompositeTypeWithName` at the budget `F`, called on
a name without a space, a space, and a parenthesis followed by `cs`. -/
def InvComposite (s0 : GoString) (F : Nat) : Prop :=
  ∀ (name cs : GoString), (∀ c ∈ name, c ≠ 32) → (∀ c ∈ cs, c ∈ s0) →
    parseCompositeTypeWithName F (joinNameType name (40 :: cs)) ≠ .abort .panic
    ∧ (2 * cs.length + 2 ≤ F →
        parseCompositeTypeWithName F (joinNameType name (40 :: cs)) ≠ .abort .outOfFuel)
    ∧ ∀ result rest,
        parseCompositeTypeWithName F (joinNameType name (40 :: cs)) = .ret (.ok (result, rest)) →
        GoodNode (NodeText s0) (Node.list result) ∧ rest <:+ cs

/-- The invariant of the argument loop at the budget `F`. -/
def InvLoop (s0 : GoString) (F : Nat) : Prop :=
  ∀ (result : List Node) (rest : GoString) (k : Nat), (∀ c ∈ rest, c ∈ s0) →
    parseArgsLoop F result rest k ≠ .abort .panic
    ∧ (2 * rest.length + 1 ≤ F → parseArgsLoop F result rest k ≠ .abort .outOfFuel)
    ∧ ∀ res rest2, parseArgsLoop F result rest k = .ret (.ok (res, rest2)) →
        rest2 <:+ rest ∧ ∃ new, res = result ++ new ∧ ∀ n ∈ new, GoodNode (NodeText s0) n

/-- The argument list as `ParseSelector` reads it after the name: the empty
shorthand `()`, or `parseFunctionsArgs`. -/
def parseSelectorArgs (unescapedSelector rest : GoString) :
    Run (Except Err (List Node × GoString)) :=
  match rest with
  | 40 :: 41 :: rest2 => .ret (.ok ([], rest2))
  | _ => parseFunctionsArgs (2 * unescapedSelector.length + 1) rest

/-- The end of `ParseSelector`, once the argument list is read: the check of
the remainder and the assembly. -/
def finishSelector (unescapedSelector name : GoString)
    (parsed : Run (Except Err (List Node × GoString))) :
    Run (SelectorMarshaling × Option Err) :=
  match parsed with
  | .ret (.ok (args, rest)) =>
    match rest with
    | _ :: _ =>
      .ret (SelectorMarshaling.zero, some (.unexpectedString unescapedSelector rest))
    | [] =>
      match assembleArgs args with
      | .ret (.ok fakeArgs) => .ret (⟨name, lit "function", fakeArgs⟩, none)
      | .ret (.error e) => .ret (SelectorMarshaling.zero, some (.assembleSelector e))
      | .abort a => .abort a
  | .ret (.error e) =>
    .ret (SelectorMarshaling.zero, some (.parseSelector unescapedSelector e))
  | .abort a => .abort a

/-- The text starts with an ASCII letter. -/
def StartsWithLetter (t : GoString) : Prop := ∃ a r, t = a :: r ∧ isAlpha a = true

/-- What the parser puts in a string node: the marker `"[]"`, or the first
result of a successful call of `parseElementaryTypeWithName`. -/
def ParsedText (x : GoString) : Prop :=
  x = lit "[]" ∨ ∃ x0 rest, parseElementaryTypeWithName x0 = .ret (.ok (x, rest))

/-! ## Scanner lemmas -/

theorem digitChar_isDigit : ∀ m, m < 10 → isDigit (Nat.digitChar m).toNat = true := by decide

theorem toDigitsCore_isDigit (fuel : Nat) : ∀ (n : Nat) (ds : List Char),
    (∀ c ∈ ds, isDigit c.toNat = true) →
    ∀ c ∈ Nat.toDigitsCore 10 fuel n ds, isDigit c.toNat = true := by
  induction fuel with
  | zero => intro n ds h; simpa [Nat.toDigitsCore] using h
  | succ fuel ih =>
    intro n ds h
    have hd : isDigit (Nat.digitChar (n % 10)).toNat = true :=
      digitChar_isDigit _ (Nat.mod_lt _ (by decide))
    simp only [Nat.toDigitsCore]
    split
    · intro c hc
      rcases List.mem_cons.1 hc with rfl | hc
      · exact hd
      · exact h c hc
    · apply ih
      intro c hc
      rcases List.mem_cons.1 hc with rfl | hc
      · exact hd
      · exact h c hc

theorem decimal_isDigit (n : Nat) : ∀ c ∈ decimal n, isDigit c = true := by
  intro c hc
  simp only [decimal, lit, Nat.repr, List.asString, Nat.toDigits, List.mem_map] at hc
  obtain ⟨ch, hch, rfl⟩ := hc
  exact toDigitsCore_isDigit _ _ _ (by simp) ch hch

theorem scanToken_append (b : Bool) (body tail : GoString)
    (hbody : ∀ c ∈ body, isTokenChar b c = true)
    (htail : ∀ c, tail.head? = some c → isTokenChar b c = false) :
    scanToken b (body ++ tail) = (body, tail) := by
  induction body with
  | nil =>
    cases tail with
    | nil => rfl
    | cons c cs => simp [scanToken, htail c rfl]
  | cons c cs ih =>
    have hc := hbody c (List.mem_cons_self _ _)
    have := ih (fun d hd => hbody d (List.mem_cons_of_mem _ hd))
    simp [scanToken, hc, this]

theorem splitSpace_ne_nil (s : GoString) : splitSpace s ≠ [] := by
  induction s with
  | nil => simp [splitSpace]
  | cons c cs ih =>
    simp only [splitSpace]
    split
    · simp
    · split <;> simp

theorem splitSpace_append (name s : GoString) (h : ∀ c ∈ name, c ≠ 32) :
    splitSpace (name ++ 32 :: s) = name :: splitSpace s := by
  induction name with
  | nil => simp [splitSpace]
  | cons c cs ih =>
    have hc : c ≠ 32 := h c (List.mem_cons_self _ _)
    have := ih (fun d hd => h d (List.mem_cons_of_mem _ hd))
    simp [splitSpace, hc, this]

theorem sliceFrom_append (name s : GoString) :
    sliceFrom (name ++ 32 :: s) (name.length + 1) = some s := by
  simp [sliceFrom]

theorem takeWhile_digits (ds r : GoString) (h : ∀ c ∈ ds, isDigit c = true) :
    (ds ++ 93 :: r).takeWhile isDigit = ds ∧ (ds ++ 93 :: r).dropWhile isDigit = 93 :: r := by
  induction ds with
  | nil => simp [List.takeWhile, List.dropWhile, isDigit]
  | cons c cs ih =>
    have hc := h c (List.mem_cons_self _ _)
    have := ih (fun d hd => h d (List.mem_cons_of_mem _ hd))
    simp [List.takeWhile, List.dropWhile, hc, this]

theorem arraySuffixes_length (sfx : List GoString) :
    sfx.length ≤ (arraySuffixes sfx).length := by
  induction sfx with
  | nil => simp [arraySuffixes]
  | cons d ds ih =>
    simp only [arraySuffixes, List.map_cons, List.flatten_cons, List.length_append,
      arraySuffix, List.length_cons] at ih ⊢
    omega

theorem parseArraySuffixes_append (first : GoString) (sfx : List GoString)
    (hsfx : ∀ d ∈ sfx, ∀ c ∈ d, isDigit c = true) (tail : GoString)
    (htail : ∀ c, tail.head? = some c → c ≠ 91) :
    ∀ (fuel : Nat) (parsedType : GoString), sfx.length ≤ fuel →
      parseArraySuffixes first fuel parsedType (arraySuffixes sfx ++ tail)
        = .ret (.ok (parsedType ++ arraySuffixes sfx, tail)) := by
  induction sfx with
  | nil =>
    intro fuel parsedType _
    cases tail with
    | nil => cases fuel <;> simp [arraySuffixes, parseArraySuffixes]
    | cons c cs =>
      have hc : c ≠ 91 := htail c rfl
      cases fuel <;> simp [arraySuffixes, parseArraySuffixes, hc]
  | cons d ds ih =>
    intro fuel parsedType hfuel
    obtain ⟨fuel, rfl⟩ : ∃ f, fuel = f + 1 := ⟨fuel - 1, by simp at hfuel; omega⟩
    have hd := takeWhile_digits d (arraySuffixes ds ++ tail) (hsfx d (List.mem_cons_self _ _))
    have ih' := ih (fun e he => hsfx e (List.mem_cons_of_mem _ he)) fuel
      (parsedType ++ 91 :: d ++ [93]) (by simp at hfuel; omega)
    have e : arraySuffixes (d :: ds) ++ tail
        = 91 :: (d ++ 93 :: (arraySuffixes ds ++ tail)) := by
      simp [arraySuffixes, arraySuffix]
    rw [e]
    simp only [parseArraySuffixes, hd.1, hd.2]
    rw [ih']
    simp [arraySuffixes, arraySuffix]

/-! ## Parsing one argument -/

theorem isAlpha_tokenChar (b : Bool) (c : Nat) (h : isAlpha c = true) :
    isTokenChar b c = true := by simp [isTokenChar, h]

theorem isAlnum_tokenChar (b : Bool) (c : Nat) (h : isAlnum c = true) :
    isTokenChar b c = true := by
  simp only [isAlnum, Bool.or_eq_true] at h
  rcases h with h | h <;> simp [isTokenChar, h]

theorem isAlpha_ne (c : Nat) (h : isAlpha c = true) : c ≠ 40 ∧ c ≠ 32 := by
  simp only [isAlpha, Bool.or_eq_true, Bool.and_eq_true, decide_eq_true_eq] at h
  omega

theorem isAlnum_ne_space (c : Nat) (h : isAlnum c = true) : c ≠ 32 := by
  simp only [isAlnum, isAlpha, isDigit, Bool.or_eq_true, Bool.and_eq_true,
    decide_eq_true_eq] at h
  omega

theorem lit_name : lit "name" = [110, 97, 109, 101] := by decide

theorem synthName_token (k : Nat) : isAlnumToken (synthName k) = true := by
  have h := decimal_isDigit k
  simp only [synthName, lit_name, isAlnumToken, List.cons_append, List.nil_append,
    List.all_cons, Bool.and_eq_true, List.all_eq_true]
  refine ⟨by decide, by decide, by decide, by decide, ?_⟩
  intro c hc
  simp [isAlnum, h c hc]

theorem isAlnumToken_iff (name : GoString) (h : isAlnumToken name = true) :
    ∃ n0 ns, name = n0 :: ns ∧ isAlpha n0 = true ∧ ∀ c ∈ ns, isAlnum c = true := by
  cases name with
  | nil => simp [isAlnumToken] at h
  | cons n0 ns =>
    simp only [isAlnumToken, Bool.and_eq_true, List.all_eq_true] at h
    exact ⟨n0, ns, rfl, h.1, h.2⟩

theorem isAlnumToken_nospace (name : GoString) (h : isAlnumToken name = true) :
    ∀ c ∈ name, c ≠ 32 := by
  obtain ⟨n0, ns, rfl, h0, hs⟩ := isAlnumToken_iff name h
  intro c hc
  rcases List.mem_cons.1 hc with rfl | hc
  · exact (isAlpha_ne _ h0).2
  · exact isAlnum_ne_space _ (hs c hc)

theorem head_suffixes_tail (sfx : List GoString) (tail : GoString) (b : Bool)
    (htail : ∀ c, tail.head? = some c → isTokenChar b c = false) :
    ∀ c, (arraySuffixes sfx ++ tail).head? = some c → isTokenChar b c = false := by
  cases sfx with
  | nil => simpa [arraySuffixes] using htail
  | cons d ds =>
    intro c hc
    simp [arraySuffixes, arraySuffix] at hc
    subst hc
    cases b <;> decide

theorem parseElementaryTypeWithName_joined (name t tail : GoString)
    (hname : isAlnumToken name = true) (ht : IsElementaryType t) (htail : StopsType tail) :
    parseElementaryTypeWithName (joinNameType name t ++ tail)
      = .ret (.ok (joinNameType name t, tail)) := by
  obtain ⟨n0, ns, rfl, hn0, hns⟩ := isAlnumToken_iff name hname
  obtain ⟨a, body, sfx, rfl, ha, hbody, hsfx⟩ := ht
  have hscan : scanToken false ((ns ++ 32 :: a :: body) ++ (arraySuffixes sfx ++ tail))
      = (ns ++ 32 :: a :: body, arraySuffixes sfx ++ tail) := by
    apply scanToken_append
    · intro c hc
      rcases List.mem_append.1 hc with hc | hc
      · exact isAlnum_tokenChar _ _ (hns c hc)
      · rcases List.mem_cons.1 hc with rfl | hc
        · decide
        · rcases List.mem_cons.1 hc with rfl | hc
          · exact isAlpha_tokenChar _ _ ha
          · exact isAlnum_tokenChar _ _ (hbody c hc)
    · exact head_suffixes_tail sfx tail false (fun c hc => (htail c hc).1)
  have e : joinNameType (n0 :: ns) (a :: body ++ arraySuffixes sfx) ++ tail
      = n0 :: ((ns ++ 32 :: a :: body) ++ (arraySuffixes sfx ++ tail)) := by
    simp [joinNameType]
  rw [e]
  simp only [parseElementaryTypeWithName, parseToken, hn0, hscan]
  simp only [Bool.true_or, Bool.not_true, Bool.false_eq_true, if_false]
  rw [parseArraySuffixes_append _ sfx hsfx tail (fun c hc => (htail c hc).2)]
  · simp [joinNameType]
  · have := arraySuffixes_length sfx
    simp only [List.length_append]
    omega


theorem parseTypeWithName_synth (fuel k : Nat) (c : Nat) (cs : GoString) (hc : c ≠ 40)
    (hid : ∀ name rest, parseIdentifier (c :: cs) = .ok (name, rest) →
      rest.head? ≠ some 32) :
    parseTypeWithName (fuel + 1) (c :: cs) k
      = boxResult Node.str (parseElementaryTypeWithName (joinNameType (synthName k) (c :: cs))) := by
  cases hpi : parseIdentifier (c :: cs) with
  | error e => simp [parseTypeWithName, hpi, hc]
  | ok p =>
    obtain ⟨name, rest⟩ := p
    have hr := hid name rest hpi
    cases rest with
    | nil => simp [parseTypeWithName, hpi, hc]
    | cons r rs =>
      have hr32 : r ≠ 32 := by simpa using hr
      simp [parseTypeWithName, hpi, hc, hr32]

theorem parseTypeWithName_paren (fuel k : Nat) (cs : GoString) :
    parseTypeWithName (fuel + 1) (40 :: cs) k
      = boxResult Node.list
          (parseCompositeTypeWithName fuel (joinNameType (synthName k) (40 :: cs))) := by
  have hpi : parseIdentifier (40 :: cs) = .error (.invalidTokenStart 40) := by
    simp [parseIdentifier, parseToken, isAlpha, isIdentifierSymbol]
  simp [parseTypeWithName, hpi]

theorem parseTypeWithName_explicit (fuel k : Nat) (name : GoString) (c : Nat) (cs : GoString)
    (hc : c ≠ 40)
    (hpi : parseIdentifier (name ++ 32 :: c :: cs) = .ok (name, 32 :: c :: cs)) :
    parseTypeWithName (fuel + 1) (name ++ 32 :: c :: cs) k
      = boxResult Node.str (parseElementaryTypeWithName (joinNameType name (c :: cs))) := by
  simp [parseTypeWithName, hpi, hc, sliceFrom_append]

theorem parseTypeWithName_unnamed (fuel k : Nat) (t tail : GoString)
    (ht : IsElementaryType t) (htail : StopsType tail)
    (hid : ∀ name rest, parseIdentifier (t ++ tail) = .ok (name, rest) →
      rest.head? ≠ some 32) :
    parseTypeWithName (fuel + 1) (t ++ tail) k
      = .ret (.ok (Node.str (joinNameType (synthName k) t), tail)) := by
  have hp := parseElementaryTypeWithName_joined (synthName k) t tail (synthName_token k) ht htail
  obtain ⟨a, body, sfx, rfl, ha, hbody, hsfx⟩ := ht
  have e : joinNameType (synthName k) (a :: body ++ arraySuffixes sfx) ++ tail
      = joinNameType (synthName k) (a :: body ++ arraySuffixes sfx ++ tail) := by
    simp [joinNameType]
  rw [e] at hp
  have h := parseTypeWithName_synth fuel k a (body ++ arraySuffixes sfx ++ tail)
    (isAlpha_ne a ha).1 (by simpa using hid)
  simp only [List.cons_append, List.append_assoc] at h hp ⊢
  rw [h, hp]
  rfl


theorem StopsArg.stopsType {tail : GoString} (h : StopsArg tail) : StopsType tail :=
  fun c hc => ⟨(h c hc).2.1, (h c hc).2.2⟩

theorem stopsArg_nil : StopsArg [] := by intro c hc; simp at hc

theorem stopsArg_comma (r : GoString) : StopsArg (44 :: r) := by
  intro c hc
  simp only [List.head?_cons, Option.some.injEq] at hc
  subst hc
  decide

theorem stopsArg_close (r : GoString) : StopsArg (41 :: r) := by
  intro c hc
  simp only [List.head?_cons, Option.some.injEq] at hc
  subst hc
  decide

theorem stopsArg_argTail (ts : List GoString) (tail : GoString) (h : StopsArg tail) :
    StopsArg (argTail ts ++ tail) := by
  cases ts with
  | nil => simpa [argTail] using h
  | cons t ts => simpa [argTail] using stopsArg_comma _

theorem head_suffixes (P : Nat → Prop) (sfx : List GoString) (tail : GoString)
    (h91 : P 91) (htail : ∀ c, tail.head? = some c → P c) :
    ∀ c, (arraySuffixes sfx ++ tail).head? = some c → P c := by
  cases sfx with
  | nil => simpa [arraySuffixes] using htail
  | cons d ds =>
    intro c hc
    simp [arraySuffixes, arraySuffix] at hc
    subst hc
    exact h91

theorem isTokenChar_false_ne_space (c : Nat) (h : isTokenChar false c = false) : c ≠ 32 := by
  rintro rfl
  simp [isTokenChar, isSpace] at h

theorem parseIdentifier_elementary (t tail : GoString) (ht : IsElementaryType t)
    (htail : StopsArg tail) :
    ∀ name rest, parseIdentifier (t ++ tail) = .ok (name, rest) → rest.head? ≠ some 32 := by
  obtain ⟨a, body, sfx, rfl, ha, hbody, hsfx⟩ := ht
  have hscan : scanToken true (body ++ (arraySuffixes sfx ++ tail))
      = (body, arraySuffixes sfx ++ tail) := by
    apply scanToken_append
    · intro c hc; exact isAlnum_tokenChar _ _ (hbody c hc)
    · exact head_suffixes _ sfx tail (by decide) (fun c hc => (htail c hc).1)
  intro name rest h
  simp only [parseIdentifier, parseToken, List.cons_append, List.append_assoc, ha, hscan,
    Bool.true_or, Bool.not_true, Bool.false_eq_true, if_false, Except.ok.injEq,
    Prod.mk.injEq] at h
  rw [← h.2]
  intro h32
  exact head_suffixes (fun c => c ≠ 32) sfx tail (by decide)
    (fun c hc => isTokenChar_false_ne_space c (htail c hc).2.1) 32 h32 rfl

theorem parseTypeWithName_elem (fuel k : Nat) (t tail : GoString)
    (ht : IsElementaryType t) (htail : StopsArg tail) :
    parseTypeWithName (fuel + 1) (t ++ tail) k
      = .ret (.ok (Node.str (joinNameType (synthName k) t), tail)) :=
  parseTypeWithName_unnamed fuel k t tail ht htail.stopsType
    (parseIdentifier_elementary t tail ht htail)

theorem isAlnumToken_elementary (n : GoString) (h : isAlnumToken n = true) :
    IsElementaryType n := by
  obtain ⟨n0, ns, rfl, h0, hs⟩ := isAlnumToken_iff n h
  exact ⟨n0, ns, [], by simp [arraySuffixes], h0, hs, by simp⟩

theorem parseIdentifier_token (name tail : GoString) (b : Bool)
    (hname : isAlnumToken name = true)
    (htail : ∀ c, tail.head? = some c → isTokenChar b c = false) :
    parseToken (name ++ tail) b = .ok (name, tail) := by
  obtain ⟨n0, ns, rfl, h0, hs⟩ := isAlnumToken_iff name hname
  have hscan : scanToken b (ns ++ tail) = (ns, tail) :=
    scanToken_append b ns tail (fun c hc => isAlnum_tokenChar _ _ (hs c hc)) htail
  simp [parseToken, h0, hscan]

theorem parseTypeWithName_named (fuel k : Nat) (name t tail : GoString)
    (hname : isAlnumToken name = true) (ht : IsElementaryType t) (htail : StopsArg tail) :
    parseTypeWithName (fuel + 1) (joinNameType name t ++ tail) k
      = .ret (.ok (Node.str (joinNameType name t), tail)) := by
  have hp := parseElementaryTypeWithName_joined name t tail hname ht htail.stopsType
  obtain ⟨a, body, sfx, rfl, ha, hbody, hsfx⟩ := ht
  have hpi : parseIdentifier (name ++ 32 :: a :: (body ++ arraySuffixes sfx ++ tail))
      = .ok (name, 32 :: a :: (body ++ arraySuffixes sfx ++ tail)) :=
    parseIdentifier_token name _ true hname (by intro c hc; simp at hc; subst hc; decide)
  have h := parseTypeWithName_explicit fuel k name a (body ++ arraySuffixes sfx ++ tail)
    (isAlpha_ne a ha).1 hpi
  simp only [joinNameType, List.cons_append, List.append_assoc] at h hp ⊢
  rw [h, hp]
  rfl

/-! ## Parsing argument lists -/

theorem commaSep_cons (t : GoString) (ts : List GoString) :
    commaSep (t :: ts) = t ++ argTail ts := by
  induction ts generalizing t with
  | nil => simp [commaSep, argTail, List.intercalate]
  | cons u us ih =>
    have := ih u
    simp only [commaSep, List.intercalate, argTail, List.intersperse, List.flatten_cons,
      List.map_cons] at this ⊢
    simp [this]

theorem argTail_length (ts : List GoString) : ts.length ≤ (argTail ts).length := by
  induction ts with
  | nil => simp [argTail]
  | cons t ts ih =>
    simp only [argTail, List.map_cons, List.flatten_cons, List.length_append,
      List.length_cons] at ih ⊢
    omega

theorem parseArgsLoop_close (fuel : Nat) (result : List Node) (r : GoString) (k : Nat) :
    parseArgsLoop (fuel + 1) result (41 :: r) k = .ret (.ok (result, 41 :: r)) := by
  simp [parseArgsLoop]

theorem parseArgsLoop_nil (fuel : Nat) (result : List Node) (k : Nat) :
    parseArgsLoop (fuel + 1) result [] k = .ret (.ok (result, [])) := by
  simp [parseArgsLoop]

theorem parseArgsLoop_step (fuel : Nat) (result : List Node) (c : Nat) (rest1 : GoString)
    (k : Nat) (hc : c ≠ 41) (parsedType : Node) (rest : GoString)
    (h : parseTypeWithName fuel rest1 (k + 1) = .ret (.ok (parsedType, rest))) :
    parseArgsLoop (fuel + 1) result (c :: rest1) k
      = parseArgsLoop fuel (result ++ [parsedType]) rest (k + 1) := by
  simp [parseArgsLoop, hc, h]

theorem parseArgsLoop_elems (ts : List GoString) (hts : ∀ t ∈ ts, IsElementaryType t)
    (tail : GoString) (htail : StopsArg tail) :
    ∀ (fuel : Nat) (result : List Node) (k : Nat),
      parseArgsLoop (fuel + 1 + ts.length) result (argTail ts ++ tail) k
        = parseArgsLoop (fuel + 1) (result ++ synthNodesFrom (k + 1) ts) tail
            (k + ts.length) := by
  induction ts with
  | nil => intro fuel result k; simp [argTail, synthNodesFrom]
  | cons t ts ih =>
    intro fuel result k
    have ht := hts t (List.mem_cons_self _ _)
    have hp := parseTypeWithName_elem (fuel + ts.length) (k + 1) t (argTail ts ++ tail) ht
      (stopsArg_argTail ts tail htail)
    have e : argTail (t :: ts) ++ tail = 44 :: (t ++ (argTail ts ++ tail)) := by
      simp [argTail]
    have hf : fuel + 1 + (t :: ts).length = (fuel + 1 + ts.length) + 1 := by
      simp; omega
    have hf' : fuel + ts.length + 1 = fuel + 1 + ts.length := by omega
    rw [hf'] at hp
    rw [e, hf, parseArgsLoop_step _ _ 44 _ _ (by decide) _ _ hp,
      ih (fun u hu => hts u (List.mem_cons_of_mem _ hu))]
    have hk : k + 1 + ts.length = k + (t :: ts).length := by simp; omega
    rw [hk]
    simp [synthNodesFrom]

theorem splitSpace_joined (name s : GoString) (h : ∀ c ∈ name, c ≠ 32) :
    ∃ p ps, splitSpace (joinNameType name s) = name :: p :: ps := by
  rw [joinNameType, splitSpace_append name s h]
  cases hs : splitSpace s with
  | nil => exact absurd hs (splitSpace_ne_nil s)
  | cons p ps => exact ⟨p, ps, rfl⟩

theorem parseCompositeTypeWithName_ok (fuel : Nat) (name s1 : GoString)
    (h : ∀ c ∈ name, c ≠ 32) (parsedType : Node) (rest : GoString) (result : List Node)
    (rest2 : GoString)
    (h1 : parseTypeWithName fuel s1 0 = .ret (.ok (parsedType, rest)))
    (h2 : parseArgsLoop fuel [Node.str name, parsedType] rest 0 = .ret (.ok (result, rest2))) :
    parseCompositeTypeWithName (fuel + 1) (joinNameType name (40 :: s1))
      = closeArgs result rest2 := by
  obtain ⟨p, ps, hsp⟩ := splitSpace_joined name (40 :: s1) h
  have hsl : sliceFrom (joinNameType name (40 :: s1)) (name.length + 1) = some (40 :: s1) :=
    sliceFrom_append name _
  simp only [parseCompositeTypeWithName, hsp, hsl, h1, h2]

theorem parseTypeWithName_tuple (fuel k : Nat) (m : GoString) (ms : List GoString)
    (hms : ∀ u ∈ m :: ms, IsElementaryType u) (tail : GoString) :
    parseTypeWithName (fuel + ms.length + 3) (40 :: (commaSep (m :: ms) ++ 41 :: tail)) k
      = boxResult Node.list
          (closeArgs (Node.str (synthName k) :: synthNodesFrom 0 (m :: ms)) (41 :: tail)) := by
  have hm := hms m (List.mem_cons_self _ _)
  have hrest := fun u hu => hms u (List.mem_cons_of_mem _ hu)
  have h1 := parseTypeWithName_elem (fuel + ms.length) 0 m (argTail ms ++ 41 :: tail) hm
    (stopsArg_argTail ms _ (stopsArg_close tail))
  have h2 := parseArgsLoop_elems ms hrest (41 :: tail) (stopsArg_close tail) fuel
    [Node.str (synthName k), Node.str (joinNameType (synthName 0) m)] 0
  have hf : fuel + ms.length + 1 = fuel + 1 + ms.length := by omega
  rw [hf] at h1
  rw [parseArgsLoop_close] at h2
  rw [show fuel + ms.length + 3 = (fuel + 1 + ms.length + 1) + 1 by omega,
    parseTypeWithName_paren, commaSep_cons, List.append_assoc,
    parseCompositeTypeWithName_ok _ _ _ (isAlnumToken_nospace _ (synthName_token k)) _ _ _ _
      h1 h2]
  simp [synthNodesFrom]

/-! ## Assembling -/

theorem lit_marker : lit "[]" = [91, 93] := by decide

theorem assembleArg_str (name t : GoString) (h : ∀ c ∈ name, c ≠ 32) :
    assembleArg (Node.str (joinNameType name t)) = .ret (.ok (elementaryArg name t)) := by
  obtain ⟨p, ps, hsp⟩ := splitSpace_joined name t h
  have hsl : sliceFrom (joinNameType name t) (name.length + 1) = some t :=
    sliceFrom_append name t
  have hne : joinNameType name t ≠ lit "[]" := by
    intro he
    have hmem : (32 : Nat) ∈ joinNameType name t := by simp [joinNameType]
    rw [he, lit_marker] at hmem
    simp at hmem
  simp only [assembleArg, hne, if_false, hsp, hsl]
  rfl

theorem assembleArg_marker :
    assembleArg (Node.str (lit "[]")) = .ret (.ok (.mk [] (lit "[]") (lit "[]") [])) := by
  simp [assembleArg]

theorem assembleArgs_cons (arg : Node) (args : List Node) (a : ArgumentMarshaling)
    (as : List ArgumentMarshaling) (h1 : assembleArg arg = .ret (.ok a))
    (h2 : assembleArgs args = .ret (.ok as)) :
    assembleArgs (arg :: args) = .ret (.ok (a :: as)) := by
  simp [assembleArgs, h1, h2]

theorem assembleArgs_append (xs ys : List Node) (as bs : List ArgumentMarshaling)
    (h1 : assembleArgs xs = .ret (.ok as)) (h2 : assembleArgs ys = .ret (.ok bs)) :
    assembleArgs (xs ++ ys) = .ret (.ok (as ++ bs)) := by
  induction xs generalizing as with
  | nil =>
    simp only [assembleArgs, Run.ret.injEq, Except.ok.injEq] at h1
    subst h1
    simpa using h2
  | cons x xs ih =>
    simp only [assembleArgs] at h1
    cases hx : assembleArg x with
    | abort w => simp [hx] at h1
    | ret r =>
      cases r with
      | error e => simp [hx] at h1
      | ok a =>
        cases hxs : assembleArgs xs with
        | abort w => simp [hx, hxs] at h1
        | ret r =>
          cases r with
          | error e => simp [hx, hxs] at h1
          | ok as' =>
            simp only [hx, hxs, Run.ret.injEq, Except.ok.injEq] at h1
            subst h1
            have := ih as' hxs
            simp [assembleArgs, hx, this]

theorem assembleArgs_synth (ts : List GoString) :
    ∀ k, assembleArgs (synthNodesFrom k ts) = .ret (.ok (synthArgsFrom k ts)) := by
  induction ts with
  | nil => intro k; simp [synthNodesFrom, synthArgsFrom, assembleArgs]
  | cons t ts ih =>
    intro k
    exact assembleArgs_cons _ _ _ _
      (assembleArg_str _ t (isAlnumToken_nospace _ (synthName_token k))) (ih (k + 1))

theorem synthArgsFrom_length (ts : List GoString) :
    ∀ k, (synthArgsFrom k ts).length = ts.length := by
  induction ts with
  | nil => intro k; rfl
  | cons t ts ih => intro k; simp [synthArgsFrom, ih]

theorem synthArgsFrom_getElem? (ts : List GoString) :
    ∀ (k i : Nat) (t : GoString), ts[i]? = some t →
      (synthArgsFrom k ts)[i]? = some (elementaryArg (synthName (k + i)) t) := by
  induction ts with
  | nil => intro k i t h; simp at h
  | cons u us ih =>
    intro k i t h
    cases i with
    | zero =>
      simp only [List.getElem?_cons_zero, Option.some.injEq] at h
      subst h
      simp [synthArgsFrom]
    | succ i =>
      simp only [List.getElem?_cons_succ] at h
      have := ih (k + 1) i t h
      simp only [synthArgsFrom, List.getElem?_cons_succ, this]
      congr 3
      omega

theorem elementary_ne_marker (t : GoString) (ht : IsElementaryType t) : t ≠ lit "[]" := by
  obtain ⟨a, body, sfx, rfl, ha, -, -⟩ := ht
  intro he
  rw [lit_marker] at he
  simp only [List.cons_append, List.cons.injEq] at he
  rw [he.1] at ha
  simp [isAlpha] at ha

theorem synthArgsFrom_mem (ts : List GoString) :
    ∀ k, ∀ a ∈ synthArgsFrom k ts, ∃ n t, a = elementaryArg n t ∧ t ∈ ts := by
  induction ts with
  | nil => intro k a ha; simp [synthArgsFrom] at ha
  | cons u us ih =>
    intro k a ha
    simp only [synthArgsFrom, List.mem_cons] at ha
    rcases ha with rfl | ha
    · exact ⟨_, u, rfl, List.mem_cons_self _ _⟩
    · obtain ⟨n, t, h1, h2⟩ := ih (k + 1) a ha
      exact ⟨n, t, h1, List.mem_cons_of_mem _ h2⟩

theorem assembleArg_list (name : GoString) (c1 : Node) (cs : List Node)
    (subArgs : List ArgumentMarshaling) (h : assembleArgs (c1 :: cs) = .ret (.ok subArgs)) :
    assembleArg (Node.list (Node.str name :: c1 :: cs))
      = if endsWithMarker subArgs then .ret (.ok (tupleArrayArg name subArgs.dropLast))
        else .ret (.ok (tupleArg name subArgs)) := by
  simp only [assembleArg, h]
  rfl

theorem endsWithMarker_synth (ts : List GoString) (hts : ∀ u ∈ ts, IsElementaryType u)
    (k : Nat) : endsWithMarker (synthArgsFrom k ts) = false := by
  unfold endsWithMarker
  cases hl : (synthArgsFrom k ts).getLast? with
  | none => rfl
  | some a =>
    obtain ⟨n, t, rfl, ht⟩ := synthArgsFrom_mem _ k a (List.mem_of_getLast?_eq_some hl)
    simp [elementaryArg, ArgumentMarshaling.Typ, elementary_ne_marker t (hts t ht)]

theorem endsWithMarker_marker (as : List ArgumentMarshaling) (n i : GoString)
    (cs : List ArgumentMarshaling) :
    endsWithMarker (as ++ [.mk n (lit "[]") i cs]) = true := by
  simp [endsWithMarker, ArgumentMarshaling.Typ]

theorem assembleArg_tuple (name m : GoString) (ms : List GoString)
    (hms : ∀ u ∈ m :: ms, IsElementaryType u) :
    assembleArg (Node.list (Node.str name :: synthNodesFrom 0 (m :: ms)))
      = .ret (.ok (tupleArg name (synthArgsFrom 0 (m :: ms)))) := by
  have h := assembleArg_list name (Node.str (joinNameType (synthName 0) m))
    (synthNodesFrom 1 ms) _ (assembleArgs_synth (m :: ms) 0)
  rw [endsWithMarker_synth _ hms] at h
  exact h

theorem assembleArg_tupleArray (name m : GoString) (ms : List GoString) :
    assembleArg (Node.list (Node.str name :: (synthNodesFrom 0 (m :: ms)
        ++ [Node.str (lit "[]")])))
      = .ret (.ok (tupleArrayArg name (synthArgsFrom 0 (m :: ms)))) := by
  have h0 := assembleArgs_append _ _ _ _ (assembleArgs_synth (m :: ms) 0)
    (assembleArgs_cons _ [] _ [] assembleArg_marker (by simp [assembleArgs]))
  have h := assembleArg_list name (Node.str (joinNameType (synthName 0) m))
    (synthNodesFrom 1 ms ++ [Node.str (lit "[]")]) _ h0
  rw [endsWithMarker_marker] at h
  simpa using h

/-! ## The driver -/

theorem lit_open : lit "(" = [40] := by decide
theorem lit_close : lit ")" = [41] := by decide
theorem lit_comma : lit "," = [44] := by decide

theorem parseIdentifier_name (fn tail : GoString) (hfn : isIdentifier fn = true)
    (htail : ∀ c, tail.head? = some c → isTokenChar true c = false) :
    parseIdentifier (fn ++ tail) = .ok (fn, tail) := by
  cases fn with
  | nil => simp [isIdentifier] at hfn
  | cons c cs =>
    simp only [isIdentifier, List.all_cons, Bool.and_eq_true, Bool.not_eq_true',
      Bool.or_eq_true, List.all_eq_true] at hfn
    obtain ⟨hd, hc, hcs⟩ := hfn
    have hfirst : (isAlpha c || (true && isIdentifierSymbol c)) = true := by
      rcases hc with (h | h) | h
      · simp [h]
      · rw [hd] at h; exact absurd h (by simp)
      · simp [h]
    have hscan : scanToken true (cs ++ tail) = (cs, tail) := by
      apply scanToken_append _ _ _ _ htail
      intro d hd'
      rcases hcs d hd' with (h | h) | h <;> simp [isTokenChar, h]
    simp only [parseIdentifier, parseToken, List.cons_append, hfirst, hscan]
    simp

theorem parseFunctionsArgs_ok (F : Nat) (s1 : GoString) (parsedType : Node)
    (rest : GoString) (result : List Node) (rest2 : GoString)
    (h1 : parseTypeWithName F s1 0 = .ret (.ok (parsedType, rest)))
    (h2 : parseArgsLoop F [parsedType] rest 0 = .ret (.ok (result, rest2))) :
    parseFunctionsArgs F (40 :: s1) = closeArgs result rest2 := by
  simp only [parseFunctionsArgs, h1, h2]

theorem parseFunctionsArgs_elems (F : Nat) (t : GoString) (ts : List GoString)
    (hts : ∀ u ∈ t :: ts, IsElementaryType u) (tail : GoString) (hF : ts.length + 1 ≤ F) :
    parseFunctionsArgs F (40 :: (commaSep (t :: ts) ++ 41 :: tail))
      = closeArgs (synthNodesFrom 0 (t :: ts)) (41 :: tail) := by
  obtain ⟨f, rfl⟩ : ∃ f, F = f + 1 + ts.length := ⟨F - 1 - ts.length, by omega⟩
  have ht := hts t (List.mem_cons_self _ _)
  have hrest := fun u hu => hts u (List.mem_cons_of_mem _ hu)
  have h1 := parseTypeWithName_elem (f + ts.length) 0 t (argTail ts ++ 41 :: tail) ht
    (stopsArg_argTail ts _ (stopsArg_close tail))
  have h2 := parseArgsLoop_elems ts hrest (41 :: tail) (stopsArg_close tail) f
    [Node.str (joinNameType (synthName 0) t)] 0
  rw [show f + ts.length + 1 = f + 1 + ts.length by omega] at h1
  rw [parseArgsLoop_close] at h2
  rw [commaSep_cons, List.append_assoc, parseFunctionsArgs_ok _ _ _ _ _ _ h1 h2]
  simp [synthNodesFrom]

theorem ParseSelector_ok (fn s1 : GoString) (hfn : isIdentifier fn = true)
    (hs1 : s1.head? ≠ some 41) (args : List Node) (inputs : List ArgumentMarshaling)
    (h1 : parseFunctionsArgs (2 * (fn ++ 40 :: s1).length + 1) (40 :: s1)
      = .ret (.ok (args, [])))
    (h2 : assembleArgs args = .ret (.ok inputs)) :
    ParseSelector (fn ++ 40 :: s1) = .ret (⟨fn, lit "function", inputs⟩, none) := by
  have hpi := parseIdentifier_name fn (40 :: s1) hfn
    (by intro d hd; simp at hd; subst hd; decide)
  cases s1 with
  | nil => simp only [ParseSelector, hpi, h1, h2]
  | cons c cs =>
    have hc : c ≠ 41 := by simpa using hs1
    simp only [ParseSelector, hpi, h1, h2]
    simp [hc, h1, h2]

theorem ParseSelector_error (fn s1 : GoString) (hfn : isIdentifier fn = true)
    (hs1 : s1.head? ≠ some 41) (e : Err)
    (h1 : parseFunctionsArgs (2 * (fn ++ 40 :: s1).length + 1) (40 :: s1)
      = .ret (.error e)) :
    ParseSelector (fn ++ 40 :: s1)
      = .ret (SelectorMarshaling.zero, some (.parseSelector (fn ++ 40 :: s1) e)) := by
  have hpi := parseIdentifier_name fn (40 :: s1) hfn
    (by intro d hd; simp at hd; subst hd; decide)
  cases s1 with
  | nil => simp only [ParseSelector, hpi, h1]
  | cons c cs =>
    have hc : c ≠ 41 := by simpa using hs1
    simp only [ParseSelector, hpi, h1]
    simp [hc, h1]

theorem closeArgs_end (result : List Node) :
    closeArgs result [41] = .ret (.ok (result, [])) := by
  simp [closeArgs]

theorem elementary_head (t : GoString) (ht : IsElementaryType t) :
    ∃ a r, t = a :: r ∧ isAlpha a = true :=
  let ⟨a, body, sfx, h, ha, _, _⟩ := ht
  ⟨a, body ++ arraySuffixes sfx, h, ha⟩

theorem isAlpha_ne_close (c : Nat) (h : isAlpha c = true) : c ≠ 41 := by
  simp only [isAlpha, Bool.or_eq_true, Bool.and_eq_true, decide_eq_true_eq] at h
  omega

theorem ParseSelector_elems (fn t : GoString) (ts : List GoString)
    (hfn : isIdentifier fn = true) (hts : ∀ u ∈ t :: ts, IsElementaryType u) :
    ParseSelector (fn ++ lit "(" ++ commaSep (t :: ts) ++ lit ")")
      = .ret (⟨fn, lit "function", synthArgsFrom 0 (t :: ts)⟩, none) := by
  obtain ⟨a, r, hta, ha⟩ := elementary_head t (hts t (List.mem_cons_self _ _))
  have e : fn ++ lit "(" ++ commaSep (t :: ts) ++ lit ")"
      = fn ++ 40 :: a :: (r ++ argTail ts ++ [41]) := by
    simp [lit_open, lit_close, commaSep_cons, hta]
  have e2 : (40 : Nat) :: a :: (r ++ argTail ts ++ [41])
      = 40 :: (commaSep (t :: ts) ++ 41 :: []) := by
    simp [commaSep_cons, hta]
  rw [e]
  apply ParseSelector_ok fn _ hfn (by simpa using isAlpha_ne_close a ha)
    (synthNodesFrom 0 (t :: ts))
  · rw [e2, parseFunctionsArgs_elems _ t ts hts [], closeArgs_end]
    have := argTail_length ts
    simp only [List.length_append, List.length_cons, commaSep_cons, List.length_nil]
    omega
  · exact assembleArgs_synth _ 0

theorem argTail_append (ts us : List GoString) : argTail (ts ++ us) = argTail ts ++ argTail us := by
  simp [argTail]

theorem closeArgs_plain (result : List Node) :
    closeArgs result [41, 41] = .ret (.ok (result, [41])) := by
  simp [closeArgs]

theorem closeArgs_array (result : List Node) :
    closeArgs result [41, 91, 93, 41] = .ret (.ok (result ++ [Node.str (lit "[]")], [41])) := by
  simp [closeArgs]

theorem parseFunctionsArgs_last (F : Nat) (ts : List GoString) (last : GoString)
    (node : Nat → Node) (need : Nat) (hts : ∀ u ∈ ts, IsElementaryType u)
    (hlast : ∀ fuel k, parseTypeWithName (fuel + need) (40 :: last ++ [41]) k
      = .ret (.ok (node k, [41])))
    (hneed : 1 ≤ need) (hF : ts.length + need + 1 ≤ F) :
    parseFunctionsArgs F (40 :: (commaSep (ts ++ [40 :: last]) ++ [41]))
      = .ret (.ok (synthNodesFrom 0 ts ++ [node ts.length], [])) := by
  cases ts with
  | nil =>
    obtain ⟨f, rfl⟩ : ∃ f, F = f + need := ⟨F - need, by simp at hF; omega⟩
    obtain ⟨g, hg⟩ : ∃ g, f + need = g + 1 := ⟨f + need - 1, by omega⟩
    have h1 := hlast f 0
    have h2 : parseArgsLoop (f + need) [node 0] [41] 0 = .ret (.ok ([node 0], [41])) := by
      rw [hg]; exact parseArgsLoop_close _ _ _ _
    have e : commaSep ([] ++ [40 :: last]) ++ [41] = 40 :: last ++ [41] := by
      simp [commaSep, List.intercalate]
    rw [e, parseFunctionsArgs_ok _ _ _ _ _ _ h1 h2, closeArgs_end]
    simp [synthNodesFrom]
  | cons t ts =>
    simp only [List.length_cons] at hF
    obtain ⟨f, rfl⟩ : ∃ f, F = (f + need) + 1 + ts.length :=
      ⟨F - need - 1 - ts.length, by omega⟩
    obtain ⟨g, hg⟩ : ∃ g, f + need = g + 1 := ⟨f + need - 1, by omega⟩
    have ht := hts t (List.mem_cons_self _ _)
    have hrest := fun u hu => hts u (List.mem_cons_of_mem _ hu)
    have hstop : StopsArg (44 :: (40 :: last ++ [41])) := stopsArg_comma _
    have h1 := parseTypeWithName_elem (f + need + ts.length) 0 t
      (argTail ts ++ 44 :: (40 :: last ++ [41])) ht (stopsArg_argTail ts _ hstop)
    have h2 := parseArgsLoop_elems ts hrest (44 :: (40 :: last ++ [41])) hstop (f + need)
      [Node.str (joinNameType (synthName 0) t)] 0
    have h3 := parseArgsLoop_step (f + need)
      ([Node.str (joinNameType (synthName 0) t)] ++ synthNodesFrom (0 + 1) ts) 44
      (40 :: last ++ [41]) (0 + ts.length) (by decide) _ _ (hlast f (0 + ts.length + 1))
    have h4 : parseArgsLoop (f + need)
        ([Node.str (joinNameType (synthName 0) t)] ++ synthNodesFrom (0 + 1) ts
          ++ [node (0 + ts.length + 1)]) [41] (0 + ts.length + 1)
        = .ret (.ok ([Node.str (joinNameType (synthName 0) t)] ++ synthNodesFrom (0 + 1) ts
          ++ [node (0 + ts.length + 1)], [41])) := by
      rw [hg]; exact parseArgsLoop_close _ _ _ _
    rw [h3, h4] at h2
    rw [show f + need + ts.length + 1 = f + need + 1 + ts.length by omega] at h1
    have e : commaSep (t :: ts ++ [40 :: last]) ++ [41]
        = t ++ (argTail ts ++ 44 :: (40 :: last ++ [41])) := by
      rw [List.cons_append, commaSep_cons, argTail_append]
      simp [argTail]
    rw [e, parseFunctionsArgs_ok _ _ _ _ _ _ h1 h2, closeArgs_end]
    simp [synthNodesFrom]


theorem parseTypeWithName_tuple_plain (fuel k : Nat) (m : GoString) (ms : List GoString)
    (hms : ∀ u ∈ m :: ms, IsElementaryType u) :
    parseTypeWithName (fuel + (ms.length + 3)) (40 :: (commaSep (m :: ms) ++ [41]) ++ [41]) k
      = .ret (.ok (Node.list (Node.str (synthName k) :: synthNodesFrom 0 (m :: ms)), [41])) := by
  have h := parseTypeWithName_tuple fuel k m ms hms [41]
  rw [closeArgs_plain] at h
  simpa [Nat.add_assoc] using h

theorem parseTypeWithName_tuple_array (fuel k : Nat) (m : GoString) (ms : List GoString)
    (hms : ∀ u ∈ m :: ms, IsElementaryType u) :
    parseTypeWithName (fuel + (ms.length + 3))
        (40 :: (commaSep (m :: ms) ++ [41, 91, 93]) ++ [41]) k
      = .ret (.ok (Node.list (Node.str (synthName k) ::
          (synthNodesFrom 0 (m :: ms) ++ [Node.str (lit "[]")])), [41])) := by
  have h := parseTypeWithName_tuple fuel k m ms hms [91, 93, 41]
  rw [closeArgs_array] at h
  simpa [Nat.add_assoc] using h

theorem commaSep_last_length (ts : List GoString) (x : GoString) :
    ts.length + x.length ≤ (commaSep (ts ++ [x])).length := by
  cases ts with
  | nil => simp [commaSep, List.intercalate]
  | cons t ts =>
    have := argTail_length ts
    rw [List.cons_append, commaSep_cons, argTail_append]
    simp only [argTail, List.map_cons, List.map_nil, List.flatten_cons, List.flatten_nil,
      List.length_append, List.length_cons, List.append_nil] at this ⊢
    omega

theorem commaSep_last_head (ts : List GoString) (last : GoString)
    (hts : ∀ u ∈ ts, IsElementaryType u) :
    (commaSep (ts ++ [40 :: last]) ++ [41]).head? ≠ some 41 := by
  cases ts with
  | nil => simp [commaSep, List.intercalate]
  | cons t ts =>
    obtain ⟨a, r, hta, ha⟩ := elementary_head t (hts t (List.mem_cons_self _ _))
    rw [List.cons_append, commaSep_cons, hta]
    simpa using isAlpha_ne_close a ha

theorem ParseSelector_last (fn : GoString) (ts : List GoString) (last : GoString)
    (node : Nat → Node) (need : Nat) (arg : ArgumentMarshaling)
    (hfn : isIdentifier fn = true) (hts : ∀ u ∈ ts, IsElementaryType u)
    (hlast : ∀ fuel k, parseTypeWithName (fuel + need) (40 :: last ++ [41]) k
      = .ret (.ok (node k, [41])))
    (hneed : 1 ≤ need) (hlen : need ≤ 2 * last.length + 2)
    (harg : assembleArg (node ts.length) = .ret (.ok arg)) :
    ParseSelector (fn ++ lit "(" ++ commaSep (ts ++ [40 :: last]) ++ lit ")")
      = .ret (⟨fn, lit "function", synthArgsFrom 0 ts ++ [arg]⟩, none) := by
  have e : fn ++ lit "(" ++ commaSep (ts ++ [40 :: last]) ++ lit ")"
      = fn ++ 40 :: (commaSep (ts ++ [40 :: last]) ++ [41]) := by
    simp [lit_open, lit_close]
  rw [e]
  apply ParseSelector_ok fn _ hfn (commaSep_last_head ts last hts)
    (synthNodesFrom 0 ts ++ [node ts.length])
  · apply parseFunctionsArgs_last _ ts last node need hts hlast hneed
    have := commaSep_last_length ts (40 :: last)
    simp only [List.length_append, List.length_cons, List.length_nil] at this ⊢
    omega
  · exact assembleArgs_append _ _ _ _ (assembleArgs_synth ts 0)
      (assembleArgs_cons _ [] _ [] harg (by simp [assembleArgs]))

theorem elementary_uint256 : IsElementaryType (lit "uint256") :=
  ⟨117, lit "int256", [], by decide, by decide, by decide, by simp⟩

theorem elementary_address : IsElementaryType (lit "address") :=
  ⟨97, lit "ddress", [], by decide, by decide, by decide, by simp⟩

theorem elementary_uint256_array : IsElementaryType (lit "uint256[3][]") :=
  ⟨117, lit "int256", [lit "3", lit ""], by decide, by decide, by decide, by decide⟩

theorem lit_empty_args : lit "()" = [40, 41] := by decide

theorem elementary_uint256_address :
    ∀ t ∈ [lit "uint256", lit "address"], IsElementaryType t := by
  intro t ht
  simp only [List.mem_cons, List.mem_singleton, List.not_mem_nil, or_false] at ht
  rcases ht with rfl | rfl
  · exact elementary_uint256
  · exact elementary_address

theorem lit_f_open : lit "f(" = [102, 40] := by decide
theorem lit_f : lit "f" = [102] := by decide
theorem lit_f_tuple : lit "f((" = [102, 40, 40] := by decide
theorem lit_close2 : lit "))" = [41, 41] := by decide
theorem lit_close_array : lit ")[])" = [41, 91, 93, 41] := by decide

theorem synthArgs_spec (ts : List GoString) :
    (synthArgsFrom 0 ts).length = ts.length
      ∧ ∀ (i : Nat) (t : GoString), ts[i]? = some t →
          (synthArgsFrom 0 ts)[i]? = some (ArgumentMarshaling.mk (lit "name" ++ decimal i) t t []) := by
  refine ⟨synthArgsFrom_length ts 0, ?_⟩
  intro i t h
  simpa [elementaryArg, synthName] using synthArgsFrom_getElem? ts 0 i t h

theorem ParseSelector_tuple (fn : GoString) (ts : List GoString) (m : GoString)
    (ms : List GoString) (hfn : isIdentifier fn = true)
    (hts : ∀ u ∈ ts, IsElementaryType u) (hms : ∀ u ∈ m :: ms, IsElementaryType u) :
    ParseSelector (fn ++ lit "(" ++ commaSep (ts ++ [40 :: (commaSep (m :: ms) ++ [41])])
        ++ lit ")")
      = .ret (⟨fn, lit "function", synthArgsFrom 0 ts
          ++ [tupleArg (synthName ts.length) (synthArgsFrom 0 (m :: ms))]⟩, none) := by
  apply ParseSelector_last fn ts (commaSep (m :: ms) ++ [41])
    (fun k => Node.list (Node.str (synthName k) :: synthNodesFrom 0 (m :: ms)))
    (ms.length + 3) _ hfn hts
    (fun fuel k => parseTypeWithName_tuple_plain fuel k m ms hms) (by omega)
  · have := argTail_length ms
    simp only [commaSep_cons, List.length_append, List.length_cons, List.length_nil]
    omega
  · exact assembleArg_tuple _ m ms hms

theorem ParseSelector_tupleArray (fn : GoString) (ts : List GoString) (m : GoString)
    (ms : List GoString) (hfn : isIdentifier fn = true)
    (hts : ∀ u ∈ ts, IsElementaryType u) (hms : ∀ u ∈ m :: ms, IsElementaryType u) :
    ParseSelector (fn ++ lit "("
        ++ commaSep (ts ++ [40 :: (commaSep (m :: ms) ++ [41, 91, 93])]) ++ lit ")")
      = .ret (⟨fn, lit "function", synthArgsFrom 0 ts
          ++ [tupleArrayArg (synthName ts.length) (synthArgsFrom 0 (m :: ms))]⟩, none) := by
  apply ParseSelector_last fn ts (commaSep (m :: ms) ++ [41, 91, 93])
    (fun k => Node.list (Node.str (synthName k) ::
      (synthNodesFrom 0 (m :: ms) ++ [Node.str (lit "[]")])))
    (ms.length + 3) _ hfn hts
    (fun fuel k => parseTypeWithName_tuple_array fuel k m ms hms) (by omega)
  · have := argTail_length ms
    simp only [commaSep_cons, List.length_append, List.length_cons, List.length_nil]
    omega
  · exact assembleArg_tupleArray _ m ms

theorem synthName_zero : synthName 0 = lit "name0" := by decide

theorem commaSep_prefix (ts : List GoString) (x : GoString) :
    (ts.map (fun t => t ++ lit ",")).flatten ++ x = commaSep (ts ++ [x]) := by
  induction ts with
  | nil => simp [commaSep, List.intercalate]
  | cons t ts ih =>
    rw [List.cons_append, commaSep_cons, List.map_cons, List.flatten_cons, List.append_assoc,
      ih]
    cases ts with
    | nil => simp [commaSep, List.intercalate, argTail, lit_comma]
    | cons u us => rw [List.cons_append, commaSep_cons]; simp [argTail, lit_comma]

theorem parseArgsLoop_named (ps : List (GoString × GoString))
    (hps : ∀ p ∈ ps, isAlnumToken p.1 = true ∧ isAlnumToken p.2 = true)
    (tail : GoString) (htail : StopsArg tail) :
    ∀ (fuel : Nat) (result : List Node) (k : Nat),
      parseArgsLoop (fuel + 1 + ps.length) result
          (argTail (ps.map (fun p => joinNameType p.1 p.2)) ++ tail) k
        = parseArgsLoop (fuel + 1)
            (result ++ ps.map (fun p => Node.str (joinNameType p.1 p.2))) tail
            (k + ps.length) := by
  induction ps with
  | nil => intro fuel result k; simp [argTail]
  | cons p ps ih =>
    intro fuel result k
    have hp := hps p (List.mem_cons_self _ _)
    have h1 := parseTypeWithName_named (fuel + ps.length) (k + 1) p.1 p.2
      (argTail (ps.map (fun p => joinNameType p.1 p.2)) ++ tail) hp.1
      (isAlnumToken_elementary _ hp.2) (stopsArg_argTail _ tail htail)
    have e : argTail ((p :: ps).map (fun p => joinNameType p.1 p.2)) ++ tail
        = 44 :: (joinNameType p.1 p.2
            ++ (argTail (ps.map (fun p => joinNameType p.1 p.2)) ++ tail)) := by
      simp [argTail]
    have hf : fuel + 1 + (p :: ps).length = (fuel + 1 + ps.length) + 1 := by
      simp; omega
    rw [show fuel + ps.length + 1 = fuel + 1 + ps.length by omega] at h1
    rw [e, hf, parseArgsLoop_step _ _ 44 _ _ (by decide) _ _ h1,
      ih (fun q hq => hps q (List.mem_cons_of_mem _ hq))]
    have hk : k + 1 + ps.length = k + (p :: ps).length := by simp; omega
    rw [hk]
    simp

theorem assembleArgs_named (ps : List (GoString × GoString))
    (hps : ∀ p ∈ ps, isAlnumToken p.1 = true ∧ isAlnumToken p.2 = true) :
    assembleArgs (ps.map (fun p => Node.str (joinNameType p.1 p.2)))
      = .ret (.ok (ps.map (fun p => ArgumentMarshaling.mk p.1 p.2 p.2 []))) := by
  induction ps with
  | nil => simp [assembleArgs]
  | cons p ps ih =>
    exact assembleArgs_cons _ _ _ _
      (assembleArg_str p.1 p.2 (isAlnumToken_nospace _ (hps p (List.mem_cons_self _ _)).1))
      (ih (fun q hq => hps q (List.mem_cons_of_mem _ hq)))

theorem lit_space : lit " " = [32] := by decide

theorem parseTypeWithName_empty (fuel k : Nat) :
    parseTypeWithName (fuel + 1) [] k = .ret (.error .emptyType) := by
  simp [parseTypeWithName, parseIdentifier, parseToken]

theorem parseArgsLoop_dangling (fuel : Nat) (result : List Node) (k : Nat) :
    parseArgsLoop (fuel + 2) result [44] k = .ret (.error (.parseType .emptyType)) := by
  simp [parseArgsLoop, parseTypeWithName_empty]

theorem parseFunctionsArgs_error_loop (F : Nat) (s1 : GoString) (parsedType : Node)
    (rest : GoString) (e : Err)
    (h1 : parseTypeWithName F s1 0 = .ret (.ok (parsedType, rest)))
    (h2 : parseArgsLoop F [parsedType] rest 0 = .ret (.error e)) :
    parseFunctionsArgs F (40 :: s1) = .ret (.error e) := by
  simp only [parseFunctionsArgs, h1, h2]

theorem isTokenChar_iff (b : Bool) (c : Nat) : isTokenChar b c = true ↔ continuesToken b c := by
  cases b <;> simp [isTokenChar, continuesToken, isIdentifierSymbol, isSpace, or_assoc]

theorem scanToken_spec (b : Bool) (s : GoString) :
    (scanToken b s).1 ++ (scanToken b s).2 = s
      ∧ (∀ x ∈ (scanToken b s).1, isTokenChar b x = true)
      ∧ ∀ x, (scanToken b s).2.head? = some x → isTokenChar b x = false := by
  induction s with
  | nil => simp [scanToken]
  | cons c cs ih =>
    by_cases hc : isTokenChar b c = true
    · simp only [scanToken, hc, if_true, List.cons_append, ih.1, List.mem_cons, true_and]
      refine ⟨?_, ih.2.2⟩
      rintro x (rfl | hx)
      · exact hc
      · exact ih.2.1 x hx
    · simp only [scanToken, hc]
      simpa using hc

theorem startsToken_iff (b : Bool) (c : Nat) :
    (isAlpha c || (b && isIdentifierSymbol c)) = true ↔ startsToken b c := by
  cases b <;> simp [startsToken, isIdentifierSymbol]

theorem parseToken_append (s : GoString) (b : Bool) (tok rest : GoString)
    (h : parseToken s b = .ok (tok, rest)) : tok ++ rest = s := by
  cases s with
  | nil => simp [parseToken] at h
  | cons a as =>
    have hsp := (scanToken_spec b as).1
    simp only [parseToken] at h
    split at h
    · cases h
    · simp only [Except.ok.injEq, Prod.mk.injEq] at h
      rw [← h.1, ← h.2]
      simp [hsp]

theorem parseIdentifier_rest_no_space (s : GoString) (hs : ∀ x ∈ s, x ≠ 32) :
    ∀ name rest, parseIdentifier s = .ok (name, rest) → rest.head? ≠ some 32 := by
  intro name rest h hr
  have happ := parseToken_append s true name rest h
  have hmem : (32 : Nat) ∈ s := by
    rw [← happ]
    exact List.mem_append_right _ (List.mem_of_mem_head? hr)
  exact hs 32 hmem rfl

theorem isDigit_ne_space (c : Nat) (h : isDigit c = true) : c ≠ 32 := by
  simp only [isDigit, Bool.and_eq_true, decide_eq_true_eq] at h
  omega

theorem elementary_no_space (t : GoString) (ht : IsElementaryType t) : ∀ x ∈ t, x ≠ 32 := by
  obtain ⟨a, body, sfx, rfl, ha, hbody, hsfx⟩ := ht
  intro x hx
  simp only [List.cons_append, List.mem_cons, List.mem_append, arraySuffixes, arraySuffix,
    List.mem_flatten, List.mem_map] at hx
  rcases hx with rfl | hx | ⟨l, ⟨d, hd, rfl⟩, hx⟩
  · exact (isAlpha_ne _ ha).2
  · exact isAlnum_ne_space _ (hbody x hx)
  · simp only [List.mem_cons, List.mem_append, List.mem_singleton, List.not_mem_nil,
      or_false] at hx
    rcases hx with rfl | hx | rfl
    · decide
    · exact isDigit_ne_space _ (hsfx d hd x hx)
    · decide

theorem sepTail_no_space (c : Nat) (hc : c ≠ 32) (ts : List GoString)
    (hts : ∀ t ∈ ts, IsElementaryType t) : ∀ x ∈ sepTail c ts, x ≠ 32 := by
  intro x hx
  simp only [sepTail, List.mem_flatten, List.mem_map] at hx
  obtain ⟨l, ⟨t, ht, rfl⟩, hx⟩ := hx
  rcases List.mem_cons.1 hx with rfl | hx
  · exact hc
  · exact elementary_no_space t (hts t ht) x hx

theorem intercalate_cons (c : Nat) (t : GoString) (ts : List GoString) :
    List.intercalate [c] (t :: ts) = t ++ sepTail c ts := by
  induction ts generalizing t with
  | nil => simp [sepTail, List.intercalate]
  | cons u us ih =>
    have := ih u
    simp only [List.intercalate, sepTail, List.intersperse, List.flatten_cons,
      List.map_cons] at this ⊢
    simp [this]

theorem sepTail_length (c : Nat) (ts : List GoString) : ts.length ≤ (sepTail c ts).length := by
  induction ts with
  | nil => simp [sepTail]
  | cons t ts ih =>
    simp only [sepTail, List.map_cons, List.flatten_cons, List.length_append,
      List.length_cons] at ih ⊢
    omega

theorem stopsType_sepTail (c : Nat) (hc : isAlpha c = false ∧ isDigit c = false ∧ c ≠ 32
      ∧ c ≠ 91 ∧ c ≠ 41) (ts : List GoString) :
    StopsType (sepTail c ts ++ [41]) := by
  intro x hx
  cases ts with
  | nil =>
    simp [sepTail] at hx
    subst hx
    decide
  | cons t ts =>
    simp [sepTail] at hx
    subst hx
    simp [isTokenChar, isSpace, hc.1, hc.2.1, hc.2.2.1, hc.2.2.2.1]

theorem parseArgsLoop_sep (c : Nat) (hc : isAlpha c = false ∧ isDigit c = false ∧ c ≠ 32
      ∧ c ≠ 91 ∧ c ≠ 41) (ts : List GoString) (hts : ∀ t ∈ ts, IsElementaryType t) :
    ∀ (fuel : Nat) (result : List Node) (k : Nat),
      parseArgsLoop (fuel + 1 + ts.length) result (sepTail c ts ++ [41]) k
        = .ret (.ok (result ++ synthNodesFrom (k + 1) ts, [41])) := by
  induction ts with
  | nil => intro fuel result k; simp [sepTail, synthNodesFrom, parseArgsLoop]
  | cons t ts ih =>
    intro fuel result k
    have ht := hts t (List.mem_cons_self _ _)
    have hrest := fun u hu => hts u (List.mem_cons_of_mem _ hu)
    have hns : ∀ x ∈ t ++ (sepTail c ts ++ [41]), x ≠ 32 := by
      intro x hx
      rcases List.mem_append.1 hx with hx | hx
      · exact elementary_no_space t ht x hx
      · rcases List.mem_append.1 hx with hx | hx
        · exact sepTail_no_space c hc.2.2.1 ts hrest x hx
        · simp only [List.mem_singleton] at hx; subst hx; decide
    have hp := parseTypeWithName_unnamed (fuel + ts.length) (k + 1) t (sepTail c ts ++ [41]) ht
      (stopsType_sepTail c hc ts) (parseIdentifier_rest_no_space _ hns)
    have e : sepTail c (t :: ts) ++ [41] = c :: (t ++ (sepTail c ts ++ [41])) := by
      simp [sepTail]
    have hf : fuel + 1 + (t :: ts).length = (fuel + 1 + ts.length) + 1 := by
      simp; omega
    rw [show fuel + ts.length + 1 = fuel + 1 + ts.length by omega] at hp
    rw [e, hf, parseArgsLoop_step _ _ c _ _ hc.2.2.2.2 _ _ hp, ih hrest]
    simp [synthNodesFrom]

theorem ParseSelector_sep (c : Nat) (hc : isAlpha c = false ∧ isDigit c = false ∧ c ≠ 32
      ∧ c ≠ 91 ∧ c ≠ 41) (t : GoString) (ts : List GoString)
    (hts : ∀ u ∈ t :: ts, IsElementaryType u) :
    ParseSelector (lit "f(" ++ List.intercalate [c] (t :: ts) ++ lit ")")
      = .ret (⟨lit "f", lit "function", synthArgsFrom 0 (t :: ts)⟩, none) := by
  have ht := hts t (List.mem_cons_self _ _)
  have hrest := fun u hu => hts u (List.mem_cons_of_mem _ hu)
  obtain ⟨a, r, hta, ha⟩ := elementary_head t ht
  have e : lit "f(" ++ List.intercalate [c] (t :: ts) ++ lit ")"
      = lit "f" ++ 40 :: (t ++ (sepTail c ts ++ [41])) := by
    simp [lit_f_open, lit_f, lit_close, intercalate_cons]
  rw [e]
  apply ParseSelector_ok (lit "f") _ (by decide)
    (by rw [hta]; simpa using isAlpha_ne_close a ha) (synthNodesFrom 0 (t :: ts))
  · obtain ⟨f, hf⟩ : ∃ f, 2 * (lit "f" ++ 40 :: (t ++ (sepTail c ts ++ [41]))).length + 1
        = f + 1 + ts.length := by
      have := sepTail_length c ts
      refine ⟨2 * (lit "f" ++ 40 :: (t ++ (sepTail c ts ++ [41]))).length - ts.length, ?_⟩
      simp only [List.length_append, List.length_cons]
      omega
    rw [hf]
    have hns : ∀ x ∈ t ++ (sepTail c ts ++ [41]), x ≠ 32 := by
      intro x hx
      rcases List.mem_append.1 hx with hx | hx
      · exact elementary_no_space t ht x hx
      · rcases List.mem_append.1 hx with hx | hx
        · exact sepTail_no_space c hc.2.2.1 ts hrest x hx
        · simp only [List.mem_singleton] at hx; subst hx; decide
    have h1 := parseTypeWithName_unnamed (f + ts.length) 0 t (sepTail c ts ++ [41]) ht
      (stopsType_sepTail c hc ts) (parseIdentifier_rest_no_space _ hns)
    have h2 := parseArgsLoop_sep c hc ts hrest f [Node.str (joinNameType (synthName 0) t)] 0
    rw [show f + ts.length + 1 = f + 1 + ts.length by omega] at h1
    rw [parseFunctionsArgs_ok _ _ _ _ _ _ h1 h2, closeArgs_end]
    simp [synthNodesFrom]
  · exact assembleArgs_synth _ 0

theorem dropWhile_length_le (p : Nat → Bool) (l : GoString) :
    (l.dropWhile p).length ≤ l.length := by
  have h := congrArg List.length (List.takeWhile_append_dropWhile p l)
  simp only [List.length_append] at h
  omega

theorem parseArraySuffixes_fuel (first : GoString) :
    ∀ (fuel : Nat) (parsedType rest : GoString), rest.length ≤ fuel →
      parseArraySuffixes first fuel parsedType rest ≠ .abort .outOfFuel := by
  intro fuel
  induction fuel with
  | zero =>
    intro parsedType rest h
    have : rest = [] := List.length_eq_zero.1 (Nat.le_zero.1 h)
    subst this
    simp [parseArraySuffixes]
  | succ fuel ih =>
    intro parsedType rest h
    simp only [parseArraySuffixes]
    split
    · rename_i rest1
      split
      · rename_i rest3 hd
        apply ih
        have := dropWhile_length_le isDigit rest1
        rw [hd] at this
        simp only [List.length_cons] at this h
        omega
      · split <;> simp
    · simp

theorem parseArraySuffixes_panic (first : GoString) (hfirst : first ≠ []) :
    ∀ (fuel : Nat) (parsedType rest : GoString),
      parseArraySuffixes first fuel parsedType rest ≠ .abort .panic := by
  intro fuel
  induction fuel with
  | zero =>
    intro parsedType rest
    simp only [parseArraySuffixes]
    split <;> simp
  | succ fuel ih =>
    intro parsedType rest
    simp only [parseArraySuffixes]
    split
    · split
      · exact ih _ _
      · split
        · exact absurd rfl hfirst
        · simp
    · simp

theorem parseArraySuffixes_ok (first : GoString) :
    ∀ (fuel : Nat) (parsedType rest pt rest2 : GoString),
      parseArraySuffixes first fuel parsedType rest = .ret (.ok (pt, rest2)) →
      ∃ sfx, pt = parsedType ++ sfx ∧ sfx ++ rest2 = rest := by
  intro fuel
  induction fuel with
  | zero =>
    intro parsedType rest pt rest2 h
    simp only [parseArraySuffixes] at h
    split at h
    · cases h
    · simp only [Run.ret.injEq, Except.ok.injEq, Prod.mk.injEq] at h
      exact ⟨[], by simp [h.1], by simp [h.2]⟩
  | succ fuel ih =>
    intro parsedType rest pt rest2 h
    simp only [parseArraySuffixes] at h
    split at h
    · rename_i rest1
      split at h
      · rename_i rest3 hd
        obtain ⟨sfx, h1, h2⟩ := ih _ _ _ _ h
        refine ⟨91 :: rest1.takeWhile isDigit ++ [93] ++ sfx, by simp [h1], ?_⟩
        have := List.takeWhile_append_dropWhile isDigit rest1
        rw [hd] at this
        simp [h2, this]
      · split at h <;> cases h
    · simp only [Run.ret.injEq, Except.ok.injEq, Prod.mk.injEq] at h
      exact ⟨[], by simp [h.1], by simp [h.2]⟩

theorem parseElementaryTypeWithName_returns (x : GoString) (a : Abort) :
    parseElementaryTypeWithName x ≠ .abort a := by
  simp only [parseElementaryTypeWithName]
  cases h : parseToken x false with
  | error e => simp
  | ok p =>
    obtain ⟨tok, rest⟩ := p
    have hx : x ≠ [] := by
      rintro rfl
      simp [parseToken] at h
    cases a with
    | panic => exact parseArraySuffixes_panic x hx _ _ _
    | outOfFuel => exact parseArraySuffixes_fuel x _ _ _ (Nat.le_refl _)

theorem parseElementaryTypeWithName_ok (x pt rest : GoString)
    (h : parseElementaryTypeWithName x = .ret (.ok (pt, rest))) :
    ∃ tok r0 sfx, parseToken x false = .ok (tok, r0) ∧ pt = tok ++ sfx ∧ sfx ++ rest = r0 := by
  simp only [parseElementaryTypeWithName] at h
  cases hp : parseToken x false with
  | error e => simp [hp] at h
  | ok p =>
    obtain ⟨tok, r0⟩ := p
    simp only [hp] at h
    obtain ⟨sfx, h1, h2⟩ := parseArraySuffixes_ok _ _ _ _ _ _ h
    exact ⟨tok, r0, sfx, rfl, h1, h2⟩

theorem parseElementaryTypeWithName_append (x pt rest : GoString)
    (h : parseElementaryTypeWithName x = .ret (.ok (pt, rest))) : pt ++ rest = x := by
  obtain ⟨tok, r0, sfx, hp, h1, h2⟩ := parseElementaryTypeWithName_ok x pt rest h
  have := parseToken_append x false tok r0 hp
  rw [h1, List.append_assoc, h2, this]

theorem scanToken_append_all (b : Bool) (body tail : GoString)
    (hbody : ∀ c ∈ body, isTokenChar b c = true) :
    scanToken b (body ++ tail) = (body ++ (scanToken b tail).1, (scanToken b tail).2) := by
  induction body with
  | nil => simp
  | cons c cs ih =>
    have hc := hbody c (List.mem_cons_self _ _)
    have := ih (fun d hd => hbody d (List.mem_cons_of_mem _ hd))
    simp [scanToken, hc, this]

theorem parseElementaryTypeWithName_synth (k : Nat) (u pt rest : GoString)
    (h : parseElementaryTypeWithName (joinNameType (synthName k) u) = .ret (.ok (pt, rest))) :
    ∃ t, pt = joinNameType (synthName k) t ∧ t ++ rest = u := by
  obtain ⟨tok, r0, sfx, hp, h1, h2⟩ := parseElementaryTypeWithName_ok _ pt rest h
  obtain ⟨n0, ns, hn, h0, hns⟩ := isAlnumToken_iff _ (synthName_token k)
  have hscan := scanToken_append_all false (ns ++ [32]) u (by
    intro c hc
    rcases List.mem_append.1 hc with hc | hc
    · exact isAlnum_tokenChar _ _ (hns c hc)
    · simp only [List.mem_singleton] at hc; subst hc; decide)
  have e : joinNameType (synthName k) u = n0 :: ((ns ++ [32]) ++ u) := by
    simp [joinNameType, hn]
  rw [e] at hp
  simp only [parseToken, h0, hscan, Bool.true_or, Bool.not_true, Bool.false_eq_true, if_false,
    Except.ok.injEq, Prod.mk.injEq] at hp
  have hsp := (scanToken_spec false u).1
  refine ⟨(scanToken false u).1 ++ sfx, ?_, ?_⟩
  · rw [h1, ← hp.1]
    simp [joinNameType, hn]
  · rw [List.append_assoc, h2, ← hp.2, hsp]

theorem parseIdentifier_name_no_space (s name rest : GoString)
    (h : parseIdentifier s = .ok (name, rest)) : ∀ c ∈ name, c ≠ 32 := by
  cases s with
  | nil => simp [parseIdentifier, parseToken] at h
  | cons a as =>
    have hsp := (scanToken_spec true as).2.1
    simp only [parseIdentifier, parseToken] at h
    split at h
    · cases h
    · rename_i ha
      simp only [Except.ok.injEq, Prod.mk.injEq] at h
      rw [← h.1]
      intro c hc
      rcases List.mem_cons.1 hc with rfl | hc
      · rintro rfl
        simp [isAlpha, isIdentifierSymbol] at ha
      · have := hsp c hc
        rintro rfl
        simp [isTokenChar, isAlpha, isDigit, isIdentifierSymbol] at this

/-- The way `parseTypeWithName` splits its argument `s` into a name and the
text `u` of the type: the name is synthesized and `u` is `s`, or `s` is the
name, a space and `u`. -/
theorem parseTypeWithName_unfold (fuel : Nat) (s : GoString) (k : Nat) :
    ∃ name u, (∀ c ∈ name, c ≠ 32)
      ∧ ((name = synthName k ∧ u = s) ∨ s = joinNameType name u)
      ∧ (u = [] → parseTypeWithName (fuel + 1) s k = .ret (.error .emptyType))
      ∧ (∀ cs, u = 40 :: cs → parseTypeWithName (fuel + 1) s k
          = boxResult Node.list (parseCompositeTypeWithName fuel (joinNameType name u)))
      ∧ (∀ c cs, u = c :: cs → c ≠ 40 → parseTypeWithName (fuel + 1) s k
          = boxResult Node.str (parseElementaryTypeWithName (joinNameType name u))) := by
  have hsynth : ∀ (hr : ∀ name rest, parseIdentifier s = .ok (name, rest) →
      rest.head? ≠ some 32),
      (s = [] → parseTypeWithName (fuel + 1) s k = .ret (.error .emptyType))
      ∧ (∀ cs, s = 40 :: cs → parseTypeWithName (fuel + 1) s k
          = boxResult Node.list
              (parseCompositeTypeWithName fuel (joinNameType (synthName k) s)))
      ∧ (∀ c cs, s = c :: cs → c ≠ 40 → parseTypeWithName (fuel + 1) s k
          = boxResult Node.str (parseElementaryTypeWithName (joinNameType (synthName k) s))) := by
    intro hr
    refine ⟨?_, ?_, ?_⟩
    · rintro rfl
      exact parseTypeWithName_empty fuel k
    · rintro cs rfl
      exact parseTypeWithName_paren fuel k cs
    · rintro c cs rfl hc
      exact parseTypeWithName_synth fuel k c cs hc hr
  cases hpi : parseIdentifier s with
  | error e =>
    exact ⟨synthName k, s, isAlnumToken_nospace _ (synthName_token k), Or.inl ⟨rfl, rfl⟩,
      hsynth (by intro name rest h; rw [hpi] at h; cases h)⟩
  | ok p =>
    obtain ⟨name, rest⟩ := p
    by_cases hr : rest.head? = some 32
    · obtain ⟨u, rfl⟩ : ∃ u, rest = 32 :: u := by
        cases rest with
        | nil => simp at hr
        | cons r rs => simp at hr; exact ⟨rs, by rw [hr]⟩
      have hs : s = joinNameType name u := (parseToken_append s true name (32 :: u) hpi).symm
      have hsl : sliceFrom s (name.length + 1) = some u := by
        rw [hs]; exact sliceFrom_append name u
      refine ⟨name, u, parseIdentifier_name_no_space s name _ hpi, Or.inr hs, ?_, ?_, ?_⟩
      · rintro rfl
        simp [parseTypeWithName, hpi, hsl]
      · rintro cs rfl
        simp [parseTypeWithName, hpi, hsl]
      · rintro c cs rfl hc
        simp [parseTypeWithName, hpi, hsl, hc]
    · exact ⟨synthName k, s, isAlnumToken_nospace _ (synthName_token k), Or.inl ⟨rfl, rfl⟩,
        hsynth (by intro n r h; rw [hpi] at h; cases h; exact hr)⟩

theorem boxResult_abort {α : Type} (box : α → Node) (r : Run (Except Err (α × GoString)))
    (a : Abort) (h : boxResult box r = .abort a) : r = .abort a := by
  rcases r with (e | ⟨v, rest⟩) | b
  · cases h
  · cases h
  · simpa [boxResult] using h

theorem boxResult_ok {α : Type} (box : α → Node) (r : Run (Except Err (α × GoString)))
    (node : Node) (rest : GoString) (h : boxResult box r = .ret (.ok (node, rest))) :
    ∃ v, r = .ret (.ok (v, rest)) ∧ node = box v := by
  rcases r with (e | ⟨v, rest'⟩) | b
  · cases h
  · simp only [boxResult, Run.ret.injEq, Except.ok.injEq, Prod.mk.injEq] at h
    exact ⟨v, by rw [h.2], h.1.symm⟩
  · cases h

theorem closeArgs_returns (result : List Node) (rest : GoString) (a : Abort) :
    closeArgs result rest ≠ .abort a := by
  simp only [closeArgs]
  split
  · split <;> simp
  · simp

theorem closeArgs_ok (result : List Node) (rest : GoString) (res : List Node)
    (rest2 : GoString) (h : closeArgs result rest = .ret (.ok (res, rest2))) :
    rest2 <:+ rest ∧ rest2.length < rest.length
      ∧ (res = result ∨ res = result ++ [Node.str (lit "[]")]) := by
  simp only [closeArgs] at h
  split at h
  · split at h
    · simp only [Run.ret.injEq, Except.ok.injEq, Prod.mk.injEq] at h
      rw [← h.1, ← h.2]
      exact ⟨⟨[41, 91, 93], rfl⟩, by simp only [List.length_cons]; omega, Or.inr rfl⟩
    · simp only [Run.ret.injEq, Except.ok.injEq, Prod.mk.injEq] at h
      rw [← h.1, ← h.2]
      exact ⟨⟨[41], rfl⟩, by simp, Or.inl rfl⟩
  · cases h

theorem mem_of_suffix {rest s s0 : GoString} (h : rest <:+ s) (hs : ∀ c ∈ s, c ∈ s0) :
    ∀ c ∈ rest, c ∈ s0 := fun c hc => hs c (h.subset hc)

theorem nodeText_marker (s0 : GoString) : GoodNode (NodeText s0) (Node.str (lit "[]")) :=
  GoodNode.str (Or.inl rfl)

theorem invType_zero (s0 : GoString) : InvType s0 0 := by
  intro s k _
  refine ⟨by simp [parseTypeWithName], by omega, ?_⟩
  intro node rest h
  simp [parseTypeWithName] at h

theorem invComposite_zero (s0 : GoString) : InvComposite s0 0 := by
  intro name cs _ _
  refine ⟨by simp [parseCompositeTypeWithName], by omega, ?_⟩
  intro result rest h
  simp [parseCompositeTypeWithName] at h

theorem invLoop_zero (s0 : GoString) : InvLoop s0 0 := by
  intro result rest k _
  refine ⟨by simp [parseArgsLoop], by omega, ?_⟩
  intro res rest2 h
  simp [parseArgsLoop] at h

theorem invType_succ (s0 : GoString) (F : Nat) (hC : InvComposite s0 F) :
    InvType s0 (F + 1) := by
  intro s k hs
  obtain ⟨name, u, hname, hnaming, h0, hparen, helem⟩ := parseTypeWithName_unfold F s k
  have hus : u <:+ s := by
    rcases hnaming with ⟨-, rfl⟩ | h
    · exact List.suffix_refl _
    · exact ⟨name ++ [32], by rw [h]; simp [joinNameType]⟩
  cases u with
  | nil =>
    rw [h0 rfl]
    exact ⟨by simp, by simp, by intro node rest h; cases h⟩
  | cons c cs =>
    by_cases hc : c = 40
    · subst hc
      rw [hparen cs rfl]
      have hcs : cs <:+ s := List.IsSuffix.trans (List.suffix_cons _ _) hus
      obtain ⟨hp, hf, ho⟩ := hC name cs hname (mem_of_suffix hcs hs)
      refine ⟨fun h => hp (boxResult_abort _ _ _ h), ?_, ?_⟩
      · intro hF h
        have hlen := hus.length_le
        simp only [List.length_cons] at hlen
        exact hf (by omega) (boxResult_abort _ _ _ h)
      · intro node rest h
        obtain ⟨result, hr, rfl⟩ := boxResult_ok _ _ _ _ h
        obtain ⟨hg, hsuf⟩ := ho result rest hr
        exact ⟨hg, List.IsSuffix.trans hsuf hcs⟩
    · rw [helem c cs rfl hc]
      refine ⟨fun h => parseElementaryTypeWithName_returns _ _ (boxResult_abort _ _ _ h),
        fun _ h => parseElementaryTypeWithName_returns _ _ (boxResult_abort _ _ _ h), ?_⟩
      intro node rest h
      obtain ⟨x, hr, rfl⟩ := boxResult_ok _ _ _ _ h
      rcases hnaming with ⟨rfl, hu⟩ | hsj
      · obtain ⟨t, hx, ht⟩ := parseElementaryTypeWithName_synth k _ x rest hr
        rw [hu] at ht
        refine ⟨GoodNode.str (Or.inr (Or.inr ⟨k, t, hx, ?_⟩)), ⟨t, ht⟩⟩
        intro d hd
        exact hs d (by rw [← ht]; exact List.mem_append_left _ hd)
      · have happ := parseElementaryTypeWithName_append _ x rest hr
        rw [← hsj] at happ
        refine ⟨GoodNode.str (Or.inr (Or.inl (hs 32 ?_))), ⟨x, happ⟩⟩
        rw [hsj]
        simp [joinNameType]

theorem invLoop_succ (s0 : GoString) (F : Nat) (hT : InvType s0 F) (hL : InvLoop s0 F) :
    InvLoop s0 (F + 1) := by
  intro result rest k hrest
  cases rest with
  | nil =>
    simp only [parseArgsLoop]
    refine ⟨by simp, by simp, ?_⟩
    intro res rest2 h
    simp only [Run.ret.injEq, Except.ok.injEq, Prod.mk.injEq] at h
    exact ⟨by rw [← h.2], [], by simp [h.1], by simp⟩
  | cons c rest1 =>
    by_cases hc : c = 41
    · simp only [parseArgsLoop, hc, if_true]
      refine ⟨by simp, by simp, ?_⟩
      intro res rest2 h
      simp only [Run.ret.injEq, Except.ok.injEq, Prod.mk.injEq] at h
      exact ⟨by rw [← h.2], [], by simp [h.1], by simp⟩
    · have hr1 : ∀ d ∈ rest1, d ∈ s0 := fun d hd => hrest d (List.mem_cons_of_mem _ hd)
      obtain ⟨hTp, hTf, hTo⟩ := hT rest1 (k + 1) hr1
      simp only [parseArgsLoop, hc, if_false]
      rcases h1 : parseTypeWithName F rest1 (k + 1) with (e | ⟨p, rest'⟩) | a
      · exact ⟨by simp, by simp, by intro res rest2 h; cases h⟩
      · obtain ⟨hg, hsuf⟩ := hTo p rest' h1
        obtain ⟨hLp, hLf, hLo⟩ := hL (result ++ [p]) rest' (k + 1) (mem_of_suffix hsuf hr1)
        refine ⟨hLp, ?_, ?_⟩
        · intro hF
          have := hsuf.length_le
          simp only [List.length_cons] at hF
          exact hLf (by omega)
        · intro res rest2 h
          obtain ⟨h2, new, h3, h4⟩ := hLo res rest2 h
          refine ⟨List.IsSuffix.trans h2 (List.IsSuffix.trans hsuf (List.suffix_cons _ _)),
            p :: new, by simp [h3], ?_⟩
          intro n hn
          rcases List.mem_cons.1 hn with rfl | hn
          · exact hg
          · exact h4 n hn
      · refine ⟨?_, ?_, by intro res rest2 h; cases h⟩
        · intro h
          simp only [Run.abort.injEq] at h
          exact hTp (by rw [h1, h])
        · intro hF h
          simp only [Run.abort.injEq] at h
          simp only [List.length_cons] at hF
          exact hTf (by omega) (by rw [h1, h])

theorem invComposite_succ (s0 : GoString) (F : Nat) (hT : InvType s0 F) (hL : InvLoop s0 F) :
    InvComposite s0 (F + 1) := by
  intro name cs hname hcs
  obtain ⟨q, qs, hsp⟩ := splitSpace_joined name (40 :: cs) hname
  have hsl : sliceFrom (joinNameType name (40 :: cs)) (name.length + 1) = some (40 :: cs) :=
    sliceFrom_append name _
  obtain ⟨hTp, hTf, hTo⟩ := hT cs 0 hcs
  rcases h1 : parseTypeWithName F cs 0 with (e | ⟨p, rest'⟩) | a
  · simp only [parseCompositeTypeWithName, hsp, hsl, h1]
    exact ⟨by simp, by simp, by intro res rest2 h; cases h⟩
  · obtain ⟨hg, hsuf⟩ := hTo p rest' h1
    obtain ⟨hLp, hLf, hLo⟩ := hL [Node.str name, p] rest' 0 (mem_of_suffix hsuf hcs)
    rcases h2 : parseArgsLoop F [Node.str name, p] rest' 0 with (e | ⟨res, rest2⟩) | a
    · simp only [parseCompositeTypeWithName, hsp, hsl, h1, h2]
      exact ⟨by simp, by simp, by intro res rest2 h; cases h⟩
    · simp only [parseCompositeTypeWithName, hsp, hsl, h1, h2]
      obtain ⟨h3, new, h4, h5⟩ := hLo res rest2 h2
      refine ⟨closeArgs_returns _ _ _, fun _ => closeArgs_returns _ _ _, ?_⟩
      intro result rest h
      obtain ⟨h6, -, h7⟩ := closeArgs_ok _ _ _ _ h
      refine ⟨?_, List.IsSuffix.trans h6 (List.IsSuffix.trans h3 hsuf)⟩
      have hgood : ∀ n ∈ p :: new, GoodNode (NodeText s0) n := by
        intro n hn
        rcases List.mem_cons.1 hn with rfl | hn
        · exact hg
        · exact h5 n hn
      rcases h7 with rfl | rfl
      · rw [h4]
        exact GoodNode.list hgood
      · rw [h4]
        have : [Node.str name, p] ++ new ++ [Node.str (lit "[]")]
            = Node.str name :: (p :: new ++ [Node.str (lit "[]")]) := by simp
        rw [this]
        apply GoodNode.list
        intro n hn
        rcases List.mem_append.1 hn with hn | hn
        · exact hgood n hn
        · simp only [List.mem_singleton] at hn
          subst hn
          exact nodeText_marker s0
    · simp only [parseCompositeTypeWithName, hsp, hsl, h1, h2]
      refine ⟨?_, ?_, by intro res rest2 h; cases h⟩
      · intro h
        simp only [Run.abort.injEq] at h
        exact hLp (by rw [h2, h])
      · intro hF h
        simp only [Run.abort.injEq] at h
        have := hsuf.length_le
        exact hLf (by omega) (by rw [h2, h])
  · simp only [parseCompositeTypeWithName, hsp, hsl, h1]
    refine ⟨?_, ?_, by intro res rest2 h; cases h⟩
    · intro h
      simp only [Run.abort.injEq] at h
      exact hTp (by rw [h1, h])
    · intro hF h
      simp only [Run.abort.injEq] at h
      exact hTf (by omega) (by rw [h1, h])

theorem parser_invariant (s0 : GoString) (F : Nat) :
    InvType s0 F ∧ InvComposite s0 F ∧ InvLoop s0 F := by
  induction F with
  | zero => exact ⟨invType_zero s0, invComposite_zero s0, invLoop_zero s0⟩
  | succ F ih =>
    exact ⟨invType_succ s0 F ih.2.1, invComposite_succ s0 F ih.1 ih.2.2,
      invLoop_succ s0 F ih.1 ih.2.2⟩

theorem parseFunctionsArgs_inv (s0 : GoString) (F : Nat) (s : GoString)
    (hs : ∀ c ∈ s, c ∈ s0) :
    parseFunctionsArgs F s ≠ .abort .panic
      ∧ (2 * s.length ≤ F + 1 → parseFunctionsArgs F s ≠ .abort .outOfFuel)
      ∧ ∀ result rest, parseFunctionsArgs F s = .ret (.ok (result, rest)) →
          (∀ n ∈ result, GoodNode (NodeText s0) n) ∧ rest <:+ s ∧ rest.length < s.length := by
  obtain ⟨hT, -, hL⟩ := parser_invariant s0 F
  have hother : ∀ (h40 : ∀ s1, s ≠ 40 :: s1),
      parseFunctionsArgs F s = .ret (.error (.expectedOpenParen s)) := by
    intro h40
    cases s with
    | nil => rfl
    | cons c cs =>
      by_cases hc : c = 40
      · exact absurd (by rw [hc]) (h40 cs)
      · simp [parseFunctionsArgs, hc]
  by_cases h40 : ∃ s1, s = 40 :: s1
  · obtain ⟨s1, rfl⟩ := h40
    have hs1 : ∀ c ∈ s1, c ∈ s0 := fun c hc => hs c (List.mem_cons_of_mem _ hc)
    obtain ⟨hTp, hTf, hTo⟩ := hT s1 0 hs1
    rcases h1 : parseTypeWithName F s1 0 with (e | ⟨p, rest'⟩) | a
    · simp only [parseFunctionsArgs, h1]
      exact ⟨by simp, by simp, by intro res rest2 h; cases h⟩
    · obtain ⟨hg, hsuf⟩ := hTo p rest' h1
      obtain ⟨hLp, hLf, hLo⟩ := hL [p] rest' 0 (mem_of_suffix hsuf hs1)
      rcases h2 : parseArgsLoop F [p] rest' 0 with (e | ⟨res, rest2⟩) | a
      · simp only [parseFunctionsArgs, h1, h2]
        exact ⟨by simp, by simp, by intro res rest2 h; cases h⟩
      · simp only [parseFunctionsArgs, h1, h2]
        obtain ⟨h3, new, h4, h5⟩ := hLo res rest2 h2
        refine ⟨closeArgs_returns _ _ _, fun _ => closeArgs_returns _ _ _, ?_⟩
        intro result rest h
        obtain ⟨h6, -, h7⟩ := closeArgs_ok _ _ _ _ h
        have hsuf1 : rest <:+ s1 := List.IsSuffix.trans h6 (List.IsSuffix.trans h3 hsuf)
        refine ⟨?_, List.IsSuffix.trans hsuf1 (List.suffix_cons _ _), ?_⟩
        · have hgood : ∀ n ∈ [p] ++ new, GoodNode (NodeText s0) n := by
            intro n hn
            rcases List.mem_append.1 hn with hn | hn
            · simp only [List.mem_singleton] at hn; subst hn; exact hg
            · exact h5 n hn
          rcases h7 with rfl | rfl
          · rw [h4]; exact hgood
          · rw [h4]
            intro n hn
            rcases List.mem_append.1 hn with hn | hn
            · exact hgood n hn
            · simp only [List.mem_singleton] at hn
              subst hn
              exact nodeText_marker s0
        · have := hsuf1.length_le
          simp only [List.length_cons]
          omega
      · simp only [parseFunctionsArgs, h1, h2]
        refine ⟨?_, ?_, by intro res rest2 h; cases h⟩
        · intro h
          simp only [Run.abort.injEq] at h
          exact hLp (by rw [h2, h])
        · intro hF h
          simp only [Run.abort.injEq] at h
          have := hsuf.length_le
          simp only [List.length_cons] at hF
          exact hLf (by omega) (by rw [h2, h])
    · simp only [parseFunctionsArgs, h1]
      refine ⟨?_, ?_, by intro res rest2 h; cases h⟩
      · intro h
        simp only [Run.abort.injEq] at h
        exact hTp (by rw [h1, h])
      · intro hF h
        simp only [Run.abort.injEq] at h
        simp only [List.length_cons] at hF
        exact hTf (by omega) (by rw [h1, h])
  · rw [hother (fun s1 h => h40 ⟨s1, h⟩)]
    exact ⟨by simp, by simp, by intro res rest2 h; cases h⟩

theorem splitSpace_cons_inv (s name p : GoString) (ps : List GoString)
    (h : splitSpace s = name :: p :: ps) :
    ∃ u, s = name ++ 32 :: u ∧ (∀ c ∈ name, c ≠ 32) := by
  induction s generalizing name with
  | nil => simp [splitSpace] at h
  | cons c cs ih =>
    simp only [splitSpace] at h
    split at h
    · rename_i hc
      simp only [List.cons.injEq] at h
      exact ⟨cs, by rw [← h.1, hc]; rfl, by rw [← h.1]; simp⟩
    · rename_i hc
      split at h
      · simp at h
      · rename_i q qs hq
        simp only [List.cons.injEq] at h
        rw [h.2] at hq
        obtain ⟨u, hu, hn⟩ := ih q hq
        refine ⟨u, by rw [← h.1, hu]; rfl, ?_⟩
        rw [← h.1]
        intro d hd
        rcases List.mem_cons.1 hd with rfl | hd
        · exact hc
        · exact hn d hd

theorem assembleArg_str_inv (s : GoString) :
    (∀ a, assembleArg (Node.str s) ≠ .abort a)
      ∧ ∀ d, assembleArg (Node.str s) = .ret (.ok d) →
          (s = lit "[]" ∧ d = .mk [] (lit "[]") (lit "[]") [])
            ∨ ∃ name t, s = joinNameType name t ∧ (∀ c ∈ name, c ≠ 32)
                ∧ d = .mk name t t [] := by
  by_cases hm : s = lit "[]"
  · subst hm
    rw [assembleArg_marker]
    refine ⟨by simp, ?_⟩
    intro d h
    simp only [Run.ret.injEq, Except.ok.injEq] at h
    exact Or.inl ⟨rfl, h.symm⟩
  · cases hsp : splitSpace s with
    | nil => exact absurd hsp (splitSpace_ne_nil s)
    | cons name ps =>
      cases ps with
      | nil =>
        simp only [assembleArg, hm, if_false, hsp]
        exact ⟨by simp, by intro d h; cases h⟩
      | cons p ps =>
        obtain ⟨u, hu, hn⟩ := splitSpace_cons_inv s name p ps hsp
        have hsl : sliceFrom s (name.length + 1) = some u := by
          rw [hu]; exact sliceFrom_append name u
        simp only [assembleArg, hm, if_false, hsp, hsl]
        refine ⟨by simp, ?_⟩
        intro d h
        simp only [Run.ret.injEq, Except.ok.injEq] at h
        exact Or.inr ⟨name, u, hu, hn, h.symm⟩

theorem assembleArgs_returns (args : List Node)
    (h : ∀ n ∈ args, ∀ a, assembleArg n ≠ .abort a) : ∀ a, assembleArgs args ≠ .abort a := by
  induction args with
  | nil => intro a; simp [assembleArgs]
  | cons n ns ih =>
    intro a
    have hn := h n (List.mem_cons_self _ _)
    have hns := ih (fun m hm => h m (List.mem_cons_of_mem _ hm))
    rcases h1 : assembleArg n with (e | d) | b
    · simp [assembleArgs, h1]
    · rcases h2 : assembleArgs ns with (e | ds) | b
      · simp [assembleArgs, h1, h2]
      · simp [assembleArgs, h1, h2]
      · exact absurd h2 (hns b)
    · exact absurd h1 (hn b)

theorem assembleArg_returns (Q : GoString → Prop) (n : Node) (hn : GoodNode Q n) :
    ∀ a, assembleArg n ≠ .abort a := by
  induction hn with
  | str _ => exact (assembleArg_str_inv _).1
  | @list name xs _ ih =>
    intro a
    cases xs with
    | nil => simp [assembleArg]
    | cons c1 cs =>
      have := assembleArgs_returns (c1 :: cs) ih
      rcases h1 : assembleArgs (c1 :: cs) with (e | ds) | b
      · simp [assembleArg, h1]
      · simp only [assembleArg, h1]
        split <;> simp
      · exact absurd h1 (this b)

theorem ParseSelector_eq (s name rest : GoString)
    (h : parseIdentifier s = .ok (name, rest)) :
    ParseSelector s = finishSelector s name (parseSelectorArgs s rest) := by
  simp only [ParseSelector, h, finishSelector, parseSelectorArgs]

theorem parseSelectorArgs_cases (s rest : GoString) :
    (∃ r2, rest = 40 :: 41 :: r2 ∧ parseSelectorArgs s rest = .ret (.ok ([], r2)))
      ∨ parseSelectorArgs s rest = parseFunctionsArgs (2 * s.length + 1) rest := by
  simp only [parseSelectorArgs]
  split
  · rename_i r2
    exact Or.inl ⟨r2, rfl, rfl⟩
  · exact Or.inr rfl

theorem ParseSelector_spec (s name rest : GoString)
    (h : parseIdentifier s = .ok (name, rest)) :
    ∃ parsed : Run (Except Err (List Node × GoString)),
      ((∃ r2, rest = 40 :: 41 :: r2 ∧ parsed = .ret (.ok ([], r2)))
        ∨ parsed = parseFunctionsArgs (2 * s.length + 1) rest)
      ∧ (∀ a, parsed = .abort a → ParseSelector s = .abort a)
      ∧ (∀ e, parsed = .ret (.error e)
          → ParseSelector s = .ret (SelectorMarshaling.zero, some (.parseSelector s e)))
      ∧ (∀ args c cs, parsed = .ret (.ok (args, c :: cs))
          → ParseSelector s
              = .ret (SelectorMarshaling.zero, some (.unexpectedString s (c :: cs))))
      ∧ ∀ args, parsed = .ret (.ok (args, [])) →
          (∀ a, assembleArgs args = .abort a → ParseSelector s = .abort a)
          ∧ (∀ e, assembleArgs args = .ret (.error e)
              → ParseSelector s = .ret (SelectorMarshaling.zero, some (.assembleSelector e)))
          ∧ ∀ fakeArgs, assembleArgs args = .ret (.ok fakeArgs)
              → ParseSelector s = .ret (⟨name, lit "function", fakeArgs⟩, none) := by
  have heq := ParseSelector_eq s name rest h
  refine ⟨parseSelectorArgs s rest, ?_, ?_, ?_, ?_, ?_⟩
  · rcases parseSelectorArgs_cases s rest with ⟨r2, h1, h2⟩ | h2
    · exact Or.inl ⟨r2, h1, h2⟩
    · exact Or.inr h2
  · intro a ha; rw [heq, ha]; rfl
  · intro e he; rw [heq, he]; rfl
  · intro args c cs hp; rw [heq, hp]; rfl
  · intro args hp
    refine ⟨?_, ?_, ?_⟩
    · intro a ha; rw [heq, hp]; simp only [finishSelector, ha]
    · intro e he; rw [heq, hp]; simp only [finishSelector, he]
    · intro fa hfa; rw [heq, hp]; simp only [finishSelector, hfa]

theorem parseIdentifier_suffix (s name rest : GoString)
    (h : parseIdentifier s = .ok (name, rest)) : rest <:+ s :=
  ⟨name, parseToken_append s true name rest h⟩

theorem ParseSelector_returns (s : GoString) (a : Abort) : ParseSelector s ≠ .abort a := by
  cases h : parseIdentifier s with
  | error e => simp [ParseSelector, h]
  | ok p =>
    obtain ⟨name, rest⟩ := p
    have hsuf := parseIdentifier_suffix s name rest h
    obtain ⟨parsed, hparsed, hab, herr, htrail, hok⟩ := ParseSelector_spec s name rest h
    have hgood : (∀ b, parsed ≠ .abort b)
        ∧ ∀ args r, parsed = .ret (.ok (args, r)) → ∀ n ∈ args, GoodNode (NodeText s) n := by
      rcases hparsed with ⟨r2, -, rfl⟩ | rfl
      · refine ⟨by simp, ?_⟩
        intro args r hh
        simp only [Run.ret.injEq, Except.ok.injEq, Prod.mk.injEq] at hh
        rw [← hh.1]
        simp
      · obtain ⟨hp, hf, ho⟩ := parseFunctionsArgs_inv s (2 * s.length + 1) rest
          (fun c hc => hsuf.subset hc)
        refine ⟨?_, fun args r hh => (ho args r hh).1⟩
        intro b
        cases b with
        | panic => exact hp
        | outOfFuel =>
          have := hsuf.length_le
          exact hf (by omega)
    rcases hpd : parsed with (e | ⟨args, r⟩) | b
    · rw [herr e hpd]; simp
    · cases r with
      | cons c cs => rw [htrail args c cs hpd]; simp
      | nil =>
        have hg := hgood.2 args [] hpd
        have hasm := assembleArgs_returns args
          (fun n hn => assembleArg_returns _ n (hg n hn))
        obtain ⟨-, hae, hao⟩ := hok args hpd
        rcases hasm' : assembleArgs args with (e | fa) | b
        · rw [hae e hasm']; simp
        · rw [hao fa hasm']; simp
        · exact absurd hasm' (hasm b)
    · exact absurd hpd (hgood.1 b)

theorem ParseSelector_success (s : GoString) (m : SelectorMarshaling)
    (h : ParseSelector s = .ret (m, none)) :
    ∃ args, (∀ n ∈ args, GoodNode (NodeText s) n) ∧ assembleArgs args = .ret (.ok m.Inputs) := by
  cases hpi : parseIdentifier s with
  | error e => simp [ParseSelector, hpi] at h
  | ok p =>
    obtain ⟨name, rest⟩ := p
    have hsuf := parseIdentifier_suffix s name rest hpi
    obtain ⟨parsed, hparsed, hab, herr, htrail, hok⟩ := ParseSelector_spec s name rest hpi
    have hgood : ∀ args r, parsed = .ret (.ok (args, r)) →
        ∀ n ∈ args, GoodNode (NodeText s) n := by
      rcases hparsed with ⟨r2, -, rfl⟩ | rfl
      · intro args r hh
        simp only [Run.ret.injEq, Except.ok.injEq, Prod.mk.injEq] at hh
        rw [← hh.1]
        simp
      · exact fun args r hh =>
          ((parseFunctionsArgs_inv s (2 * s.length + 1) rest
            (fun c hc => hsuf.subset hc)).2.2 args r hh).1
    rcases hpd : parsed with (e | ⟨args, r⟩) | b
    · rw [herr e hpd] at h; cases h
    · cases r with
      | cons c cs => rw [htrail args c cs hpd] at h; cases h
      | nil =>
        obtain ⟨haa, hae, hao⟩ := hok args hpd
        rcases hasm : assembleArgs args with (e | fa) | b
        · rw [hae e hasm] at h; cases h
        · rw [hao fa hasm] at h
          simp only [Run.ret.injEq, Prod.mk.injEq, and_true] at h
          exact ⟨args, hgood args [] hpd, by rw [hasm, ← h]⟩
        · rw [haa b hasm] at h; cases h
    · rw [hab b hpd] at h; cases h

theorem occurs_nil (d : ArgumentMarshaling) : ¬ Occurs d [] := by
  intro h
  cases h with
  | here h => simp at h
  | inside h _ => simp at h

theorem occurs_cons (d a : ArgumentMarshaling) (l : List ArgumentMarshaling) :
    Occurs d (a :: l) ↔ d = a ∨ Occurs d a.Components ∨ Occurs d l := by
  constructor
  · intro h
    cases h with
    | here h =>
      rcases List.mem_cons.1 h with h | h
      · exact Or.inl h
      · exact Or.inr (Or.inr (Occurs.here h))
    | @inside _ b hb hd =>
      rcases List.mem_cons.1 hb with rfl | hb
      · exact Or.inr (Or.inl hd)
      · exact Or.inr (Or.inr (Occurs.inside hb hd))
  · rintro (rfl | h | h)
    · exact Occurs.here (List.mem_cons_self _ _)
    · exact Occurs.inside (List.mem_cons_self _ _) h
    · cases h with
      | here h => exact Occurs.here (List.mem_cons_of_mem _ h)
      | inside hb hd => exact Occurs.inside (List.mem_cons_of_mem _ hb) hd

theorem occurs_mono (d : ArgumentMarshaling) (l1 l2 : List ArgumentMarshaling)
    (hsub : ∀ x ∈ l1, x ∈ l2) (h : Occurs d l1) : Occurs d l2 := by
  cases h with
  | here h => exact Occurs.here (hsub _ h)
  | inside hb hd => exact Occurs.inside (hsub _ hb) hd

theorem assembleArgs_deep (P : ArgumentMarshaling → Prop) (args : List Node)
    (h : ∀ n ∈ args, ∀ a, assembleArg n = .ret (.ok a) →
      P a ∧ ∀ d, Occurs d a.Components → P d) :
    ∀ as, assembleArgs args = .ret (.ok as) → ∀ d, Occurs d as → P d := by
  induction args with
  | nil =>
    intro as has d hd
    simp only [assembleArgs, Run.ret.injEq, Except.ok.injEq] at has
    rw [← has] at hd
    exact absurd hd (occurs_nil d)
  | cons n ns ih =>
    intro as has d hd
    rcases h1 : assembleArg n with (e | a) | b
    · simp [assembleArgs, h1] at has
    · rcases h2 : assembleArgs ns with (e | as2) | b
      · simp [assembleArgs, h1, h2] at has
      · simp only [assembleArgs, h1, h2, Run.ret.injEq, Except.ok.injEq] at has
        rw [← has] at hd
        obtain ⟨hPa, hPc⟩ := h n (List.mem_cons_self _ _) a h1
        rcases (occurs_cons d a as2).1 hd with rfl | hd | hd
        · exact hPa
        · exact hPc d hd
        · exact ih (fun m hm => h m (List.mem_cons_of_mem _ hm)) as2 h2 d hd
      · simp [assembleArgs, h1, h2] at has
    · simp [assembleArgs, h1] at has

theorem assembleArg_deep (P : ArgumentMarshaling → Prop) (Q : GoString → Prop)
    (hstr : ∀ s a, Q s → assembleArg (Node.str s) = .ret (.ok a) → P a)
    (htup : ∀ name subs, P (.mk name (lit "tuple") (lit "tuple") subs))
    (harr : ∀ name subs, P (.mk name (lit "tuple[]") (lit "tuple[]") subs))
    (n : Node) (hn : GoodNode Q n) :
    ∀ a, assembleArg n = .ret (.ok a) → P a ∧ ∀ d, Occurs d a.Components → P d := by
  induction hn with
  | @str s hq =>
    intro a ha
    refine ⟨hstr s a hq ha, ?_⟩
    rcases (assembleArg_str_inv s).2 a ha with ⟨-, rfl⟩ | ⟨name, t, -, -, rfl⟩
    · intro d hd; exact absurd hd (occurs_nil d)
    · intro d hd; exact absurd hd (occurs_nil d)
  | @list name xs _ ih =>
    intro a ha
    cases xs with
    | nil => simp [assembleArg] at ha
    | cons c1 cs =>
      rcases h1 : assembleArgs (c1 :: cs) with (e | subs) | b
      · simp [assembleArg, h1] at ha
      · have hdeep := assembleArgs_deep P (c1 :: cs) ih subs h1
        simp only [assembleArg, h1] at ha
        split at ha
        · simp only [Run.ret.injEq, Except.ok.injEq] at ha
          rw [← ha]
          refine ⟨harr _ _, ?_⟩
          intro d hd
          exact hdeep d (occurs_mono d _ _ (fun x hx => List.mem_of_mem_dropLast hx) hd)
        · simp only [Run.ret.injEq, Except.ok.injEq] at ha
          rw [← ha]
          exact ⟨htup _ _, hdeep⟩
      · simp [assembleArg, h1] at ha

theorem ParseSelector_deep (P : ArgumentMarshaling → Prop) (s : GoString)
    (hstr : ∀ x a, NodeText s x → assembleArg (Node.str x) = .ret (.ok a) → P a)
    (htup : ∀ name subs, P (.mk name (lit "tuple") (lit "tuple") subs))
    (harr : ∀ name subs, P (.mk name (lit "tuple[]") (lit "tuple[]") subs))
    (m : SelectorMarshaling) (h : ParseSelector s = .ret (m, none)) :
    ∀ d, Occurs d m.Inputs → P d := by
  obtain ⟨args, hgood, hasm⟩ := ParseSelector_success s m h
  exact assembleArgs_deep P args
    (fun n hn => assembleArg_deep P (NodeText s) hstr htup harr n (hgood n hn)) _ hasm

theorem assembleArg_str_components (s : GoString) (a : ArgumentMarshaling)
    (h : assembleArg (Node.str s) = .ret (.ok a)) : a.Components = [] := by
  rcases (assembleArg_str_inv s).2 a h with ⟨-, rfl⟩ | ⟨name, t, -, -, rfl⟩ <;> rfl

theorem splitSpace_no_space (s : GoString) (h : ∀ c ∈ s, c ≠ 32) : splitSpace s = [s] := by
  induction s with
  | nil => rfl
  | cons c cs ih =>
    have hc := h c (List.mem_cons_self _ _)
    have := ih (fun d hd => h d (List.mem_cons_of_mem _ hd))
    simp [splitSpace, hc, this]

theorem parseElementaryType_elementary (t : GoString) (ht : IsElementaryType t) :
    parseElementaryType t = .ret (.ok (t, [])) := by
  obtain ⟨a, body, sfx, rfl, ha, hbody, hsfx⟩ := ht
  have hscan : scanToken false (body ++ (arraySuffixes sfx ++ []))
      = (body, arraySuffixes sfx ++ []) := by
    apply scanToken_append
    · intro c hc; exact isAlnum_tokenChar _ _ (hbody c hc)
    · exact head_suffixes _ sfx [] (by decide) (by intro c hc; simp at hc)
  have hsplit : splitSpace (a :: body) = [a :: body] := by
    apply splitSpace_no_space
    intro c hc
    rcases List.mem_cons.1 hc with rfl | hc
    · exact (isAlpha_ne _ ha).2
    · exact isAlnum_ne_space _ (hbody c hc)
  have harr := parseArraySuffixes_append (a :: body ++ arraySuffixes sfx) sfx hsfx []
    (by intro c hc; simp at hc) (arraySuffixes sfx ++ []).length (a :: body)
    (by have := arraySuffixes_length sfx; simp only [List.append_nil]; omega)
  simp only [List.append_nil, List.cons_append] at hscan harr
  simp only [parseElementaryType, parseToken, List.cons_append, ha, hscan, hsplit, harr,
    Bool.true_or, Bool.not_true, Bool.false_eq_true, if_false]

theorem lit_tuple_no_space : (∀ c ∈ lit "tuple", c ≠ 32) ∧ (∀ c ∈ lit "tuple[]", c ≠ 32)
    ∧ ∀ c ∈ lit "[]", c ≠ 32 := by decide

/-- A successful suffix scan appended a run of `[digits]` groups to the parsed
type and removed exactly that text from the input. -/
theorem parseArraySuffixes_ok_digits (first : GoString) :
    ∀ (fuel : Nat) (parsedType rest pt rest2 : GoString),
      parseArraySuffixes first fuel parsedType rest = .ret (.ok (pt, rest2)) →
      ∃ sfx : List GoString, (∀ d ∈ sfx, ∀ c ∈ d, isDigit c = true)
        ∧ pt = parsedType ++ arraySuffixes sfx ∧ arraySuffixes sfx ++ rest2 = rest := by
  intro fuel
  induction fuel with
  | zero =>
    intro parsedType rest pt rest2 h
    simp only [parseArraySuffixes] at h
    split at h
    · cases h
    · simp only [Run.ret.injEq, Except.ok.injEq, Prod.mk.injEq] at h
      exact ⟨[], by simp, by simp [arraySuffixes, h.1], by simp [arraySuffixes, h.2]⟩
  | succ fuel ih =>
    intro parsedType rest pt rest2 h
    simp only [parseArraySuffixes] at h
    split at h
    · rename_i rest1
      split at h
      · rename_i rest3 hd
        obtain ⟨sfx, h0, h1, h2⟩ := ih _ _ _ _ h
        refine ⟨rest1.takeWhile isDigit :: sfx, ?_, ?_, ?_⟩
        · intro d hd' c hc
          rcases List.mem_cons.1 hd' with rfl | hd'
          · exact (List.mem_takeWhile_imp hc)
          · exact h0 d hd' c hc
        · rw [h1]
          simp [arraySuffixes, arraySuffix]
        · have := List.takeWhile_append_dropWhile isDigit rest1
          rw [hd] at this
          simp only [arraySuffixes] at h2
          simp [arraySuffixes, arraySuffix, h2, this]
      · split at h <;> cases h
    · simp only [Run.ret.injEq, Except.ok.injEq, Prod.mk.injEq] at h
      exact ⟨[], by simp, by simp [arraySuffixes, h.1], by simp [arraySuffixes, h.2]⟩

/-- Splitting on spaces gives one piece for a space-free string and at least
two pieces otherwise, the first being the text before the first space. -/
theorem splitSpace_cases (s : GoString) :
    (splitSpace s = [s] ∧ ∀ c ∈ s, c ≠ 32)
      ∨ ∃ name u p ps, splitSpace s = name :: p :: ps ∧ s = name ++ 32 :: u := by
  by_cases h : ∀ c ∈ s, c ≠ 32
  · exact Or.inl ⟨splitSpace_no_space s h, h⟩
  · right
    simp only [not_forall, not_not, exists_prop] at h
    obtain ⟨c, hc, rfl⟩ := h
    obtain ⟨name, u, hs, hn⟩ : ∃ name u, s = name ++ 32 :: u ∧ ∀ c ∈ name, c ≠ 32 := by
      clear * - hc
      induction s with
      | nil => simp at hc
      | cons a as ih =>
        by_cases ha : a = 32
        · exact ⟨[], as, by simp [ha], by simp⟩
        · rcases List.mem_cons.1 hc with h | h
          · exact absurd h.symm ha
          · obtain ⟨name, u, hs, hn⟩ := ih h
            refine ⟨a :: name, u, by simp [hs], ?_⟩
            intro c hc'
            rcases List.mem_cons.1 hc' with rfl | hc'
            · exact ha
            · exact hn c hc'
    obtain ⟨p, ps, hsp⟩ := splitSpace_joined name u hn
    exact ⟨name, u, p, ps, by rw [hs]; exact hsp, hs⟩

/-- Only elementary type strings are reproduced by `parseElementaryType`. -/
theorem parseElementaryType_inv (t : GoString)
    (h : parseElementaryType t = .ret (.ok (t, []))) : IsElementaryType t := by
  simp only [parseElementaryType] at h
  cases hp : parseToken t false with
  | error e => simp [hp] at h
  | ok p =>
    obtain ⟨tok, rest⟩ := p
    have happ := parseToken_append t false tok rest hp
    obtain ⟨hne, hcont⟩ : (∃ a body, tok = a :: body ∧ isAlpha a = true
        ∧ ∀ c ∈ body, isTokenChar false c = true) ∧ True := by
      refine ⟨?_, trivial⟩
      cases t with
      | nil => simp [parseToken] at hp
      | cons a as =>
        have hsp := (scanToken_spec false as).2.1
        simp only [parseToken] at hp
        split at hp
        · cases hp
        · rename_i ha
          simp only [Except.ok.injEq, Prod.mk.injEq] at hp
          refine ⟨a, (scanToken false as).1, hp.1.symm, ?_, hsp⟩
          simpa using ha
    obtain ⟨a, body, rfl, ha, hbody⟩ := hne
    simp only [hp] at h
    rcases splitSpace_cases (a :: body) with ⟨hsp, hns⟩ | ⟨name, u, p, ps, hsp, hs⟩
    · simp only [hsp] at h
      obtain ⟨sfx, hd, h1, h2⟩ := parseArraySuffixes_ok_digits _ _ _ _ _ _ h
      simp only [List.append_nil] at h2
      refine ⟨a, body, sfx, by rw [h2, happ], ha, ?_, hd⟩
      intro c hc
      have h32 := hns c (List.mem_cons_of_mem _ hc)
      have := hbody c hc
      simp only [isTokenChar, Bool.false_and, Bool.or_false, Bool.not_false, Bool.true_and,
        isSpace, Bool.or_eq_true, decide_eq_true_eq] at this
      rcases this with this | this
      · simpa [isAlnum] using this
      · exact absurd this h32
    · have hsl : sliceFrom (a :: body) (name.length + 1) = some u := by
        rw [hs]; exact sliceFrom_append name u
      simp only [hsp, hsl] at h
      obtain ⟨sfx, hd, h1, h2⟩ := parseArraySuffixes_ok_digits _ _ _ _ _ _ h
      simp only [List.append_nil] at h2
      have hlen := congrArg List.length h1
      have hlen2 := congrArg List.length happ
      have hlen3 := congrArg List.length hs
      rw [h2] at hlen
      simp only [List.length_append, List.length_cons] at hlen hlen2 hlen3
      omega

theorem arraySuffixes_no_space (sfx : List GoString)
    (h : ∀ d ∈ sfx, ∀ c ∈ d, isDigit c = true) : ∀ c ∈ arraySuffixes sfx, c ≠ 32 := by
  intro c hc
  simp only [arraySuffixes, List.mem_flatten, List.mem_map] at hc
  obtain ⟨l, ⟨d, hd, rfl⟩, hcl⟩ := hc
  simp only [arraySuffix, List.mem_cons, List.mem_append, List.mem_singleton,
    List.not_mem_nil, or_false] at hcl
  rcases hcl with (rfl | hcl) | rfl
  · decide
  · exact isDigit_ne_space c (h d hd c hcl)
  · decide

theorem arraySuffixes_not_letter (sfx : List GoString) (a : Nat) (r : GoString)
    (h : arraySuffixes sfx = a :: r) : isAlpha a = false := by
  cases sfx with
  | nil => simp [arraySuffixes] at h
  | cons d ds =>
    simp only [arraySuffixes, List.map_cons, List.flatten_cons, arraySuffix,
      List.cons_append, List.cons.injEq] at h
    rw [← h.1]
    decide

/-- The text of a string node of the parser, read as a name, a space and a
type: a type without a space that starts with a letter is an elementary type
string. -/
theorem parseElementaryTypeWithName_shape (x0 pt rest name t : GoString)
    (h : parseElementaryTypeWithName x0 = .ret (.ok (pt, rest)))
    (hpt : pt = joinNameType name t) (ht : ∀ c ∈ t, c ≠ 32) (hl : StartsWithLetter t) :
    IsElementaryType t := by
  simp only [parseElementaryTypeWithName] at h
  cases hp : parseToken x0 false with
  | error e => simp [hp] at h
  | ok p =>
    obtain ⟨tok, r0⟩ := p
    simp only [hp] at h
    obtain ⟨sfx, hd, h1, -⟩ := parseArraySuffixes_ok_digits _ _ _ _ _ _ h
    have htok : ∀ c ∈ tok.tail, isTokenChar false c = true := by
      cases x0 with
      | nil => simp [parseToken] at hp
      | cons b bs =>
        have hsp := (scanToken_spec false bs).2.1
        simp only [parseToken] at hp
        split at hp
        · cases hp
        · simp only [Except.ok.injEq, Prod.mk.injEq] at hp
          rw [← hp.1]
          exact hsp
    have hsfx := arraySuffixes_no_space sfx hd
    rw [hpt, joinNameType] at h1
    rcases List.append_eq_append_iff.1 h1 with ⟨a', h2, h3⟩ | ⟨c', h2, h3⟩
    · -- the space lies in the token
      cases a' with
      | nil =>
        simp only [List.nil_append] at h3
        exact absurd rfl (hsfx 32 (by rw [← h3]; exact List.mem_cons_self _ _))
      | cons q t' =>
        simp only [List.cons_append, List.cons.injEq] at h3
        obtain ⟨rfl, h3⟩ := h3
        -- here tok = name ++ 32 :: t' and t = t' ++ arraySuffixes sfx
        have ht' : ∀ c ∈ t', isAlnum c = true := by
          intro c hc
          have hmem : c ∈ tok.tail := by
            rw [h2]
            cases name with
            | nil => simpa using hc
            | cons n ns =>
              simp only [List.cons_append, List.tail_cons, List.mem_append, List.mem_cons]
              exact Or.inr (Or.inr hc)
          have h32 : c ≠ 32 := ht c (by rw [h3]; exact List.mem_append_left _ hc)
          have := htok c hmem
          simp only [isTokenChar, Bool.false_and, Bool.or_false, Bool.not_false, Bool.true_and,
            isSpace, Bool.or_eq_true, decide_eq_true_eq] at this
          rcases this with this | this
          · simpa [isAlnum] using this
          · exact absurd this h32
        obtain ⟨a, r, hta, ha⟩ := hl
        cases t' with
        | nil =>
          simp only [List.nil_append] at h3
          rw [h3] at hta
          have := arraySuffixes_not_letter sfx a r hta
          rw [ha] at this
          cases this
        | cons b body =>
          rw [h3] at hta
          simp only [List.cons_append, List.cons.injEq] at hta
          refine ⟨b, body, sfx, h3, by rw [hta.1]; exact ha, ?_, hd⟩
          intro c hc
          exact ht' c (List.mem_cons_of_mem _ hc)
    · -- the space would lie in the array suffixes
      exact absurd rfl (hsfx 32 (by rw [h3]; simp))

/-- Every string node that the argument parser builds holds the marker or a
result of `parseElementaryTypeWithName`, at every budget and on every input. -/
theorem parser_nodes (F : Nat) :
    (∀ s k node rest, parseTypeWithName F s k = .ret (.ok (node, rest)) →
        GoodNode ParsedText node)
      ∧ (∀ x result rest, parseCompositeTypeWithName F x = .ret (.ok (result, rest)) →
        GoodNode ParsedText (Node.list result))
      ∧ ∀ result rest k res rest2, parseArgsLoop F result rest k = .ret (.ok (res, rest2)) →
        ∃ new, res = result ++ new ∧ ∀ n ∈ new, GoodNode ParsedText n := by
  induction F with
  | zero =>
    refine ⟨?_, ?_, ?_⟩
    · intro s k node rest h; simp [parseTypeWithName] at h
    · intro x result rest h; simp [parseCompositeTypeWithName] at h
    · intro result rest k res rest2 h; simp [parseArgsLoop] at h
  | succ F ih =>
    obtain ⟨hT, hC, hL⟩ := ih
    refine ⟨?_, ?_, ?_⟩
    · intro s k node rest h
      obtain ⟨name, u, -, -, h0, hparen, helem⟩ := parseTypeWithName_unfold F s k
      cases u with
      | nil => rw [h0 rfl] at h; cases h
      | cons c cs =>
        by_cases hc : c = 40
        · subst hc
          rw [hparen cs rfl] at h
          obtain ⟨result, hr, rfl⟩ := boxResult_ok _ _ _ _ h
          exact hC _ result rest hr
        · rw [helem c cs rfl hc] at h
          obtain ⟨x, hr, rfl⟩ := boxResult_ok _ _ _ _ h
          exact GoodNode.str (Or.inr ⟨_, rest, hr⟩)
    · intro x result rest h
      cases hsp : splitSpace x with
      | nil => simp [parseCompositeTypeWithName, hsp] at h
      | cons name ps =>
        cases ps with
        | nil => simp [parseCompositeTypeWithName, hsp] at h
        | cons p1 ps =>
          rcases hsl : sliceFrom x (name.length + 1) with _ | u
          · simp [parseCompositeTypeWithName, hsp, hsl] at h
          · cases u with
            | nil => simp [parseCompositeTypeWithName, hsp, hsl] at h
            | cons c s1 =>
              by_cases hc : c = 40
              · subst hc
                rcases h1 : parseTypeWithName F s1 0 with (e | ⟨p, rest1⟩) | a
                · simp [parseCompositeTypeWithName, hsp, hsl, h1] at h
                · rcases h2 : parseArgsLoop F [Node.str name, p] rest1 0
                    with (e | ⟨res, rest2⟩) | a
                  · simp [parseCompositeTypeWithName, hsp, hsl, h1, h2] at h
                  · simp only [parseCompositeTypeWithName, hsp, hsl, h1, h2] at h
                    obtain ⟨new, h4, h5⟩ := hL _ _ _ _ _ h2
                    obtain ⟨-, -, h7⟩ := closeArgs_ok _ _ _ _ h
                    have hg := hT _ _ _ _ h1
                    have hgood : ∀ n ∈ p :: new, GoodNode ParsedText n := by
                      intro n hn
                      rcases List.mem_cons.1 hn with rfl | hn
                      · exact hg
                      · exact h5 n hn
                    rcases h7 with rfl | rfl
                    · rw [h4]
                      exact GoodNode.list hgood
                    · rw [h4]
                      have : [Node.str name, p] ++ new ++ [Node.str (lit "[]")]
                          = Node.str name :: (p :: new ++ [Node.str (lit "[]")]) := by simp
                      rw [this]
                      apply GoodNode.list
                      intro n hn
                      rcases List.mem_append.1 hn with hn | hn
                      · exact hgood n hn
                      · simp only [List.mem_singleton] at hn
                        subst hn
                        exact GoodNode.str (Or.inl rfl)
                  · simp [parseCompositeTypeWithName, hsp, hsl, h1, h2] at h
                · simp [parseCompositeTypeWithName, hsp, hsl, h1] at h
              · simp [parseCompositeTypeWithName, hsp, hsl, hc] at h
    · intro result rest k res rest2 h
      cases rest with
      | nil =>
        simp only [parseArgsLoop, Run.ret.injEq, Except.ok.injEq, Prod.mk.injEq] at h
        exact ⟨[], by simp [h.1], by simp⟩
      | cons c rest1 =>
        by_cases hc : c = 41
        · simp only [parseArgsLoop, hc, if_true, Run.ret.injEq, Except.ok.injEq,
            Prod.mk.injEq] at h
          exact ⟨[], by simp [h.1], by simp⟩
        · simp only [parseArgsLoop, hc, if_false] at h
          rcases h1 : parseTypeWithName F rest1 (k + 1) with (e | ⟨p, rest'⟩) | a
          · simp [h1] at h
          · simp only [h1] at h
            obtain ⟨new, h3, h4⟩ := hL _ _ _ _ _ h
            refine ⟨p :: new, by simp [h3], ?_⟩
            intro n hn
            rcases List.mem_cons.1 hn with rfl | hn
            · exact hT _ _ _ _ h1
            · exact h4 n hn
          · simp [h1] at h

theorem parseFunctionsArgs_nodes (F : Nat) (s : GoString) (result : List Node)
    (rest : GoString) (h : parseFunctionsArgs F s = .ret (.ok (result, rest))) :
    ∀ n ∈ result, GoodNode ParsedText n := by
  obtain ⟨hT, -, hL⟩ := parser_nodes F
  cases s with
  | nil => simp [parseFunctionsArgs] at h
  | cons c s1 =>
    by_cases hc : c = 40
    · subst hc
      rcases h1 : parseTypeWithName F s1 0 with (e | ⟨p, rest1⟩) | a
      · simp [parseFunctionsArgs, h1] at h
      · rcases h2 : parseArgsLoop F [p] rest1 0 with (e | ⟨res, rest2⟩) | a
        · simp [parseFunctionsArgs, h1, h2] at h
        · simp only [parseFunctionsArgs, h1, h2] at h
          obtain ⟨new, h4, h5⟩ := hL _ _ _ _ _ h2
          obtain ⟨-, -, h7⟩ := closeArgs_ok _ _ _ _ h
          have hgood : ∀ n ∈ [p] ++ new, GoodNode ParsedText n := by
            intro n hn
            rcases List.mem_append.1 hn with hn | hn
            · simp only [List.mem_singleton] at hn; subst hn; exact hT _ _ _ _ h1
            · exact h5 n hn
          rcases h7 with rfl | rfl
          · rw [h4]; exact hgood
          · rw [h4]
            intro n hn
            rcases List.mem_append.1 hn with hn | hn
            · exact hgood n hn
            · simp only [List.mem_singleton] at hn
              subst hn
              exact GoodNode.str (Or.inl rfl)
        · simp [parseFunctionsArgs, h1, h2] at h
      · simp [parseFunctionsArgs, h1] at h
    · simp [parseFunctionsArgs, hc] at h

/-- On success, the inputs of `ParseSelector` are assembled from nodes whose
strings are the marker or results of `parseElementaryTypeWithName`. -/
theorem ParseSelector_nodes (s : GoString) (m : SelectorMarshaling)
    (h : ParseSelector s = .ret (m, none)) :
    ∃ args, (∀ n ∈ args, GoodNode ParsedText n) ∧ assembleArgs args = .ret (.ok m.Inputs) := by
  cases hpi : parseIdentifier s with
  | error e => simp [ParseSelector, hpi] at h
  | ok p =>
    obtain ⟨name, rest⟩ := p
    obtain ⟨parsed, hparsed, hab, herr, htrail, hok⟩ := ParseSelector_spec s name rest hpi
    have hgood : ∀ args r, parsed = .ret (.ok (args, r)) →
        ∀ n ∈ args, GoodNode ParsedText n := by
      rcases hparsed with ⟨r2, -, rfl⟩ | rfl
      · intro args r hh
        simp only [Run.ret.injEq, Except.ok.injEq, Prod.mk.injEq] at hh
        rw [← hh.1]
        simp
      · exact fun args r hh => parseFunctionsArgs_nodes _ _ args r hh
    rcases hpd : parsed with (e | ⟨args, r⟩) | b
    · rw [herr e hpd] at h; cases h
    · cases r with
      | cons c cs => rw [htrail args c cs hpd] at h; cases h
      | nil =>
        obtain ⟨haa, hae, hao⟩ := hok args hpd
        rcases hasm : assembleArgs args with (e | fa) | b
        · rw [hae e hasm] at h; cases h
        · rw [hao fa hasm] at h
          simp only [Run.ret.injEq, Prod.mk.injEq, and_true] at h
          exact ⟨args, hgood args [] hpd, by rw [hasm, ← h]⟩
        · rw [haa b hasm] at h; cases h
    · rw [hab b hpd] at h; cases h

theorem elementary_tuple : IsElementaryType (lit "tuple") ∧ IsElementaryType (lit "tuple[]") :=
  ⟨⟨116, lit "uple", [], by decide, by decide, by decide, by simp⟩,
    ⟨116, lit "uple", [[]], by decide, by decide, by decide, by simp⟩⟩

theorem elementary_starts_with_letter (t : GoString) (ht : IsElementaryType t) :
    StartsWithLetter t := by
  obtain ⟨a, body, sfx, rfl, ha, -, -⟩ := ht
  exact ⟨a, _, rfl, ha⟩

/-- A produced type without a space that starts with a letter is an elementary
type string. -/
theorem ParseSelector_type_elementary (s : GoString) (m : SelectorMarshaling)
    (h : ParseSelector s = .ret (m, none)) :
    ∀ d, Occurs d m.Inputs → StartsWithLetter d.Typ → (∀ c ∈ d.Typ, c ≠ 32) →
      IsElementaryType d.Typ := by
  obtain ⟨args, hgood, hasm⟩ := ParseSelector_nodes s m h
  refine assembleArgs_deep
    (fun d => StartsWithLetter d.Typ → (∀ c ∈ d.Typ, c ≠ 32) → IsElementaryType d.Typ) args
    (fun n hn => assembleArg_deep _ ParsedText ?_ (fun _ _ _ _ => elementary_tuple.1)
      (fun _ _ _ _ => elementary_tuple.2) n (hgood n hn)) _ hasm
  intro x a hx ha hl hns
  rcases (assembleArg_str_inv x).2 a ha with ⟨-, rfl⟩ | ⟨name, t, hxt, -, rfl⟩
  · obtain ⟨b, r, hb, hb'⟩ := hl
    simp only [ArgumentMarshaling.Typ, lit_marker, List.cons.injEq] at hb
    rw [← hb.1] at hb'
    exact absurd hb' (by decide)
  · rcases hx with rfl | ⟨x0, rest, hx0⟩
    · have : (32 : Nat) ∈ lit "[]" := by rw [hxt]; simp [joinNameType]
      exact absurd this (by decide)
    · exact parseElementaryTypeWithName_shape x0 x rest name t hx0 hxt hns hl

/-- On an input without a space, no produced type contains a space. -/
theorem ParseSelector_no_space (s : GoString) (m : SelectorMarshaling)
    (hs : ∀ c ∈ s, c ≠ 32) (h : ParseSelector s = .ret (m, none)) :
    ∀ d, Occurs d m.Inputs → ∀ c ∈ d.Typ, c ≠ 32 := by
  refine ParseSelector_deep (fun d => ∀ c ∈ d.Typ, c ≠ 32) s ?_
    (fun _ _ => lit_tuple_no_space.1) (fun _ _ => lit_tuple_no_space.2.1) m h
  intro x a hx ha
  rcases hx with rfl | h32 | ⟨k, t, rfl, ht⟩
  · rw [assembleArg_marker] at ha
    simp only [Run.ret.injEq, Except.ok.injEq] at ha
    rw [← ha]
    exact lit_tuple_no_space.2.2
  · exact absurd rfl (hs 32 h32)
  · rw [assembleArg_str _ t (isAlnumToken_nospace _ (synthName_token k))] at ha
    simp only [Run.ret.injEq, Except.ok.injEq] at ha
    rw [← ha]
    intro c hc
    exact hs c (ht c hc)

/-! ## The claims -/

/-- C1: for an identifier `fn` and a non-empty list `ts` of elementary type
strings, `ParseSelector (fn ++ "(" ++ t_0 ++ "," ++ ... ++ ")")` succeeds with
name `fn`, type `"function"` and exactly one input per type, in order, the
`i`-th being `{Name: "name" ++ decimal i, Type: t_i, InternalType: t_i}` with
no components. -/
theorem C1_elementary_arguments (fn : GoString) (ts : List GoString)
    (hfn : isIdentifier fn = true) (hne : ts ≠ [])
    (hts : ∀ t ∈ ts, IsElementaryType t) :
    ∃ inputs : List ArgumentMarshaling,
      ParseSelector (fn ++ lit "(" ++ commaSep ts ++ lit ")")
          = .ret (⟨fn, lit "function", inputs⟩, none)
        ∧ inputs.length = ts.length
        ∧ ∀ (i : Nat) (t : GoString), ts[i]? = some t →
            inputs[i]? = some (ArgumentMarshaling.mk (lit "name" ++ decimal i) t t []) := by
  cases ts with
  | nil => exact absurd rfl hne
  | cons t ts =>
    refine ⟨synthArgsFrom 0 (t :: ts), ParseSelector_elems fn t ts hfn hts,
      synthArgsFrom_length _ 0, ?_⟩
    intro i u hu
    have := synthArgsFrom_getElem? (t :: ts) 0 i u hu
    simpa [elementaryArg, synthName] using this

theorem C1_elementary_arguments_witness :
    (isIdentifier (lit "f") = true ∧ [lit "uint256", lit "address"] ≠ []
      ∧ ∀ t ∈ [lit "uint256", lit "address"], IsElementaryType t)
    ∧ (∃ inputs : List ArgumentMarshaling,
      ParseSelector (lit "f" ++ lit "(" ++ commaSep [lit "uint256", lit "address"] ++ lit ")")
          = .ret (⟨lit "f", lit "function", inputs⟩, none)
        ∧ inputs.length = [lit "uint256", lit "address"].length
        ∧ ∀ (i : Nat) (t : GoString), [lit "uint256", lit "address"][i]? = some t →
            inputs[i]? = some (ArgumentMarshaling.mk (lit "name" ++ decimal i) t t []))
    ∧ ParseSelector (lit "f(uint256,address)")
        = .ret (⟨lit "f", lit "function",
            [.mk (lit "name0") (lit "uint256") (lit "uint256") [],
             .mk (lit "name1") (lit "address") (lit "address") []]⟩, none)
    ∧ ParseSelector (lit "f(uint256[3][])")
        = .ret (⟨lit "f", lit "function",
            [.mk (lit "name0") (lit "uint256[3][]") (lit "uint256[3][]") []]⟩, none) :=
  have h : ∀ t ∈ [lit "uint256", lit "address"], IsElementaryType t := by
    intro t ht
    simp only [List.mem_cons, List.mem_singleton, List.not_mem_nil, or_false] at ht
    rcases ht with rfl | rfl
    · exact elementary_uint256
    · exact elementary_address
  ⟨⟨by decide, by simp, h⟩,
    C1_elementary_arguments (lit "f") [lit "uint256", lit "address"] (by decide) (by simp) h,
    rfl, rfl⟩

/-- C2: for a non-empty list `ms` of elementary type strings,
`ParseSelector ("f((" ++ m_0 ++ "," ++ ... ++ "))")` succeeds with exactly one
input, named `"name0"`, of type and internal type `"tuple"`, whose components
are one descriptor per member, in order, the `j`-th being
`{Name: "name" ++ decimal j, Type: m_j, InternalType: m_j}` with no
components. -/
theorem C2_tuple_argument (ms : List GoString) (hne : ms ≠ [])
    (hms : ∀ m ∈ ms, IsElementaryType m) :
    ∃ components : List ArgumentMarshaling,
      ParseSelector (lit "f((" ++ commaSep ms ++ lit "))")
          = .ret (⟨lit "f", lit "function",
              [.mk (lit "name0") (lit "tuple") (lit "tuple") components]⟩, none)
        ∧ components.length = ms.length
        ∧ ∀ (j : Nat) (m : GoString), ms[j]? = some m →
            components[j]? = some (ArgumentMarshaling.mk (lit "name" ++ decimal j) m m []) := by
  cases ms with
  | nil => exact absurd rfl hne
  | cons m ms =>
    refine ⟨synthArgsFrom 0 (m :: ms), ?_, synthArgs_spec _⟩
    have h := ParseSelector_tuple (lit "f") [] m ms (by decide) (by simp) hms
    have e : lit "f" ++ lit "(" ++ commaSep ([] ++ [40 :: (commaSep (m :: ms) ++ [41])])
        ++ lit ")" = lit "f((" ++ commaSep (m :: ms) ++ lit "))" := by
      simp [commaSep, List.intercalate, lit_f, lit_open, lit_close, lit_f_tuple, lit_close2]
    rw [e] at h
    rw [h]
    simp [synthArgsFrom, tupleArg, synthName_zero]


theorem C2_tuple_argument_witness :
    ([lit "uint256", lit "address"] ≠ []
      ∧ ∀ m ∈ [lit "uint256", lit "address"], IsElementaryType m)
    ∧ (∃ components : List ArgumentMarshaling,
      ParseSelector (lit "f((" ++ commaSep [lit "uint256", lit "address"] ++ lit "))")
          = .ret (⟨lit "f", lit "function",
              [.mk (lit "name0") (lit "tuple") (lit "tuple") components]⟩, none)
        ∧ components.length = [lit "uint256", lit "address"].length
        ∧ ∀ (j : Nat) (m : GoString), [lit "uint256", lit "address"][j]? = some m →
            components[j]? = some (ArgumentMarshaling.mk (lit "name" ++ decimal j) m m []))
    ∧ ParseSelector (lit "f((uint256,address))")
        = .ret (⟨lit "f", lit "function",
            [.mk (lit "name0") (lit "tuple") (lit "tuple")
              [.mk (lit "name0") (lit "uint256") (lit "uint256") [],
               .mk (lit "name1") (lit "address") (lit "address") []]]⟩, none) :=
  ⟨⟨by simp, elementary_uint256_address⟩,
    C2_tuple_argument [lit "uint256", lit "address"] (by simp) elementary_uint256_address,
    rfl⟩

/-- C3: for a non-empty list `ms` of elementary type strings,
`ParseSelector ("f((" ++ m_0 ++ "," ++ ... ++ ")[])")` succeeds with exactly one
input, of type and internal type `"tuple[]"`, whose components are the
components obtained for the same signature without the trailing `"[]"`: one
per member, none of them of type `"[]"`. -/
theorem C3_tuple_array_argument (ms : List GoString) (hne : ms ≠ [])
    (hms : ∀ m ∈ ms, IsElementaryType m) :
    ∃ components : List ArgumentMarshaling,
      ParseSelector (lit "f((" ++ commaSep ms ++ lit ")[])")
          = .ret (⟨lit "f", lit "function",
              [.mk (lit "name0") (lit "tuple[]") (lit "tuple[]") components]⟩, none)
        ∧ ParseSelector (lit "f((" ++ commaSep ms ++ lit "))")
          = .ret (⟨lit "f", lit "function",
              [.mk (lit "name0") (lit "tuple") (lit "tuple") components]⟩, none)
        ∧ components.length = ms.length
        ∧ ∀ d ∈ components, d.Typ ≠ lit "[]" := by
  cases ms with
  | nil => exact absurd rfl hne
  | cons m ms =>
    refine ⟨synthArgsFrom 0 (m :: ms), ?_, ?_, synthArgsFrom_length _ 0, ?_⟩
    · have h := ParseSelector_tupleArray (lit "f") [] m ms (by decide) (by simp) hms
      have e : lit "f" ++ lit "("
          ++ commaSep ([] ++ [40 :: (commaSep (m :: ms) ++ [41, 91, 93])]) ++ lit ")"
          = lit "f((" ++ commaSep (m :: ms) ++ lit ")[])" := by
        simp [commaSep, List.intercalate, lit_f, lit_open, lit_close, lit_f_tuple,
          lit_close_array]
      rw [e] at h
      rw [h]
      simp [synthArgsFrom, tupleArrayArg, synthName_zero]
    · have h := ParseSelector_tuple (lit "f") [] m ms (by decide) (by simp) hms
      have e : lit "f" ++ lit "(" ++ commaSep ([] ++ [40 :: (commaSep (m :: ms) ++ [41])])
          ++ lit ")" = lit "f((" ++ commaSep (m :: ms) ++ lit "))" := by
        simp [commaSep, List.intercalate, lit_f, lit_open, lit_close, lit_f_tuple, lit_close2]
      rw [e] at h
      rw [h]
      simp [synthArgsFrom, tupleArg, synthName_zero]
    · intro d hd
      obtain ⟨n, t, rfl, ht⟩ := synthArgsFrom_mem _ 0 d hd
      exact elementary_ne_marker t (hms t ht)

theorem C3_tuple_array_argument_witness :
    ([lit "uint256", lit "address"] ≠ []
      ∧ ∀ m ∈ [lit "uint256", lit "address"], IsElementaryType m)
    ∧ (∃ components : List ArgumentMarshaling,
      ParseSelector (lit "f((" ++ commaSep [lit "uint256", lit "address"] ++ lit ")[])")
          = .ret (⟨lit "f", lit "function",
              [.mk (lit "name0") (lit "tuple[]") (lit "tuple[]") components]⟩, none)
        ∧ ParseSelector (lit "f((" ++ commaSep [lit "uint256", lit "address"] ++ lit "))")
          = .ret (⟨lit "f", lit "function",
              [.mk (lit "name0") (lit "tuple") (lit "tuple") components]⟩, none)
        ∧ components.length = [lit "uint256", lit "address"].length
        ∧ ∀ d ∈ components, d.Typ ≠ lit "[]")
    ∧ ParseSelector (lit "f((uint256,address)[])")
        = .ret (⟨lit "f", lit "function",
            [.mk (lit "name0") (lit "tuple[]") (lit "tuple[]")
              [.mk (lit "name0") (lit "uint256") (lit "uint256") [],
               .mk (lit "name1") (lit "address") (lit "address") []]]⟩, none) :=
  ⟨⟨by simp, elementary_uint256_address⟩,
    C3_tuple_array_argument [lit "uint256", lit "address"] (by simp)
      elementary_uint256_address,
    rfl⟩

/-- C4: for an identifier `fn`, `ParseSelector (fn ++ "()")` succeeds and
returns exactly `{Name: fn, Type: "function", Inputs: empty}`. -/
theorem C4_empty_argument_list (fn : GoString) (hfn : isIdentifier fn = true) :
    ParseSelector (fn ++ lit "()") = .ret (⟨fn, lit "function", []⟩, none) := by
  have hpi := parseIdentifier_name fn [40, 41] hfn
    (by intro d hd; simp at hd; subst hd; decide)
  simp only [ParseSelector, lit_empty_args, hpi, assembleArgs]

theorem C4_empty_argument_list_witness :
    isIdentifier (lit "f") = true
      ∧ ParseSelector (lit "f" ++ lit "()") = .ret (⟨lit "f", lit "function", []⟩, none) :=
  ⟨by decide, C4_empty_argument_list (lit "f") (by decide)⟩

/-- C5, counterexample: on `"f(uint256 a,address b)"` the two inputs are named
`"uint256"` and `"address"` and have the types `"a"` and `"b"`; they are not
named `"a"` and `"b"`. -/
theorem C5_counterexample :
    ParseSelector (lit "f(uint256 a,address b)")
        = .ret (⟨lit "f", lit "function",
            [.mk (lit "uint256") (lit "a") (lit "a") [],
             .mk (lit "address") (lit "b") (lit "b") []]⟩, none)
      ∧ ¬ ∃ m : SelectorMarshaling,
          ParseSelector (lit "f(uint256 a,address b)") = .ret (m, none)
            ∧ m.Inputs.map ArgumentMarshaling.Name = [lit "a", lit "b"]
            ∧ m.Inputs.map ArgumentMarshaling.Typ = [lit "uint256", lit "address"] := by
  have h : ParseSelector (lit "f(uint256 a,address b)")
        = .ret (⟨lit "f", lit "function",
            [.mk (lit "uint256") (lit "a") (lit "a") [],
             .mk (lit "address") (lit "b") (lit "b") []]⟩, none) := rfl
  refine ⟨h, ?_⟩
  rintro ⟨m, hm, hn, -⟩
  rw [h] at hm
  cases hm
  exact absurd hn (by decide)

/-- C5, amended: in an argument written as two tokens separated by a space the
first token is the name and the second the type. For a non-empty list of pairs
`(t_i, n_i)` of letters/digits tokens that start with a letter,
`ParseSelector ("f(" ++ t_0 ++ " " ++ n_0 ++ "," ++ ... ++ ")")` succeeds with
one input per pair, in order, the `i`-th being
`{Name: t_i, Type: n_i, InternalType: n_i}` with no components. -/
theorem C5_name_precedes_type (ps : List (GoString × GoString)) (hne : ps ≠ [])
    (hps : ∀ p ∈ ps, isAlnumToken p.1 = true ∧ isAlnumToken p.2 = true) :
    ParseSelector (lit "f(" ++ commaSep (ps.map (fun p => p.1 ++ lit " " ++ p.2)) ++ lit ")")
      = .ret (⟨lit "f", lit "function",
          ps.map (fun p => ArgumentMarshaling.mk p.1 p.2 p.2 [])⟩, none) := by
  cases ps with
  | nil => exact absurd rfl hne
  | cons p ps =>
    have hp := hps p (List.mem_cons_self _ _)
    have hrest := fun q hq => hps q (List.mem_cons_of_mem _ hq)
    obtain ⟨n0, ns, hn, h0, -⟩ := isAlnumToken_iff p.1 hp.1
    have htxt : (fun q : GoString × GoString => q.1 ++ lit " " ++ q.2)
        = fun q => joinNameType q.1 q.2 := by
      funext q; simp [joinNameType, lit_space]
    have e : lit "f(" ++ commaSep ((p :: ps).map (fun p => p.1 ++ lit " " ++ p.2)) ++ lit ")"
        = lit "f" ++ 40 :: (joinNameType p.1 p.2
            ++ (argTail (ps.map (fun p => joinNameType p.1 p.2)) ++ [41])) := by
      rw [htxt, List.map_cons, commaSep_cons]
      simp [lit_f_open, lit_f, lit_close]
    rw [e]
    apply ParseSelector_ok (lit "f") _ (by decide)
      (by rw [hn]; simpa [joinNameType] using isAlpha_ne_close n0 h0)
      ((p :: ps).map (fun p => Node.str (joinNameType p.1 p.2)))
    · obtain ⟨f, hf⟩ : ∃ f, 2 * (lit "f" ++ 40 :: (joinNameType p.1 p.2
          ++ (argTail (ps.map (fun q : GoString × GoString => joinNameType q.1 q.2))
            ++ [41]))).length + 1
          = f + 1 + ps.length := by
        have := argTail_length (ps.map (fun q : GoString × GoString => joinNameType q.1 q.2))
        simp only [List.length_map] at this
        refine ⟨2 * (lit "f" ++ 40 :: (joinNameType p.1 p.2
          ++ (argTail (ps.map (fun q : GoString × GoString => joinNameType q.1 q.2))
            ++ [41]))).length - ps.length, ?_⟩
        simp only [List.length_append, List.length_cons]
        omega
      rw [hf]
      have h1 := parseTypeWithName_named (f + ps.length) 0 p.1 p.2
        (argTail (ps.map (fun p => joinNameType p.1 p.2)) ++ [41]) hp.1
        (isAlnumToken_elementary _ hp.2) (stopsArg_argTail _ _ (stopsArg_close []))
      have h2 := parseArgsLoop_named ps hrest [41] (stopsArg_close []) f
        [Node.str (joinNameType p.1 p.2)] 0
      rw [show f + ps.length + 1 = f + 1 + ps.length by omega] at h1
      rw [parseArgsLoop_close] at h2
      rw [parseFunctionsArgs_ok _ _ _ _ _ _ h1 h2, closeArgs_end]
      simp
    · exact assembleArgs_named (p :: ps) hps

theorem C5_name_precedes_type_witness :
    ([(lit "uint256", lit "a"), (lit "address", lit "b")] ≠ []
      ∧ ∀ p ∈ [(lit "uint256", lit "a"), (lit "address", lit "b")],
          isAlnumToken p.1 = true ∧ isAlnumToken p.2 = true)
    ∧ ParseSelector (lit "f(" ++ commaSep
          ([(lit "uint256", lit "a"), (lit "address", lit "b")].map
            (fun p => p.1 ++ lit " " ++ p.2)) ++ lit ")")
        = .ret (⟨lit "f", lit "function",
            [(lit "uint256", lit "a"), (lit "address", lit "b")].map
              (fun p => ArgumentMarshaling.mk p.1 p.2 p.2 [])⟩, none)
    ∧ lit "f(" ++ commaSep
          ([(lit "uint256", lit "a"), (lit "address", lit "b")].map
            (fun p => p.1 ++ lit " " ++ p.2)) ++ lit ")" = lit "f(uint256 a,address b)" :=
  ⟨⟨by simp, by decide⟩,
    C5_name_precedes_type [(lit "uint256", lit "a"), (lit "address", lit "b")] (by simp)
      (by decide),
    by decide⟩

/-- C6, the code at the failing inputs: `"_a"` is an identifier and `"uint256"`
an elementary type string, yet `"f(_a uint256)"` fails with an
invalid-token-start error for `_`, and `"f(a_b uint256)"` fails in the
assembler with `no name in arg a`; the tuple path takes the same name,
`"f(_a (uint256))"` succeeds with an input named `"_a"`. -/
theorem C6_explicit_name_with_symbol :
    isIdentifier (lit "_a") = true ∧ isIdentifier (lit "a_b") = true
      ∧ IsElementaryType (lit "uint256")
      ∧ ParseSelector (lit "f(_a uint256)")
          = .ret (SelectorMarshaling.zero,
              some (.parseSelector (lit "f(_a uint256)")
                (.parseType (.elementaryType (.invalidTokenStart 95)))))
      ∧ ParseSelector (lit "f(a_b uint256)")
          = .ret (SelectorMarshaling.zero,
              some (.assembleSelector (.noNameInArg (lit "a"))))
      ∧ ParseSelector (lit "f(_a (uint256))")
          = .ret (⟨lit "f", lit "function",
              [.mk (lit "_a") (lit "tuple") (lit "tuple")
                [.mk (lit "name0") (lit "uint256") (lit "uint256") []]]⟩, none) :=
  ⟨by decide, by decide, elementary_uint256, rfl, rfl, rfl⟩

/-- C7: the synthesized-name counter restarts at 0 in every argument list. For
a list `ts` of elementary type strings (possibly empty) and a non-empty list
`ms` of elementary type strings, `ParseSelector` of
`"f(" ++ t_0 ++ "," ++ ... ++ t_{p-1} ++ "," ++ "(" ++ m_0 ++ "," ++ ... ++ ")" ++ ")"`
succeeds with `p + 1` inputs: the `i`-th, for `i < p`, is the elementary
argument `t_i` named `"name" ++ decimal i`, and the last one is named
`"name" ++ decimal p`, has type `"tuple"`, and its components are the members
`m_j` named `"name" ++ decimal j`, counted from 0 whatever `p` is. -/
theorem C7_counter_restarts (ts ms : List GoString) (hts : ∀ t ∈ ts, IsElementaryType t)
    (hne : ms ≠ []) (hms : ∀ m ∈ ms, IsElementaryType m) :
    ∃ inputs components : List ArgumentMarshaling,
      ParseSelector (lit "f(" ++ (ts.map (fun t => t ++ lit ",")).flatten
          ++ lit "(" ++ commaSep ms ++ lit ")" ++ lit ")")
          = .ret (⟨lit "f", lit "function", inputs⟩, none)
        ∧ inputs.length = ts.length + 1
        ∧ (∀ (i : Nat) (t : GoString), ts[i]? = some t →
            inputs[i]? = some (ArgumentMarshaling.mk (lit "name" ++ decimal i) t t []))
        ∧ inputs[ts.length]? = some (ArgumentMarshaling.mk (lit "name" ++ decimal ts.length)
            (lit "tuple") (lit "tuple") components)
        ∧ components.length = ms.length
        ∧ ∀ (j : Nat) (m : GoString), ms[j]? = some m →
            components[j]? = some (ArgumentMarshaling.mk (lit "name" ++ decimal j) m m []) := by
  cases ms with
  | nil => exact absurd rfl hne
  | cons m ms =>
    have h := ParseSelector_tuple (lit "f") ts m ms (by decide) hts hms
    have e : lit "f(" ++ (ts.map (fun t => t ++ lit ",")).flatten
        ++ lit "(" ++ commaSep (m :: ms) ++ lit ")" ++ lit ")"
        = lit "f" ++ lit "(" ++ commaSep (ts ++ [40 :: (commaSep (m :: ms) ++ [41])])
          ++ lit ")" := by
      rw [← commaSep_prefix]
      simp [lit_f, lit_open, lit_close, lit_f_open]
    rw [e, h]
    have hs := synthArgs_spec ts
    refine ⟨_, synthArgsFrom 0 (m :: ms), rfl, by simp [hs.1], ?_, ?_, synthArgs_spec _⟩
    · intro i t hi
      have hlt : i < (synthArgsFrom 0 ts).length := by
        rw [hs.1]; exact (List.getElem?_eq_some_iff.1 hi).1
      rw [List.getElem?_append_left hlt]
      exact hs.2 i t hi
    · rw [← hs.1, List.getElem?_append_right (Nat.le_refl _)]
      simp [tupleArg, synthName, hs.1]

theorem C7_counter_restarts_witness :
    ((∀ t ∈ [lit "uint256", lit "address"], IsElementaryType t)
      ∧ [lit "uint256", lit "address"] ≠ []
      ∧ ∀ m ∈ [lit "uint256", lit "address"], IsElementaryType m)
    ∧ (∃ inputs components : List ArgumentMarshaling,
      ParseSelector (lit "f("
          ++ ([lit "uint256", lit "address"].map (fun t => t ++ lit ",")).flatten
          ++ lit "(" ++ commaSep [lit "uint256", lit "address"] ++ lit ")" ++ lit ")")
          = .ret (⟨lit "f", lit "function", inputs⟩, none)
        ∧ inputs.length = [lit "uint256", lit "address"].length + 1
        ∧ (∀ (i : Nat) (t : GoString), [lit "uint256", lit "address"][i]? = some t →
            inputs[i]? = some (ArgumentMarshaling.mk (lit "name" ++ decimal i) t t []))
        ∧ inputs[[lit "uint256", lit "address"].length]?
            = some (ArgumentMarshaling.mk
                (lit "name" ++ decimal [lit "uint256", lit "address"].length)
                (lit "tuple") (lit "tuple") components)
        ∧ components.length = [lit "uint256", lit "address"].length
        ∧ ∀ (j : Nat) (m : GoString), [lit "uint256", lit "address"][j]? = some m →
            components[j]? = some (ArgumentMarshaling.mk (lit "name" ++ decimal j) m m []))
    ∧ ParseSelector (lit "f(uint256,address,(uint256,address))")
        = .ret (⟨lit "f", lit "function",
            [.mk (lit "name0") (lit "uint256") (lit "uint256") [],
             .mk (lit "name1") (lit "address") (lit "address") [],
             .mk (lit "name2") (lit "tuple") (lit "tuple")
              [.mk (lit "name0") (lit "uint256") (lit "uint256") [],
               .mk (lit "name1") (lit "address") (lit "address") []]]⟩, none) :=
  ⟨⟨elementary_uint256_address, by simp, elementary_uint256_address⟩,
    C7_counter_restarts [lit "uint256", lit "address"] [lit "uint256", lit "address"]
      elementary_uint256_address (by simp) elementary_uint256_address,
    rfl⟩

/-- C8: for an identifier `fn` and a non-empty string `s`,
`ParseSelector (fn ++ "()" ++ s)` fails with the unexpected-trailing-input
error, whose message carries the selector and exactly the unconsumed suffix
`s`, and the returned `SelectorMarshaling` is the zero value. -/
theorem C8_trailing_input (fn s : GoString) (hfn : isIdentifier fn = true) (hs : s ≠ []) :
    ParseSelector (fn ++ lit "()" ++ s)
      = .ret (SelectorMarshaling.zero, some (.unexpectedString (fn ++ lit "()" ++ s) s)) := by
  have hpi := parseIdentifier_name fn (40 :: 41 :: s) hfn
    (by intro d hd; simp at hd; subst hd; decide)
  cases s with
  | nil => exact absurd rfl hs
  | cons c cs =>
    have e : fn ++ lit "()" ++ c :: cs = fn ++ 40 :: 41 :: c :: cs := by
      simp [lit_empty_args]
    rw [e]
    simp only [ParseSelector, hpi]

theorem C8_trailing_input_witness :
    (isIdentifier (lit "f") = true ∧ lit "extra" ≠ [])
      ∧ ParseSelector (lit "f" ++ lit "()" ++ lit "extra")
          = .ret (SelectorMarshaling.zero,
              some (.unexpectedString (lit "f" ++ lit "()" ++ lit "extra") (lit "extra")))
      ∧ ParseSelector (lit "f()extra")
          = .ret (⟨[], [], []⟩, some (.unexpectedString (lit "f()extra") (lit "extra"))) :=
  ⟨⟨by decide, by decide⟩, C8_trailing_input (lit "f") (lit "extra") (by decide) (by decide),
    rfl⟩

/-- C9, counterexample: `"f(uint256,"` fails with the empty-type error of
`parseTypeWithName`, wrapped by the argument-list parser and by the driver; the
error is not the `expected ')'` error. -/
theorem C9_counterexample :
    ParseSelector (lit "f(uint256,")
        = .ret (SelectorMarshaling.zero,
            some (.parseSelector (lit "f(uint256,") (.parseType .emptyType)))
      ∧ ¬ ∃ (m : SelectorMarshaling) (rest : GoString),
          ParseSelector (lit "f(uint256,")
            = .ret (m, some (.parseSelector (lit "f(uint256,") (.expectedCloseParen rest))) := by
  have h : ParseSelector (lit "f(uint256,")
        = .ret (SelectorMarshaling.zero,
            some (.parseSelector (lit "f(uint256,") (.parseType .emptyType))) := rfl
  refine ⟨h, ?_⟩
  rintro ⟨m, rest, hm⟩
  rw [h] at hm
  cases hm

/-- C9, amended: an argument list that ends after a comma fails with the
empty-type error. For a non-empty list `ts` of elementary type strings,
`ParseSelector ("f(" ++ t_0 ++ "," ++ ... ++ t_{n-1} ++ ",")` returns the zero
value and the error `empty type` of `parseTypeWithName`, wrapped with
`failed to parse type` by the argument-list parser and with
`failed to parse selector` by the driver. -/
theorem C9_dangling_comma (ts : List GoString) (hne : ts ≠ [])
    (hts : ∀ t ∈ ts, IsElementaryType t) :
    ParseSelector (lit "f(" ++ commaSep ts ++ lit ",")
      = .ret (SelectorMarshaling.zero,
          some (.parseSelector (lit "f(" ++ commaSep ts ++ lit ",")
            (.parseType .emptyType))) := by
  cases ts with
  | nil => exact absurd rfl hne
  | cons t ts =>
    obtain ⟨a, r, hta, ha⟩ := elementary_head t (hts t (List.mem_cons_self _ _))
    have hrest := fun u hu => hts u (List.mem_cons_of_mem _ hu)
    have e : lit "f(" ++ commaSep (t :: ts) ++ lit ","
        = lit "f" ++ 40 :: (t ++ (argTail ts ++ [44])) := by
      simp [lit_f_open, lit_f, lit_comma, commaSep_cons]
    rw [e]
    apply ParseSelector_error (lit "f") _ (by decide)
      (by rw [hta]; simpa using isAlpha_ne_close a ha)
    obtain ⟨f, hf⟩ : ∃ f, 2 * (lit "f" ++ 40 :: (t ++ (argTail ts ++ [44]))).length + 1
        = f + 2 + ts.length := by
      have := argTail_length ts
      refine ⟨2 * (lit "f" ++ 40 :: (t ++ (argTail ts ++ [44]))).length - 1 - ts.length, ?_⟩
      simp only [List.length_append, List.length_cons, List.length_nil]
      omega
    rw [hf]
    have h1 := parseTypeWithName_elem (f + 1 + ts.length) 0 t (argTail ts ++ [44])
      (hts t (List.mem_cons_self _ _)) (stopsArg_argTail ts _ (stopsArg_comma []))
    have h2 := parseArgsLoop_elems ts hrest [44] (stopsArg_comma []) (f + 1)
      [Node.str (joinNameType (synthName 0) t)] 0
    rw [show f + 1 + ts.length + 1 = f + 2 + ts.length by omega] at h1
    rw [show f + 1 + 1 + ts.length = f + 2 + ts.length by omega,
      parseArgsLoop_dangling] at h2
    exact parseFunctionsArgs_error_loop _ _ _ _ _ h1 h2

theorem C9_dangling_comma_witness :
    ([lit "uint256"] ≠ [] ∧ ∀ t ∈ [lit "uint256"], IsElementaryType t)
      ∧ ParseSelector (lit "f(" ++ commaSep [lit "uint256"] ++ lit ",")
          = .ret (SelectorMarshaling.zero,
              some (.parseSelector (lit "f(" ++ commaSep [lit "uint256"] ++ lit ",")
                (.parseType .emptyType)))
      ∧ lit "f(" ++ commaSep [lit "uint256"] ++ lit "," = lit "f(uint256," :=
  have h : ∀ t ∈ [lit "uint256"], IsElementaryType t := by
    intro t ht
    simp only [List.mem_singleton] at ht
    subst ht
    exact elementary_uint256
  ⟨⟨by simp, h⟩, C9_dangling_comma [lit "uint256"] (by simp) h, by decide⟩

/-- C10, counterexample: the first byte of `"_()"` is not an ASCII letter, and
`ParseSelector` succeeds on it, with the function name `"_"`. -/
theorem C10_counterexample :
    lit "_()" ≠ [] ∧ (∀ c, (lit "_()").head? = some c → isAlpha c = false)
      ∧ ParseSelector (lit "_()") = .ret (⟨lit "_", lit "function", []⟩, none) :=
  ⟨by decide, by intro c hc; cases hc; decide, rfl⟩

/-- C10, amended: for every non-empty input whose first byte is neither an
ASCII letter nor `$` nor `_`, `ParseSelector` fails with the scanner's
invalid-token-start error for that byte (wrapped by the driver), and returns
the zero value. -/
theorem C10_invalid_token_start (c : Nat) (cs : GoString)
    (hc : isAlpha c = false) (hsym : c ≠ 36 ∧ c ≠ 95) :
    ParseSelector (c :: cs)
      = .ret (SelectorMarshaling.zero,
          some (.parseSelector (c :: cs) (.invalidTokenStart c))) := by
  simp [ParseSelector, parseIdentifier, parseToken, hc, isIdentifierSymbol, hsym.1, hsym.2]

theorem C10_invalid_token_start_witness :
    (isAlpha 49 = false ∧ (49 ≠ 36 ∧ 49 ≠ 95))
      ∧ lit "123f()" = 49 :: lit "23f()"
      ∧ ParseSelector (49 :: lit "23f()")
          = .ret (SelectorMarshaling.zero,
              some (.parseSelector (49 :: lit "23f()") (.invalidTokenStart 49))) :=
  ⟨⟨by decide, by decide⟩, by decide,
    C10_invalid_token_start 49 (lit "23f()") (by decide) (by decide)⟩

/-- C11, the code at the failing input: `"f((uint256,address)[3])"` succeeds,
with the tuple as a plain `tuple` and two further inputs made from the text
`[3]`: one of type `"3"` and one of empty type. The unnamed sibling parser
`parseCompositeType` rejects the same argument list, at the digit `3`, with
`invalid token start`. -/
theorem C11_sized_tuple_array_accepted :
    ParseSelector (lit "f((uint256,address)[3])")
        = .ret (⟨lit "f", lit "function",
            [.mk (lit "name0") (lit "tuple") (lit "tuple")
              [.mk (lit "name0") (lit "uint256") (lit "uint256") [],
               .mk (lit "name1") (lit "address") (lit "address") []],
             .mk (lit "name1") (lit "3") (lit "3") [],
             .mk (lit "name2") [] [] []]⟩, none)
      ∧ (∀ m ∈ [lit "uint256", lit "address"], IsElementaryType m)
      ∧ lit "f((" ++ commaSep [lit "uint256", lit "address"] ++ lit ")[" ++ lit "3" ++ lit "])"
          = lit "f((uint256,address)[3])"
      ∧ parseCompositeType (2 * (lit "((uint256,address)[3])").length + 1)
            (lit "((uint256,address)[3])")
          = .ret (.error (.parseType (.elementaryType (.invalidTokenStart 51)))) :=
  ⟨rfl, elementary_uint256_address, by decide, rfl⟩

/-- C12, the code at the failing input: `"f(a)[]"` succeeds and its second
input is the marker descriptor, with the empty name and the type `"[]"`. Inside
a tuple the marker is consumed: `"f((a)[])"` has one input, of type
`"tuple[]"`, with the single component `a`. -/
theorem C12_marker_leaks_at_top_level :
    ParseSelector (lit "f(a)[]")
        = .ret (⟨lit "f", lit "function",
            [.mk (lit "name0") (lit "a") (lit "a") [],
             .mk [] (lit "[]") (lit "[]") []]⟩, none)
      ∧ Occurs (.mk [] (lit "[]") (lit "[]") [])
          [.mk (lit "name0") (lit "a") (lit "a") [], .mk [] (lit "[]") (lit "[]") []]
      ∧ (ArgumentMarshaling.mk [] (lit "[]") (lit "[]") []).Name = []
      ∧ ParseSelector (lit "f((a)[])")
        = .ret (⟨lit "f", lit "function",
            [.mk (lit "name0") (lit "tuple[]") (lit "tuple[]")
              [.mk (lit "name0") (lit "a") (lit "a") []]]⟩, none) :=
  ⟨rfl, Occurs.here (by simp), rfl, rfl⟩

/-- C13, counterexample: `"f(tuple)"` parses to one input of type `"tuple"`
that has no components. -/
theorem C13_counterexample :
    ParseSelector (lit "f(tuple)")
        = .ret (⟨lit "f", lit "function",
            [.mk (lit "name0") (lit "tuple") (lit "tuple") []]⟩, none)
      ∧ Occurs (.mk (lit "name0") (lit "tuple") (lit "tuple") [])
          [.mk (lit "name0") (lit "tuple") (lit "tuple") []]
      ∧ (ArgumentMarshaling.mk (lit "name0") (lit "tuple") (lit "tuple") []).Typ = lit "tuple"
      ∧ (ArgumentMarshaling.mk (lit "name0") (lit "tuple") (lit "tuple") []).Components = [] :=
  ⟨rfl, Occurs.here (List.mem_singleton.2 rfl), rfl, rfl⟩

/-- C13, amended: for every input on which `ParseSelector` succeeds and every
argument descriptor `d` of the result, at every nesting depth, if
`d.Components` is non-empty then `d.Type` is `"tuple"` or `"tuple[]"`. (The
converse fails for an elementary type spelled `tuple` or `tuple[]`.) -/
theorem C13_components_imply_tuple (s : GoString) (m : SelectorMarshaling)
    (h : ParseSelector s = .ret (m, none)) (d : ArgumentMarshaling)
    (hd : Occurs d m.Inputs) (hc : d.Components ≠ []) :
    d.Typ = lit "tuple" ∨ d.Typ = lit "tuple[]" :=
  ParseSelector_deep
    (fun d => d.Components ≠ [] → d.Typ = lit "tuple" ∨ d.Typ = lit "tuple[]") s
    (fun x a _ ha hne => absurd (assembleArg_str_components x a ha) hne)
    (fun _ _ _ => Or.inl rfl) (fun _ _ _ => Or.inr rfl) m h d hd hc

theorem C13_components_imply_tuple_witness :
    (ParseSelector (lit "f((uint256,address))")
        = .ret (⟨lit "f", lit "function",
            [.mk (lit "name0") (lit "tuple") (lit "tuple")
              [.mk (lit "name0") (lit "uint256") (lit "uint256") [],
               .mk (lit "name1") (lit "address") (lit "address") []]]⟩, none)
      ∧ Occurs (.mk (lit "name0") (lit "tuple") (lit "tuple")
              [.mk (lit "name0") (lit "uint256") (lit "uint256") [],
               .mk (lit "name1") (lit "address") (lit "address") []])
          [.mk (lit "name0") (lit "tuple") (lit "tuple")
              [.mk (lit "name0") (lit "uint256") (lit "uint256") [],
               .mk (lit "name1") (lit "address") (lit "address") []]]
      ∧ (ArgumentMarshaling.mk (lit "name0") (lit "tuple") (lit "tuple")
              [.mk (lit "name0") (lit "uint256") (lit "uint256") [],
               .mk (lit "name1") (lit "address") (lit "address") []]).Components ≠ [])
    ∧ ((ArgumentMarshaling.mk (lit "name0") (lit "tuple") (lit "tuple")
              [.mk (lit "name0") (lit "uint256") (lit "uint256") [],
               .mk (lit "name1") (lit "address") (lit "address") []]).Typ = lit "tuple"
        ∨ (ArgumentMarshaling.mk (lit "name0") (lit "tuple") (lit "tuple")
              [.mk (lit "name0") (lit "uint256") (lit "uint256") [],
               .mk (lit "name1") (lit "address") (lit "address") []]).Typ = lit "tuple[]") :=
  ⟨⟨rfl, Occurs.here (List.mem_singleton.2 rfl), by simp [ArgumentMarshaling.Components]⟩,
    C13_components_imply_tuple (lit "f((uint256,address))") _ rfl _
      (Occurs.here (List.mem_singleton.2 rfl)) (by simp [ArgumentMarshaling.Components])⟩

/-- C14, counterexample: `"f(a b c)"` parses to one input named `"a"` whose
type is `"b c"`, which contains a space. -/
theorem C14_counterexample :
    ParseSelector (lit "f(a b c)")
        = .ret (⟨lit "f", lit "function", [.mk (lit "a") (lit "b c") (lit "b c") []]⟩, none)
      ∧ Occurs (.mk (lit "a") (lit "b c") (lit "b c") [])
          [.mk (lit "a") (lit "b c") (lit "b c") []]
      ∧ 32 ∈ (ArgumentMarshaling.mk (lit "a") (lit "b c") (lit "b c") []).Typ :=
  ⟨rfl, Occurs.here (List.mem_singleton.2 rfl), by decide⟩

/-- C14, amended: for every input string that contains no space and on which
`ParseSelector` succeeds, the `Type` of every argument descriptor of the
result, at every nesting depth, contains no space. (With spaces in the input,
the type-mode scanner lets a second space into the type.) -/
theorem C14_type_without_space (s : GoString) (m : SelectorMarshaling)
    (hs : ∀ c ∈ s, c ≠ 32) (h : ParseSelector s = .ret (m, none))
    (d : ArgumentMarshaling) (hd : Occurs d m.Inputs) : ∀ c ∈ d.Typ, c ≠ 32 := by
  refine ParseSelector_deep (fun d => ∀ c ∈ d.Typ, c ≠ 32) s ?_
    (fun _ _ => lit_tuple_no_space.1) (fun _ _ => lit_tuple_no_space.2.1) m h d hd
  intro x a hx ha
  rcases hx with rfl | h32 | ⟨k, t, rfl, ht⟩
  · rw [assembleArg_marker] at ha
    simp only [Run.ret.injEq, Except.ok.injEq] at ha
    rw [← ha]
    exact lit_tuple_no_space.2.2
  · exact absurd rfl (hs 32 h32)
  · rw [assembleArg_str _ t (isAlnumToken_nospace _ (synthName_token k))] at ha
    simp only [Run.ret.injEq, Except.ok.injEq] at ha
    rw [← ha]
    intro c hc
    exact hs c (ht c hc)

theorem C14_type_without_space_witness :
    ((∀ c ∈ lit "f(uint256[3][])", c ≠ 32)
      ∧ ParseSelector (lit "f(uint256[3][])")
          = .ret (⟨lit "f", lit "function",
              [.mk (lit "name0") (lit "uint256[3][]") (lit "uint256[3][]") []]⟩, none)
      ∧ Occurs (.mk (lit "name0") (lit "uint256[3][]") (lit "uint256[3][]") [])
          [.mk (lit "name0") (lit "uint256[3][]") (lit "uint256[3][]") []])
    ∧ ∀ c ∈ (ArgumentMarshaling.mk (lit "name0") (lit "uint256[3][]")
          (lit "uint256[3][]") []).Typ, c ≠ 32 :=
  ⟨⟨by decide, rfl, Occurs.here (List.mem_singleton.2 rfl)⟩,
    C14_type_without_space (lit "f(uint256[3][])") _ (by decide) rfl _
      (Occurs.here (List.mem_singleton.2 rfl))⟩

/-- C15, the code at the failing input: on `"f(a_b uint256)"` the parse phase
succeeds (the name is `f`, `parseFunctionsArgs` returns two string nodes and an
empty remainder), `assembleArgs` fails on the produced nodes with
`no name in arg a`, and `ParseSelector` returns that error. -/
theorem C15_assembly_error_reached :
    parseIdentifier (lit "f(a_b uint256)") = .ok (lit "f", lit "(a_b uint256)")
      ∧ parseFunctionsArgs (2 * (lit "f(a_b uint256)").length + 1) (lit "(a_b uint256)")
          = .ret (.ok ([Node.str (lit "a"), Node.str (lit "b uint256")], []))
      ∧ assembleArgs [Node.str (lit "a"), Node.str (lit "b uint256")]
          = .ret (.error (.noNameInArg (lit "a")))
      ∧ ParseSelector (lit "f(a_b uint256)")
          = .ret (SelectorMarshaling.zero, some (.assembleSelector (.noNameInArg (lit "a")))) :=
  ⟨rfl, rfl, rfl, rfl⟩

/-- C16, counterexample: `"f(a b c)"` parses to an input of type `"b c"`, and
`parseElementaryType "b c"` returns `("c", "")`: the text before the space is
dropped and the type string is not reproduced. -/
theorem C16_counterexample :
    ParseSelector (lit "f(a b c)")
        = .ret (⟨lit "f", lit "function", [.mk (lit "a") (lit "b c") (lit "b c") []]⟩, none)
      ∧ Occurs (.mk (lit "a") (lit "b c") (lit "b c") [])
          [.mk (lit "a") (lit "b c") (lit "b c") []]
      ∧ parseElementaryType (ArgumentMarshaling.mk (lit "a") (lit "b c") (lit "b c") []).Typ
          = .ret (.ok (lit "c", []))
      ∧ lit "c" ≠ (ArgumentMarshaling.mk (lit "a") (lit "b c") (lit "b c") []).Typ :=
  ⟨rfl, Occurs.here (List.mem_singleton.2 rfl), rfl, by decide⟩

/-- C16, amended: for every input on which `ParseSelector` succeeds and every
argument descriptor `d` of the result, at every nesting depth,
`parseElementaryType d.Type` succeeds and returns `(d.Type, "")` exactly when
`d.Type` starts with a letter and contains no space. In particular, when the
input contains no space, every produced type that starts with a letter
re-parses to itself. (The produced types left out are those with a space, as in
`"f(a b c)"`, the empty type, a type that starts with a digit, as in `"f(3)"`,
and the leaked marker `"[]"`.) -/
theorem C16_elementary_type_reparses (s : GoString) (m : SelectorMarshaling)
    (h : ParseSelector s = .ret (m, none)) (d : ArgumentMarshaling)
    (hd : Occurs d m.Inputs) :
    (parseElementaryType d.Typ = .ret (.ok (d.Typ, []))
        ↔ StartsWithLetter d.Typ ∧ ∀ c ∈ d.Typ, c ≠ 32)
      ∧ ((∀ c ∈ s, c ≠ 32) → StartsWithLetter d.Typ →
          parseElementaryType d.Typ = .ret (.ok (d.Typ, []))) := by
  have key : StartsWithLetter d.Typ → (∀ c ∈ d.Typ, c ≠ 32) →
      parseElementaryType d.Typ = .ret (.ok (d.Typ, [])) := fun hl hns =>
    parseElementaryType_elementary d.Typ (ParseSelector_type_elementary s m h d hd hl hns)
  refine ⟨⟨?_, fun hc => key hc.1 hc.2⟩, fun hs hl => key hl (ParseSelector_no_space s m hs h d hd)⟩
  intro hp
  have ht := parseElementaryType_inv d.Typ hp
  exact ⟨elementary_starts_with_letter _ ht, elementary_no_space _ ht⟩

theorem C16_elementary_type_reparses_witness :
    (ParseSelector (lit "f(uint256[3][])")
          = .ret (⟨lit "f", lit "function",
              [.mk (lit "name0") (lit "uint256[3][]") (lit "uint256[3][]") []]⟩, none)
      ∧ Occurs (.mk (lit "name0") (lit "uint256[3][]") (lit "uint256[3][]") [])
          [.mk (lit "name0") (lit "uint256[3][]") (lit "uint256[3][]") []])
    ∧ (parseElementaryType (ArgumentMarshaling.mk (lit "name0") (lit "uint256[3][]")
            (lit "uint256[3][]") []).Typ
          = .ret (.ok ((ArgumentMarshaling.mk (lit "name0") (lit "uint256[3][]")
            (lit "uint256[3][]") []).Typ, []))
        ↔ StartsWithLetter (ArgumentMarshaling.mk (lit "name0") (lit "uint256[3][]")
            (lit "uint256[3][]") []).Typ
          ∧ ∀ c ∈ (ArgumentMarshaling.mk (lit "name0") (lit "uint256[3][]")
            (lit "uint256[3][]") []).Typ, c ≠ 32)
      ∧ ((∀ c ∈ lit "f(uint256[3][])", c ≠ 32) →
          StartsWithLetter (ArgumentMarshaling.mk (lit "name0") (lit "uint256[3][]")
            (lit "uint256[3][]") []).Typ →
          parseElementaryType (ArgumentMarshaling.mk (lit "name0") (lit "uint256[3][]")
            (lit "uint256[3][]") []).Typ
          = .ret (.ok ((ArgumentMarshaling.mk (lit "name0") (lit "uint256[3][]")
            (lit "uint256[3][]") []).Typ, []))) :=
  ⟨⟨rfl, Occurs.here (List.mem_singleton.2 rfl)⟩,
    C16_elementary_type_reparses (lit "f(uint256[3][])") _ rfl _
      (Occurs.here (List.mem_singleton.2 rfl))⟩

/-- C17: `parseToken s isIdent` is the longest-valid-prefix scanner. It fails
with `empty token` exactly when `s` is empty; it fails with
`invalid token start`, quoting the first byte, exactly when `s` is non-empty
and its first byte is neither a letter nor, in identifier mode, `$` or `_`;
otherwise it succeeds with `(tok, rest)` where `tok ++ rest = s`, `tok` is
non-empty, every byte of `tok` after the first is in the continuation class
(letter, digit, `$`/`_` in identifier mode, space in type mode), and `rest` is
empty or starts with a byte outside that class. -/
theorem C17_parseToken_longest_prefix (s : GoString) (isIdent : Bool) :
    (parseToken s isIdent = .error .emptyToken ↔ s = [])
      ∧ (∀ c, parseToken s isIdent = .error (.invalidTokenStart c)
            ↔ ∃ cs, s = c :: cs ∧ ¬ startsToken isIdent c)
      ∧ ∀ c cs, s = c :: cs ∧ startsToken isIdent c →
          ∃ tok rest, parseToken s isIdent = .ok (tok, rest) ∧ tok ++ rest = s ∧ tok ≠ []
            ∧ (∀ x ∈ tok.tail, continuesToken isIdent x)
            ∧ (rest = [] ∨ ∃ x r, rest = x :: r ∧ ¬ continuesToken isIdent x) := by
  cases s with
  | nil => simp [parseToken]
  | cons a as =>
    have hsp := scanToken_spec isIdent as
    by_cases ha : (isAlpha a || (isIdent && isIdentifierSymbol a)) = true
    · have ha' := (startsToken_iff isIdent a).1 ha
      refine ⟨by simp [parseToken, ha], ?_, ?_⟩
      · intro c
        simp only [parseToken, ha, Bool.not_true, Bool.false_eq_true, if_false]
        constructor
        · intro h; cases h
        · rintro ⟨cs, h, hc⟩
          simp only [List.cons.injEq] at h
          rw [← h.1] at hc
          exact absurd ha' hc
      · rintro c cs ⟨h, -⟩
        refine ⟨a :: (scanToken isIdent as).1, (scanToken isIdent as).2, by simp [parseToken, ha],
          by simp [hsp.1], by simp, ?_, ?_⟩
        · intro x hx
          exact (isTokenChar_iff _ _).1 (hsp.2.1 x hx)
        · cases hr : (scanToken isIdent as).2 with
          | nil => exact Or.inl rfl
          | cons x r =>
            refine Or.inr ⟨x, r, rfl, ?_⟩
            intro hx
            have := hsp.2.2 x (by simp [hr])
            rw [(isTokenChar_iff _ _).2 hx] at this
            exact absurd this (by simp)
    · have ha' : ¬ startsToken isIdent a := fun h => ha ((startsToken_iff isIdent a).2 h)
      refine ⟨by simp [parseToken, ha], ?_, ?_⟩
      · intro c
        simp only [parseToken, ha, Bool.not_eq_true] at *
        constructor
        · intro h
          simp only [Bool.not_false, if_true, Except.error.injEq, Err.invalidTokenStart.injEq] at h
          subst h
          exact ⟨as, rfl, ha'⟩
        · rintro ⟨cs, h, -⟩
          simp only [List.cons.injEq] at h
          simp [h.1]
      · rintro c cs ⟨h, hc⟩
        simp only [List.cons.injEq] at h
        rw [← h.1] at hc
        exact absurd hc ha'

/-- C18: the argument separator is not checked. For a byte `c` that is not a
letter, a digit, a space, `[` or `)`, and a non-empty list `ts` of elementary
type strings, `ParseSelector ("f(" ++ t_0 ++ c ++ t_1 ++ c ++ ... ++ ")")`
succeeds and returns what `ParseSelector` returns for the same list separated
by commas. -/
theorem C18_separator_unchecked (c : Nat) (ts : List GoString)
    (hc : isAlpha c = false ∧ isDigit c = false ∧ c ≠ 32 ∧ c ≠ 91 ∧ c ≠ 41)
    (hne : ts ≠ []) (hts : ∀ t ∈ ts, IsElementaryType t) :
    (∃ m : SelectorMarshaling,
        ParseSelector (lit "f(" ++ List.intercalate [c] ts ++ lit ")") = .ret (m, none))
      ∧ ParseSelector (lit "f(" ++ List.intercalate [c] ts ++ lit ")")
          = ParseSelector (lit "f(" ++ List.intercalate (lit ",") ts ++ lit ")") := by
  cases ts with
  | nil => exact absurd rfl hne
  | cons t ts =>
    have h1 := ParseSelector_sep c hc t ts hts
    have h2 := ParseSelector_sep 44 (by decide) t ts hts
    rw [lit_comma, h1, h2]
    exact ⟨⟨_, rfl⟩, rfl⟩

theorem C18_separator_unchecked_witness :
    ((isAlpha 59 = false ∧ isDigit 59 = false ∧ 59 ≠ 32 ∧ 59 ≠ 91 ∧ 59 ≠ 41)
      ∧ [lit "uint256", lit "address"] ≠ []
      ∧ ∀ t ∈ [lit "uint256", lit "address"], IsElementaryType t)
    ∧ ((∃ m : SelectorMarshaling,
        ParseSelector (lit "f(" ++ List.intercalate [59] [lit "uint256", lit "address"]
          ++ lit ")") = .ret (m, none))
      ∧ ParseSelector (lit "f(" ++ List.intercalate [59] [lit "uint256", lit "address"]
          ++ lit ")")
          = ParseSelector (lit "f(" ++ List.intercalate (lit ",")
              [lit "uint256", lit "address"] ++ lit ")"))
    ∧ lit "f(" ++ List.intercalate [59] [lit "uint256", lit "address"] ++ lit ")"
        = lit "f(uint256;address)"
    ∧ ParseSelector (lit "f(uint256;address)")
        = .ret (⟨lit "f", lit "function",
            [.mk (lit "name0") (lit "uint256") (lit "uint256") [],
             .mk (lit "name1") (lit "address") (lit "address") []]⟩, none) :=
  ⟨⟨by decide, by simp, elementary_uint256_address⟩,
    C18_separator_unchecked 59 [lit "uint256", lit "address"] (by decide) (by simp)
      elementary_uint256_address,
    by decide, rfl⟩

/-- C19, counterexample: `parseTypeWithName` given `",foo"` succeeds and
returns the remainder `",foo"`, its whole argument: the remainder is a suffix
of the text the call was given, but not a proper one. -/
theorem C19_counterexample :
    parseTypeWithName 1 (lit ",foo") 0 = .ret (.ok (Node.str (lit "name0 "), lit ",foo"))
      ∧ ¬ (lit ",foo").length < (lit ",foo").length :=
  ⟨rfl, by decide⟩

/-- C19, amended: `ParseSelector` terminates on every input string: the
recursion budget `2 * len + 1` is never exhausted. The recursion is bounded by
the length of the text still to read: `parseTypeWithName` on `s` needs a budget
of `2 * len(s) + 1` at most, `parseFunctionsArgs` and
`parseCompositeTypeWithName` likewise; a successful `parseFunctionsArgs` or
`parseCompositeTypeWithName` returns a proper suffix of the text it was given
(after the name), the argument loop and `parseTypeWithName` return a suffix of
their text, which for `parseTypeWithName` can be the whole text; the loop
drops one byte before each call of `parseTypeWithName`. -/
theorem C19_terminates :
    (∀ s, ParseSelector s ≠ .abort .outOfFuel)
      ∧ (∀ F s k, 2 * s.length + 1 ≤ F → parseTypeWithName F s k ≠ .abort .outOfFuel)
      ∧ (∀ F s, 2 * s.length ≤ F + 1 → parseFunctionsArgs F s ≠ .abort .outOfFuel)
      ∧ (∀ F name cs, (∀ c ∈ name, c ≠ 32) → 2 * cs.length + 2 ≤ F →
          parseCompositeTypeWithName F (joinNameType name (40 :: cs)) ≠ .abort .outOfFuel)
      ∧ (∀ F result rest k, 2 * rest.length + 1 ≤ F →
          parseArgsLoop F result rest k ≠ .abort .outOfFuel)
      ∧ (∀ F s k node rest, parseTypeWithName F s k = .ret (.ok (node, rest)) → rest <:+ s)
      ∧ (∀ F result rest k res rest2,
          parseArgsLoop F result rest k = .ret (.ok (res, rest2)) → rest2 <:+ rest)
      ∧ (∀ F s result rest, parseFunctionsArgs F s = .ret (.ok (result, rest)) →
          rest <:+ s ∧ rest.length < s.length)
      ∧ ∀ F name cs result rest, (∀ c ∈ name, c ≠ 32) →
          parseCompositeTypeWithName F (joinNameType name (40 :: cs))
            = .ret (.ok (result, rest)) →
          rest <:+ 40 :: cs ∧ rest.length < (40 :: cs).length := by
  refine ⟨fun s => ParseSelector_returns s _, ?_, ?_, ?_, ?_, ?_, ?_, ?_, ?_⟩
  · intro F s k hF
    exact ((parser_invariant s F).1 s k (fun _ h => h)).2.1 hF
  · intro F s hF
    exact (parseFunctionsArgs_inv s F s (fun _ h => h)).2.1 hF
  · intro F name cs hname hF
    exact ((parser_invariant cs F).2.1 name cs hname (fun _ h => h)).2.1 hF
  · intro F result rest k hF
    exact ((parser_invariant rest F).2.2 result rest k (fun _ h => h)).2.1 hF
  · intro F s k node rest h
    exact (((parser_invariant s F).1 s k (fun _ h => h)).2.2 node rest h).2
  · intro F result rest k res rest2 h
    exact (((parser_invariant rest F).2.2 result rest k (fun _ h => h)).2.2 res rest2 h).1
  · intro F s result rest h
    exact ((parseFunctionsArgs_inv s F s (fun _ h => h)).2.2 result rest h).2
  · intro F name cs result rest hname h
    have hsuf := (((parser_invariant cs F).2.1 name cs hname (fun _ h => h)).2.2 result rest h).2
    refine ⟨List.IsSuffix.trans hsuf (List.suffix_cons _ _), ?_⟩
    have := hsuf.length_le
    simp only [List.length_cons]
    omega

/-- C20: `ParseSelector` never panics. On every input byte string the slice
expressions are in bounds and the type assertion `components[0].(string)` is
applied to a string: the call returns a pair of a `SelectorMarshaling` and an
error value (nil or not). -/
theorem C20_never_panics (s : GoString) :
    ParseSelector s ≠ .abort .panic
      ∧ ∃ (m : SelectorMarshaling) (err : Option Err), ParseSelector s = .ret (m, err) := by
  refine ⟨ParseSelector_returns s _, ?_⟩
  rcases h : ParseSelector s with ⟨m, err⟩ | a
  · exact ⟨m, err, rfl⟩
  · exact absurd h (ParseSelector_returns s a)

end SelectorParser
